import Mathlib

/-!
Shallow embedding of the Sokoban-style planner core
(`state.py`, `maze.py`, `actions.py`, `heuristics.py`, `search.py`).

Coordinates are pairs of mathematical integers (Python `int` is unbounded).
Python tuples become Lean pairs/lists, `frozenset` becomes `Finset`,
dictionaries become association lists with first-match lookup (Python dicts
have unique keys; the parser builds them that way).  Wall-clock timing
(`time_taken`) is the only field of `SearchResult` not modelled.
The unbounded `while` loops of `search.py` are modelled with an explicit
fuel parameter; `none` means the loop was cut off before finishing, so
every statement about a finished run is conditioned on a `some` result.
-/

set_option synthInstance.maxSize 512

namespace Soko

abbrev Pos := Int × Int

/-- `state.py` `State` (frozen dataclass): agent position, optional carried
box id, box positions (tuple of pairs), owned keys (frozenset), keys on the
floor (tuple of pairs), and accumulated path cost `g`. -/
structure State where
  soko_pos : Pos
  carried_box : Option String
  box_positions : List (String × Pos)
  keys_owned : Finset String
  keys_on_floor : List (String × Pos)
  g : Nat
deriving DecidableEq

/-- The type of the canonical deduplication key produced by `state_key`. -/
abbrev StateKey :=
  Pos × Option String × List (String × Pos) × Finset String × List (String × Pos)

/-- `state.py` `state_key`: the tuple of every field except `g`. -/
def state_key (s : State) : StateKey :=
  (s.soko_pos, s.carried_box, s.box_positions, s.keys_owned, s.keys_on_floor)

/-- Lexicographic comparison of character lists by code point: Python's
string ordering. -/
def charsLt : List Char → List Char → Bool
  | [], [] => false
  | [], _ :: _ => true
  | _ :: _, [] => false
  | c :: cs, d :: ds =>
    if c.val < d.val then true
    else if d.val < c.val then false
    else charsLt cs ds

/-- Python `<` on strings. -/
def strLt (a b : String) : Bool :=
  charsLt a.data b.data

/-- Python `<=` on strings. -/
def strLe (a b : String) : Bool :=
  !(strLt b a)

/-- Insert a pair behind every entry whose key is not greater: the insertion
step of a stable sort by key. -/
def insertByKey (kv : String × Pos) : List (String × Pos) → List (String × Pos)
  | [] => [kv]
  | a :: rest => if strLt kv.1 a.1 then kv :: a :: rest else a :: insertByKey kv rest

/-- Python `sorted` on the items of a dict with string keys: keys are unique,
so sorting the pairs lexicographically is a stable sort by key. -/
def sortByKey (l : List (String × Pos)) : List (String × Pos) :=
  l.foldl (fun acc kv => insertByKey kv acc) []

/-- `state.py` `make_initial_state`: no carried box, no keys owned,
box and key tables sorted by id, `g = 0`. -/
def make_initial_state (soko_pos : Pos) (boxes : List (String × Pos))
    (keys : List (String × Pos)) : State :=
  { soko_pos := soko_pos
    carried_box := none
    box_positions := sortByKey boxes
    keys_owned := ∅
    keys_on_floor := sortByKey keys
    g := 0 }

/-- One assignment `d[k] = v` into a Python dict rendered as an association
list: an existing key keeps its position and gets the new value, a new key
goes to the end. -/
def pyDictInsert (acc : List (String × Pos)) (kv : String × Pos) :
    List (String × Pos) :=
  if acc.any (fun p => p.1 == kv.1) then
    acc.map (fun p => if p.1 = kv.1 then (p.1, kv.2) else p)
  else
    acc ++ [kv]

/-- Python `dict(pairs)`: insert the pairs left to right. -/
def pyDict (l : List (String × Pos)) : List (String × Pos) :=
  l.foldl pyDictInsert []

/-- `state.py` `boxes_dict`: dictionary view of `box_positions`. -/
def boxes_dict (s : State) : List (String × Pos) :=
  pyDict s.box_positions

/-- Python `d.get(k)` on a dict rendered as an association list. -/
def lookupPos (l : List (String × Pos)) (k : String) : Option Pos :=
  (l.find? (fun kv => kv.1 == k)).map Prod.snd

/-- Python truthiness of an `Optional[str]`: `None` and `""` are falsy. -/
def pyTruthyStrOpt : Option String → Bool
  | none => false
  | some s => s ≠ ""

/-- `maze.py` `Maze`: static grid data.  `zones` and `doors` are dicts
(unique keys by construction of the parser). -/
structure Maze where
  width : Int
  height : Int
  walls : List Pos
  zones : List (String × Pos)
  doors : List (String × Pos)
deriving DecidableEq

/-- `maze.py` `is_wall`. -/
def is_wall (m : Maze) (pos : Pos) : Bool :=
  m.walls.contains pos

/-- `maze.py` `in_bounds`: `0 <= x < width` and `0 <= y < height`. -/
def in_bounds (m : Maze) (pos : Pos) : Bool :=
  decide (0 ≤ pos.1 ∧ pos.1 < m.width ∧ 0 ≤ pos.2 ∧ pos.2 < m.height)

/-- `maze.py` `door_id_at`: first door whose coordinate matches, else none. -/
def door_id_at (m : Maze) (pos : Pos) : Option String :=
  (m.doors.find? (fun kv => kv.2 == pos)).map Prod.fst

/-- `actions.py` `can_move_to`: inside the grid, not a wall, and any (truthy)
door id at the target must be among the owned keys. -/
def can_move_to (m : Maze) (s : State) (new_pos : Pos) : Bool :=
  if ¬ in_bounds m new_pos then false
  else if is_wall m new_pos then false
  else
    match door_id_at m new_pos with
    | some d => if d ≠ "" ∧ d ∉ s.keys_owned then false else true
    | none => true

/-- `actions.py` `move_soko` (the `action_name` argument is unused in the
source as well). -/
def move_soko (s : State) (new_pos : Pos) (_action_name : String) : State :=
  { soko_pos := new_pos
    carried_box := s.carried_box
    box_positions := s.box_positions
    keys_owned := s.keys_owned
    keys_on_floor := s.keys_on_floor
    g := s.g + 1 }

/-- `actions.py` `take_key`: remove the key from the floor, add it to the
owned set, `g + 1`. -/
def take_key (s : State) (key_id : String) : State :=
  { soko_pos := s.soko_pos
    carried_box := s.carried_box
    box_positions := s.box_positions
    keys_owned := s.keys_owned ∪ {key_id}
    keys_on_floor := s.keys_on_floor.filter (fun kv => kv.1 ≠ key_id)
    g := s.g + 1 }

/-- `actions.py` `lift_box`: set the carried box, `g + 1`. -/
def lift_box (s : State) (box_id : String) : State :=
  { soko_pos := s.soko_pos
    carried_box := some box_id
    box_positions := s.box_positions
    keys_owned := s.keys_owned
    keys_on_floor := s.keys_on_floor
    g := s.g + 1 }

/-- `actions.py` `drop_box`: clear the carried box, move its entry in
`box_positions` to the zone coordinate, `g + 1`. -/
def drop_box (s : State) (box_id : String) (zone_pos : Pos) : State :=
  { soko_pos := s.soko_pos
    carried_box := none
    box_positions :=
      s.box_positions.map (fun bp => (bp.1, if bp.1 = box_id then zone_pos else bp.2))
    keys_owned := s.keys_owned
    keys_on_floor := s.keys_on_floor
    g := s.g + 1 }

/-- `actions.py` `get_successors`: moves Left/Right/Up/Down filtered by
`can_move_to`, then Take Key for keys under the agent, then (if hands are
free) Lift Box for boxes under the agent, then (if carrying and standing on
that box's zone) Drop Box.  The appends of the Python loop are rendered as
`filter`/`map` over the same lists in the same order. -/
def get_successors (m : Maze) (s : State) : List (State × String) :=
  let x := s.soko_pos.1
  let y := s.soko_pos.2
  let movement_actions : List (Pos × String) :=
    [((x - 1, y), "Left"), ((x + 1, y), "Right"), ((x, y - 1), "Up"), ((x, y + 1), "Down")]
  let moves := (movement_actions.filter (fun pa => can_move_to m s pa.1)).map
    (fun pa => (move_soko s pa.1 pa.2, pa.2))
  let takes := (s.keys_on_floor.filter (fun kv => kv.2 == s.soko_pos)).map
    (fun kv => (take_key s kv.1, "Take Key " ++ kv.1))
  let lifts :=
    if s.carried_box = none then
      (s.box_positions.filter (fun bp => bp.2 == s.soko_pos)).map
        (fun bp => (lift_box s bp.1, "Lift Box " ++ bp.1))
    else []
  let drops :=
    match s.carried_box with
    | none => []
    | some box_id =>
      match lookupPos m.zones box_id with
      | none => []
      | some zone_pos =>
        if s.soko_pos = zone_pos then
          [(drop_box s box_id zone_pos, "Drop Box " ++ box_id)]
        else []
  moves ++ takes ++ lifts ++ drops

/-- `actions.py` `is_goal_state` (the variant `search.py` imports): every box
recorded in the state sits on the zone of its own id; a box id with no zone
makes the comparison `None != box_pos` true and the test fail. -/
def is_goal_state (m : Maze) (s : State) : Bool :=
  s.box_positions.all (fun bp => lookupPos m.zones bp.1 == some bp.2)

/-- `heuristics.py` `manhattan_distance`. -/
def manhattan_distance (p q : Pos) : Int :=
  |p.1 - q.1| + |p.2 - q.2|

/-- Python attribute lookup `state.robot_pos` on the `State` dataclass of
`state.py`, whose fields are `soko_pos`, `carried_box`, `box_positions`,
`keys_owned`, `keys_on_floor`, `g`.  There is no field `robot_pos`, so the
lookup raises `AttributeError` on every state; the failure is modelled as
`none`. -/
def robotPos? (_s : State) : Option Pos :=
  none

/-- The list of misplaced `(box_id, box_pos, zone_pos)` triples built by both
heuristics: boxes that have a (truthy) zone and are not on it. -/
def misplacedBoxes (m : Maze) (box_positions : List (String × Pos)) :
    List (String × Pos × Pos) :=
  box_positions.filterMap (fun bp =>
    match lookupPos m.zones bp.1 with
    | some zp => if bp.2 ≠ zp then some (bp.1, bp.2, zp) else none
    | none => none)

/-- The missing-key penalty of `heuristics.py`:
`set(maze.doors.keys()) - state.keys_owned`, added when nonempty. -/
def keyPenalty (m : Maze) (s : State) : Int :=
  let keys_needed := (m.doors.map Prod.fst).toFinset \ s.keys_owned
  if keys_needed ≠ ∅ then (keys_needed.card : Int) else 0

/-- `heuristics.py` `heuristic_manhattan`.  The body first reads
`state.robot_pos`, which raises `AttributeError` (see `robotPos?`); the rest
of the function is translated nonetheless and runs only if that read were to
produce a value. -/
def heuristic_manhattan (m : Maze) (s : State) : Option Int :=
  match robotPos? s with
  | none => none
  | some robot_pos =>
    let box_positions := pyDict s.box_positions
    let base : Int :=
      if pyTruthyStrOpt s.carried_box then
        match lookupPos m.zones (s.carried_box.getD "") with
        | some zone_pos => manhattan_distance robot_pos zone_pos
        | none => 0
      else
        match misplacedBoxes m box_positions with
        | [] => 0
        | mb :: rest =>
          let min_robot_to_box :=
            rest.foldl (fun acc bp => min acc (manhattan_distance robot_pos bp.2.1))
              (manhattan_distance robot_pos mb.2.1)
          let sum_box_to_zone :=
            (mb :: rest).foldl (fun acc bp => acc + manhattan_distance bp.2.1 bp.2.2) 0
          min_robot_to_box + sum_box_to_zone
    some (base + keyPenalty m s)

/-- Modelled from the spec: §4.2 "Manhattan" describes the intended heuristic
value (the agent position read from the state's actual position field):
if carrying, the L1 distance from the agent to the carried box's zone;
otherwise the minimum L1 distance from the agent to a misplaced box plus the
sum of the misplaced boxes' L1 distances to their zones; plus 1 per distinct
door id not among the owned keys. -/
def heuristicManhattanSpec (m : Maze) (s : State) : Int :=
  (match s.carried_box with
    | some box_id =>
      match lookupPos m.zones box_id with
      | some zone_pos => manhattan_distance s.soko_pos zone_pos
      | none => 0
    | none =>
      match misplacedBoxes m s.box_positions with
      | [] => 0
      | mb :: rest =>
        (rest.foldl (fun acc bp => min acc (manhattan_distance s.soko_pos bp.2.1))
          (manhattan_distance s.soko_pos mb.2.1))
        + ((mb :: rest).foldl (fun acc bp => acc + manhattan_distance bp.2.1 bp.2.2) 0))
  + (((m.doors.map Prod.fst).toFinset \ s.keys_owned).card : Int)

/-- `search.py` `SearchResult` (the wall-clock `time_taken` field is not
modelled).  Fields keep their Python initial values until assigned. -/
structure SearchResult where
  plan : List String
  success : Bool
  states_generated : Nat
  states_expanded : Nat
  plan_length : Nat
deriving DecidableEq

/-- The `came_from` dictionary: keyed by the full `State` (Python hashes the
frozen dataclass with `g` included); the value is `(predecessor, action)`.
Assignment prepends, lookup takes the most recent binding, which is Python's
overwrite semantics. -/
abbrev CameFrom := List (State × State × String)

def lookupCF (cf : CameFrom) (s : State) : Option (State × String) :=
  (cf.find? (fun e => decide (e.1 = s))).map Prod.snd

/-- Python truthiness of a string (`if action:`). -/
def pyTruthyStr (s : String) : Bool :=
  s ≠ ""

/-- The `while current in came_from` loop of `search.py` `reconstruct_plan`:
walk backwards collecting the truthy labels, then reverse.  `fuel` bounds the
walk; `none` means it did not finish within `fuel` steps (a cyclic chain, on
which the Python loop would not terminate). -/
def reconstructLoop (cf : CameFrom) : Nat → State → List String → Option (List String)
  | 0, cur, plan =>
    if (lookupCF cf cur).isSome then none else some plan.reverse
  | fuel + 1, cur, plan =>
    match lookupCF cf cur with
    | none => some plan.reverse
    | some (prev, action) =>
      reconstructLoop cf fuel prev (if pyTruthyStr action then plan ++ [action] else plan)

/-- `search.py` `reconstruct_plan`.  An acyclic predecessor chain visits each
`came_from` key at most once, so `cf.length + 1` fuel always suffices when
the Python loop terminates. -/
def reconstruct_plan (cf : CameFrom) (goal_state : State) : Option (List String) :=
  reconstructLoop cf (cf.length + 1) goal_state []

/-- The successor `for` loop of `breadth_first_search`: unexplored successors
are marked explored, recorded in `came_from`, appended to the back of the
queue and counted. -/
def bfsExpand (cur : State) :
    List (State × String) → List State → List StateKey → CameFrom → Nat →
    List State × List StateKey × CameFrom × Nat
  | [], frontier, explored, cf, gen => (frontier, explored, cf, gen)
  | (succ, action) :: rest, frontier, explored, cf, gen =>
    if state_key succ ∈ explored then
      bfsExpand cur rest frontier explored cf gen
    else
      bfsExpand cur rest (frontier ++ [succ]) (state_key succ :: explored)
        ((succ, cur, action) :: cf) (gen + 1)

/-- The `while frontier` loop of `breadth_first_search`. -/
def bfsLoop (m : Maze) :
    Nat → List State → List StateKey → CameFrom → Nat → Nat → Option SearchResult
  | 0, _, _, _, _, _ => none
  | fuel + 1, frontier, explored, cf, gen, exp =>
    match frontier with
    | [] => some ⟨[], false, gen, exp, 0⟩
    | current :: rest =>
      if is_goal_state m current then
        match reconstruct_plan cf current with
        | none => none
        | some plan => some ⟨plan, true, gen, exp + 1, plan.length⟩
      else
        match bfsExpand current (get_successors m current) rest explored cf gen with
        | (frontier', explored', cf', gen') =>
          bfsLoop m fuel frontier' explored' cf' gen' (exp + 1)

/-- `search.py` `breadth_first_search`: FIFO frontier seeded with the initial
state, which is marked explored and counted as generated. -/
def breadth_first_search (m : Maze) (initial_state : State) (fuel : Nat) :
    Option SearchResult :=
  bfsLoop m fuel [initial_state] [state_key initial_state] [] 1 0

/-- A `heapq` entry `(priority, counter, state)`. -/
abbrev PQE := Int × Nat × State

/-- Strict order on heap entries by `(priority, counter)`; the insertion
counters are pairwise distinct in every run, so the heap never compares the
`State` components (Python would raise if it did). -/
def pqLt (a b : PQE) : Bool :=
  a.1 < b.1 || (a.1 == b.1 && a.2.1 < b.2.1)

/-- `heapq.heappop`: remove the least entry by `(priority, counter)`. -/
def popMin : List PQE → Option (PQE × List PQE)
  | [] => none
  | e :: rest =>
    match popMin rest with
    | none => some (e, [])
    | some (least, rest') =>
      if pqLt least e then some (least, e :: rest') else some (e, rest)

/-- The successor `for` loop of `greedy_best_first_search`: unexplored
successors are marked explored, recorded, pushed with priority `h` and the
next counter, and counted. -/
def greedyExpand (m : Maze) (h : Maze → State → Int) (cur : State) :
    List (State × String) → List PQE → List StateKey → CameFrom → Nat → Nat →
    List PQE × List StateKey × CameFrom × Nat × Nat
  | [], frontier, explored, cf, gen, counter => (frontier, explored, cf, gen, counter)
  | (succ, action) :: rest, frontier, explored, cf, gen, counter =>
    if state_key succ ∈ explored then
      greedyExpand m h cur rest frontier explored cf gen counter
    else
      greedyExpand m h cur rest (frontier ++ [(h m succ, counter, succ)])
        (state_key succ :: explored) ((succ, cur, action) :: cf) (gen + 1) (counter + 1)

/-- The `while frontier` loop of `greedy_best_first_search`. -/
def greedyLoop (m : Maze) (h : Maze → State → Int) :
    Nat → List PQE → List StateKey → CameFrom → Nat → Nat → Nat → Option SearchResult
  | 0, _, _, _, _, _, _ => none
  | fuel + 1, frontier, explored, cf, gen, exp, counter =>
    match popMin frontier with
    | none => some ⟨[], false, gen, exp, 0⟩
    | some ((_, _, current), rest) =>
      if is_goal_state m current then
        match reconstruct_plan cf current with
        | none => none
        | some plan => some ⟨plan, true, gen, exp + 1, plan.length⟩
      else
        match greedyExpand m h current (get_successors m current) rest explored cf gen counter with
        | (frontier', explored', cf', gen', counter') =>
          greedyLoop m h fuel frontier' explored' cf' gen' (exp + 1) counter'

/-- `search.py` `greedy_best_first_search`: priority frontier ordered by the
heuristic, the initial state marked explored and counted. -/
def greedy_best_first_search (m : Maze) (initial_state : State)
    (h : Maze → State → Int) (fuel : Nat) : Option SearchResult :=
  greedyLoop m h fuel [(h m initial_state, 0, initial_state)]
    [state_key initial_state] [] 1 0 1

/-- The best-known-`g` map of `a_star_search`, keyed by canonical key.
Assignment prepends (overwrite by shadowing). -/
abbrev GValues := List (StateKey × Nat)

def lookupGV (gv : GValues) (k : StateKey) : Option Nat :=
  (gv.find? (fun (e : StateKey × Nat) => decide (e.1 = k))).map Prod.snd

/-- The successor `for` loop of `a_star_search`: a successor whose key is
explored is skipped; otherwise it is pushed (with `f = g + h` and the next
counter) and recorded exactly when its key is new to `g_values` or its `g`
strictly improves the recorded best, the map being updated on push. -/
def astarRelax (m : Maze) (h : Maze → State → Int) (cur : State)
    (explored : List StateKey) :
    List (State × String) → List PQE → CameFrom → GValues → Nat → Nat →
    List PQE × CameFrom × GValues × Nat × Nat
  | [], frontier, cf, gv, gen, counter => (frontier, cf, gv, gen, counter)
  | (succ, action) :: rest, frontier, cf, gv, gen, counter =>
    if state_key succ ∈ explored then
      astarRelax m h cur explored rest frontier cf gv gen counter
    else
      let better :=
        match lookupGV gv (state_key succ) with
        | none => true
        | some best => decide (succ.g < best)
      if better then
        astarRelax m h cur explored rest
          (frontier ++ [((succ.g : Int) + h m succ, counter, succ)])
          ((succ, cur, action) :: cf) ((state_key succ, succ.g) :: gv)
          (gen + 1) (counter + 1)
      else
        astarRelax m h cur explored rest frontier cf gv gen counter

/-- The `while frontier` loop of `a_star_search`: a popped entry whose key is
already explored is discarded; otherwise the key becomes explored, the state
is counted as expanded and goal-tested, then its successors are relaxed. -/
def astarLoop (m : Maze) (h : Maze → State → Int) :
    Nat → List PQE → List StateKey → CameFrom → GValues → Nat → Nat → Nat →
    Option SearchResult
  | 0, _, _, _, _, _, _, _ => none
  | fuel + 1, frontier, explored, cf, gv, gen, exp, counter =>
    match popMin frontier with
    | none => some ⟨[], false, gen, exp, 0⟩
    | some ((_, _, current), rest) =>
      if state_key current ∈ explored then
        astarLoop m h fuel rest explored cf gv gen exp counter
      else
        if is_goal_state m current then
          match reconstruct_plan cf current with
          | none => none
          | some plan => some ⟨plan, true, gen, exp + 1, plan.length⟩
        else
          match astarRelax m h current (state_key current :: explored)
              (get_successors m current) rest cf gv gen counter with
          | (frontier', cf', gv', gen', counter') =>
            astarLoop m h fuel frontier' (state_key current :: explored) cf' gv'
              gen' (exp + 1) counter'

/-- `search.py` `a_star_search`: frontier seeded with `f = g + h` of the
initial state, empty explored set, `g_values` holding the initial key. -/
def a_star_search (m : Maze) (initial_state : State) (h : Maze → State → Int)
    (fuel : Nat) : Option SearchResult :=
  astarLoop m h fuel [((initial_state.g : Int) + h m initial_state, 0, initial_state)]
    [] [] [(state_key initial_state, initial_state.g)] 1 0 1

/-- The `while s != current_state and s in came_from` fragment walk of
`enforced_hill_climbing` (labels are appended without a truthiness check,
unlike `reconstruct_plan`), then reversed.  `none` means the walk did not
finish within `fuel` steps. -/
def ehcPathLoop (cf : CameFrom) (root : State) :
    Nat → State → List String → Option (List String)
  | 0, s, acc =>
    if s ≠ root ∧ (lookupCF cf s).isSome then none else some acc.reverse
  | fuel + 1, s, acc =>
    if s = root then some acc.reverse
    else
      match lookupCF cf s with
      | none => some acc.reverse
      | some (prev, action) => ehcPathLoop cf root fuel prev (acc ++ [action])

def ehcPath (cf : CameFrom) (root s : State) : Option (List String) :=
  ehcPathLoop cf root (cf.length + 1) s []

/-- Outcome of processing one expanded state's successor list inside an
enforced-hill-climbing round. -/
inductive EhcStep where
  | ret (r : SearchResult)
  | commit (next : State) (next_h : Int) (plan : List String) (gen : Nat)
  | cont (frontier : List State) (explored : List StateKey) (cf : CameFrom) (gen : Nat)
  | cut

/-- The successor `for` loop of `enforced_hill_climbing`: each new successor
is recorded and counted, then immediately goal-tested (returning the whole
search's success result with the round fragment appended), then compared
against `current_h` (committing to the first strict improvement and breaking
out); otherwise it joins the round frontier.  `cut` models a fragment walk
that does not terminate. -/
def ehcProcess (m : Maze) (h : Maze → State → Int) (plan : List String)
    (root : State) (current_h : Int) (st : State) :
    List (State × String) → List State → List StateKey → CameFrom → Nat → Nat →
    EhcStep
  | [], frontier, explored, cf, gen, _exp => .cont frontier explored cf gen
  | (succ, action) :: rest, frontier, explored, cf, gen, exp =>
    if state_key succ ∈ explored then
      ehcProcess m h plan root current_h st rest frontier explored cf gen exp
    else
      let explored' := state_key succ :: explored
      let cf' := (succ, st, action) :: cf
      let gen' := gen + 1
      if is_goal_state m succ then
        match ehcPath cf' root succ with
        | none => .cut
        | some frag => .ret ⟨plan ++ frag, true, gen', exp, (plan ++ frag).length⟩
      else
        let succ_h := h m succ
        if succ_h < current_h then
          match ehcPath cf' root succ with
          | none => .cut
          | some frag => .commit succ succ_h (plan ++ frag) gen'
        else
          ehcProcess m h plan root current_h st rest (frontier ++ [succ])
            explored' cf' gen' exp

/-- Result of one round's `while frontier and not found_better` sub-search. -/
inductive EhcRound where
  | ret (r : SearchResult)
  | commit (next : State) (next_h : Int) (plan : List String) (gen : Nat) (exp : Nat)
  | exhausted (gen : Nat) (exp : Nat)

/-- The inner BFS sub-search of `enforced_hill_climbing`: pop from the round
frontier, count the expansion, process the successors; stop on a goal result,
on a committed improvement, or when the frontier empties. -/
def ehcInner (m : Maze) (h : Maze → State → Int) (plan : List String)
    (root : State) (current_h : Int) :
    Nat → List State → List StateKey → CameFrom → Nat → Nat → Option EhcRound
  | 0, _, _, _, _, _ => none
  | fuel + 1, frontier, explored, cf, gen, exp =>
    match frontier with
    | [] => some (.exhausted gen exp)
    | st :: rest =>
      match ehcProcess m h plan root current_h st (get_successors m st) rest
          explored cf gen (exp + 1) with
      | .ret r => some (.ret r)
      | .commit next nh plan' gen' => some (.commit next nh plan' gen' (exp + 1))
      | .cont frontier' explored' cf' gen' =>
        ehcInner m h plan root current_h fuel frontier' explored' cf' gen' (exp + 1)
      | .cut => none

/-- The outer `while not is_goal_state(...)` loop of
`enforced_hill_climbing`: each round runs a fresh sub-search rooted at the
current state; a committed improvement continues, an exhausted round returns
failure, a goal returns success. -/
def ehcOuter (m : Maze) (h : Maze → State → Int) :
    Nat → Nat → State → Int → List String → Nat → Nat → Option SearchResult
  | 0, _, _, _, _, _, _ => none
  | outer_fuel + 1, inner_fuel, current, current_h, plan, gen, exp =>
    if is_goal_state m current then
      some ⟨plan, true, gen, exp, plan.length⟩
    else
      match ehcInner m h plan current current_h inner_fuel [current]
          [state_key current] [] gen exp with
      | none => none
      | some (.ret r) => some r
      | some (.commit next nh plan' gen' exp') =>
        ehcOuter m h outer_fuel inner_fuel next nh plan' gen' exp'
      | some (.exhausted gen' exp') => some ⟨[], false, gen', exp', 0⟩

/-- `search.py` `enforced_hill_climbing`: start from the initial state with
its heuristic value, an empty plan, one generated state. -/
def enforced_hill_climbing (m : Maze) (initial_state : State)
    (h : Maze → State → Int) (outer_fuel inner_fuel : Nat) : Option SearchResult :=
  ehcOuter m h outer_fuel inner_fuel initial_state (h m initial_state) [] 1 0

/-! ## Theorems -/

/-- C1: the claim says every run of the four algorithms completes without
runtime failure, and in particular that every call of `heuristic_manhattan`
on any constructible `State` succeeds and returns a value.  In the code the
very first statement of `heuristic_manhattan` reads `state.robot_pos`, an
attribute the `State` dataclass does not have (its field is `soko_pos`), so
the call raises `AttributeError` on every maze and every state, and any
`greedy`/`astar`/`ehc` run through `run_search` crashes at its first
heuristic call. -/
theorem heuristic_manhattan_never_returns (m : Maze) (s : State) :
    heuristic_manhattan m s = none := rfl

/-- The goal condition exactly as the claim words it: every box id present in
the world's zones mapping has the state's recorded position equal to the zone
coordinate (an id with no entry in `box_positions` fails the condition). -/
def goalOverZones (m : Maze) (s : State) : Prop :=
  ∀ kv ∈ m.zones, lookupPos s.box_positions kv.1 = some kv.2

instance (m : Maze) (s : State) : Decidable (goalOverZones m s) :=
  inferInstanceAs (Decidable (∀ kv ∈ m.zones, lookupPos s.box_positions kv.1 = some kv.2))

/-- C3 counterexample: a world whose zones table maps box id `A` while the
state holds no boxes at all.  `is_goal_state` iterates over the state's
boxes, finds none, and returns `true`; the claim's condition quantifies over
the zones and is false there, so the claimed equivalence fails. -/
theorem goal_test_zone_quantified_cex :
    is_goal_state ⟨3, 3, [], [("A", (0, 0))], []⟩ (make_initial_state (0, 0) [] []) = true ∧
    ¬ goalOverZones ⟨3, 3, [], [("A", (0, 0))], []⟩ (make_initial_state (0, 0) [] []) := by
  decide

/-- C3 amended: `is_goal_state maze state` is true iff every box recorded in
`state.box_positions` has `maze.zones.get(id)` equal to its recorded
position; ids present in `zones` but absent from the state are not
examined. -/
theorem is_goal_state_characterization (m : Maze) (s : State) :
    is_goal_state m s = true ↔ ∀ bp ∈ s.box_positions, lookupPos m.zones bp.1 = some bp.2 := by
  simp [is_goal_state, List.all_eq_true]

/-- The maze of spec Scenario C: zones `A ↦ (2,3)`, `B ↦ (2,4)`, no doors. -/
def mazeScenarioC : Maze :=
  ⟨6, 6, [], [("A", (2, 3)), ("B", (2, 4))], []⟩

/-- The state of spec Scenario C: agent at the origin carrying nothing, box
`A` at `(1,2)` (agent distance 3, zone distance 2), box `B` at `(2,3)`
(agent distance 5, zone distance 1), no keys anywhere. -/
def stateScenarioC : State :=
  make_initial_state (0, 0) [("A", (1, 2)), ("B", (2, 3))] []

/-- C4: on the Scenario C configuration the claim demands the value 6, and
the computation described by the spec (and written in the body of
`heuristic_manhattan`) does produce 6 — but the actual call fails on the
`state.robot_pos` attribute read before computing anything. -/
theorem scenario_c_manhattan :
    heuristic_manhattan mazeScenarioC stateScenarioC = none ∧
    heuristicManhattanSpec mazeScenarioC stateScenarioC = 6 := by
  exact ⟨rfl, by decide⟩

/-- The successor contract as the claim states it: the exact segment order
(moves Left/Right/Up/Down each present iff `can_move_to` allows the target,
then the Take Key entries for keys under the agent, then — with free hands —
the Lift Box entries for boxes under the agent, then the single Drop Box
entry exactly when the carried box's zone is the agent's square), the
ascending id order of the Take and Lift segments, unit cost increments, and
the fixed label vocabulary. -/
def successorsContract (m : Maze) (s : State) : Prop :=
  (get_successors m s =
    (if can_move_to m s (s.soko_pos.1 - 1, s.soko_pos.2) = true then
       [(move_soko s (s.soko_pos.1 - 1, s.soko_pos.2) "Left", "Left")] else []) ++
    (if can_move_to m s (s.soko_pos.1 + 1, s.soko_pos.2) = true then
       [(move_soko s (s.soko_pos.1 + 1, s.soko_pos.2) "Right", "Right")] else []) ++
    (if can_move_to m s (s.soko_pos.1, s.soko_pos.2 - 1) = true then
       [(move_soko s (s.soko_pos.1, s.soko_pos.2 - 1) "Up", "Up")] else []) ++
    (if can_move_to m s (s.soko_pos.1, s.soko_pos.2 + 1) = true then
       [(move_soko s (s.soko_pos.1, s.soko_pos.2 + 1) "Down", "Down")] else []) ++
    (s.keys_on_floor.filter (fun kv => kv.2 == s.soko_pos)).map
      (fun kv => (take_key s kv.1, "Take Key " ++ kv.1)) ++
    (if s.carried_box = none then
       (s.box_positions.filter (fun bp => bp.2 == s.soko_pos)).map
         (fun bp => (lift_box s bp.1, "Lift Box " ++ bp.1))
     else []) ++
    (match s.carried_box with
     | none => []
     | some box_id =>
       if lookupPos m.zones box_id = some s.soko_pos then
         [(drop_box s box_id s.soko_pos, "Drop Box " ++ box_id)]
       else [])) ∧
  ((s.keys_on_floor.filter (fun kv => kv.2 == s.soko_pos)).map Prod.fst).Pairwise
    (fun a b => strLe a b = true) ∧
  ((s.box_positions.filter (fun bp => bp.2 == s.soko_pos)).map Prod.fst).Pairwise
    (fun a b => strLe a b = true) ∧
  (∀ p ∈ get_successors m s, (p : State × String).1.g = s.g + 1 ∧
    (p.2 ∈ (["Left", "Right", "Up", "Down"] : List String) ∨
      ∃ id, p.2 = "Take Key " ++ id ∨ p.2 = "Lift Box " ++ id ∨ p.2 = "Drop Box " ++ id))

/-- C6: for any world, and any state whose key and box tables are sorted by
id (the data-model invariant established by `make_initial_state` and kept by
every transition), `get_successors` produces exactly the claimed ordered
segments with unit-cost successors and the fixed label vocabulary. -/
theorem get_successors_contract (m : Maze) (s : State)
    (hkeys : s.keys_on_floor.Pairwise (fun a b => strLe a.1 b.1 = true))
    (hboxes : s.box_positions.Pairwise (fun a b => strLe a.1 b.1 = true)) :
    successorsContract m s := by
  refine ⟨?_, ?_, ?_, ?_⟩
  · unfold get_successors
    cases hcb : s.carried_box with
    | none =>
      cases h1 : can_move_to m s (s.soko_pos.1 - 1, s.soko_pos.2) <;>
        cases h2 : can_move_to m s (s.soko_pos.1 + 1, s.soko_pos.2) <;>
        cases h3 : can_move_to m s (s.soko_pos.1, s.soko_pos.2 - 1) <;>
        cases h4 : can_move_to m s (s.soko_pos.1, s.soko_pos.2 + 1) <;>
        simp [List.filter_cons, h1, h2, h3, h4]
    | some box_id =>
      cases hz : lookupPos m.zones box_id with
      | none =>
        cases h1 : can_move_to m s (s.soko_pos.1 - 1, s.soko_pos.2) <;>
          cases h2 : can_move_to m s (s.soko_pos.1 + 1, s.soko_pos.2) <;>
          cases h3 : can_move_to m s (s.soko_pos.1, s.soko_pos.2 - 1) <;>
          cases h4 : can_move_to m s (s.soko_pos.1, s.soko_pos.2 + 1) <;>
          simp [List.filter_cons, h1, h2, h3, h4, hz]
      | some zone_pos =>
        by_cases hsz : s.soko_pos = zone_pos
        · subst hsz
          cases h1 : can_move_to m s (s.soko_pos.1 - 1, s.soko_pos.2) <;>
            cases h2 : can_move_to m s (s.soko_pos.1 + 1, s.soko_pos.2) <;>
            cases h3 : can_move_to m s (s.soko_pos.1, s.soko_pos.2 - 1) <;>
            cases h4 : can_move_to m s (s.soko_pos.1, s.soko_pos.2 + 1) <;>
            simp [List.filter_cons, h1, h2, h3, h4, hz]
        · have hsz' : zone_pos ≠ s.soko_pos := fun h => hsz h.symm
          cases h1 : can_move_to m s (s.soko_pos.1 - 1, s.soko_pos.2) <;>
            cases h2 : can_move_to m s (s.soko_pos.1 + 1, s.soko_pos.2) <;>
            cases h3 : can_move_to m s (s.soko_pos.1, s.soko_pos.2 - 1) <;>
            cases h4 : can_move_to m s (s.soko_pos.1, s.soko_pos.2 + 1) <;>
            simp [List.filter_cons, h1, h2, h3, h4, hz, hsz, hsz']
  · exact List.pairwise_map.mpr (hkeys.filter _)
  · exact List.pairwise_map.mpr (hboxes.filter _)
  · intro p hp
    simp only [get_successors, List.mem_append] at hp
    rcases hp with ((hp | hp) | hp) | hp
    · obtain ⟨pa, hpa, heq⟩ := List.mem_map.mp hp
      subst heq
      refine ⟨rfl, Or.inl ?_⟩
      have hmem := (List.mem_filter.mp hpa).1
      simp only [List.mem_cons, List.not_mem_nil, or_false] at hmem
      rcases hmem with rfl | rfl | rfl | rfl <;> simp
    · obtain ⟨kv, hkv, heq⟩ := List.mem_map.mp hp
      subst heq
      exact ⟨rfl, Or.inr ⟨kv.1, Or.inl rfl⟩⟩
    · by_cases hcb : s.carried_box = none
      · rw [if_pos hcb] at hp
        obtain ⟨bp, hbp, heq⟩ := List.mem_map.mp hp
        subst heq
        exact ⟨rfl, Or.inr ⟨bp.1, Or.inr (Or.inl rfl)⟩⟩
      · rw [if_neg hcb] at hp
        exact absurd hp (List.not_mem_nil p)
    · cases hcb : s.carried_box with
      | none => simp [hcb] at hp
      | some box_id =>
        simp only [hcb] at hp
        cases hz : lookupPos m.zones box_id with
        | none =>
          simp only [hz] at hp
          exact absurd hp (List.not_mem_nil p)
        | some zone_pos =>
          simp only [hz] at hp
          by_cases hsz : s.soko_pos = zone_pos
          · rw [if_pos hsz] at hp
            simp only [List.mem_singleton] at hp
            subst hp
            exact ⟨rfl, Or.inr ⟨box_id, Or.inr (Or.inr rfl)⟩⟩
          · rw [if_neg hsz] at hp
            exact absurd hp (List.not_mem_nil p)

/-- Witness for C6: a 2-by-1 world with zone `A` at the origin; the agent
stands at the origin on two keys `1` and `2`, with box `A` one square to the
right; both tables are sorted by id. -/
theorem get_successors_contract_witness :
    (List.Pairwise (fun a b => strLe a.1 b.1 = true)
        ([("1", ((0 : Int), (0 : Int))), ("2", (0, 0))]) ∧
      List.Pairwise (fun a b => strLe a.1 b.1 = true)
        ([("A", ((1 : Int), (0 : Int)))])) ∧
    successorsContract ⟨2, 1, [], [("A", (0, 0))], []⟩
      ⟨(0, 0), none, [("A", (1, 0))], ∅, [("1", (0, 0)), ("2", (0, 0))], 0⟩ :=
  ⟨⟨by decide, by decide⟩,
    get_successors_contract ⟨2, 1, [], [("A", (0, 0))], []⟩
      ⟨(0, 0), none, [("A", (1, 0))], ∅, [("1", (0, 0)), ("2", (0, 0))], 0⟩
      (by decide) (by decide)⟩

/-- A successor state with `g = 3` used in the C7 counterexample. -/
def astarCexSucc : State := ⟨(0, 0), none, [], ∅, [], 3⟩

/-- C7 counterexample: a successor whose canonical key has recorded best
`g = 5` while its own `g = 3` strictly improves it — the claimed rule says it
must be pushed — but whose key is already in the explored set, so
`a_star_search`'s successor loop leaves the frontier, `came_from`, `g_values`
and the counters untouched (no reopening of explored keys). -/
theorem astar_push_rule_cex :
    (astarCexSucc.g < 5 ∧
      lookupGV [(state_key astarCexSucc, 5)] (state_key astarCexSucc) = some 5) ∧
    astarRelax ⟨1, 1, [], [], []⟩ (fun _ _ => 0) astarCexSucc [state_key astarCexSucc]
      [(astarCexSucc, "Left")] [] [] [(state_key astarCexSucc, 5)] 1 1 =
      ([], [], [(state_key astarCexSucc, 5)], 1, 1) := by
  exact ⟨⟨by decide, by decide⟩, rfl⟩

/-- C7 amended: in `a_star_search`, a generated successor is pushed exactly
when its canonical key is not in the explored set AND (the key was never
recorded in the best-`g` map OR its `g` strictly improves the recorded best),
with the map updated on push (conjuncts 1-4 cover the four cases of one
successor-processing step); and a popped entry whose key is already explored
is discarded: the loop continues on the remaining frontier with explored set,
`came_from`, `g_values` and both counters unchanged, without goal-testing or
expanding the popped state (conjunct 5). -/
theorem astar_dedup_and_push_rule :
    (∀ m h cur explored succ action frontier cf gv gen counter,
      state_key succ ∉ explored →
      lookupGV gv (state_key succ) = none →
      astarRelax m h cur explored [(succ, action)] frontier cf gv gen counter =
        (frontier ++ [((succ.g : Int) + h m succ, counter, succ)],
          (succ, cur, action) :: cf, (state_key succ, succ.g) :: gv,
          gen + 1, counter + 1)) ∧
    (∀ m h cur explored succ action frontier cf gv gen counter best,
      state_key succ ∉ explored →
      lookupGV gv (state_key succ) = some best →
      succ.g < best →
      astarRelax m h cur explored [(succ, action)] frontier cf gv gen counter =
        (frontier ++ [((succ.g : Int) + h m succ, counter, succ)],
          (succ, cur, action) :: cf, (state_key succ, succ.g) :: gv,
          gen + 1, counter + 1)) ∧
    (∀ m h cur explored succ action frontier cf gv gen counter best,
      state_key succ ∉ explored →
      lookupGV gv (state_key succ) = some best →
      ¬ succ.g < best →
      astarRelax m h cur explored [(succ, action)] frontier cf gv gen counter =
        (frontier, cf, gv, gen, counter)) ∧
    (∀ m h cur explored succ action frontier cf gv gen counter,
      state_key succ ∈ explored →
      astarRelax m h cur explored [(succ, action)] frontier cf gv gen counter =
        (frontier, cf, gv, gen, counter)) ∧
    (∀ m h fuel frontier explored cf gv gen exp counter f c current rest,
      popMin frontier = some ((f, c, current), rest) →
      state_key current ∈ explored →
      astarLoop m h (fuel + 1) frontier explored cf gv gen exp counter =
        astarLoop m h fuel rest explored cf gv gen exp counter) := by
  refine ⟨?_, ?_, ?_, ?_, ?_⟩
  · intro m h cur explored succ action frontier cf gv gen counter hnex hgv
    simp [astarRelax, hnex, hgv]
  · intro m h cur explored succ action frontier cf gv gen counter best hnex hgv hlt
    simp [astarRelax, hnex, hgv, hlt]
  · intro m h cur explored succ action frontier cf gv gen counter best hnex hgv hlt
    simp [astarRelax, hnex, hgv, hlt]
  · intro m h cur explored succ action frontier cf gv gen counter hex
    simp [astarRelax, hex]
  · intro m h fuel frontier explored cf gv gen exp counter f c current rest hpop hex
    simp [astarLoop, hpop, hex]

/-- The state used by the C7 witness. -/
def astarWitState : State := ⟨(0, 0), none, [], ∅, [], 1⟩

/-- Witness for C7: each of the five cases of the amended rule exercised at a
concrete configuration. -/
theorem astar_dedup_and_push_rule_witness :
    (astarRelax ⟨1, 1, [], [], []⟩ (fun _ _ => 0) astarWitState []
        [(astarWitState, "Left")] [] [] [] 1 1 =
      ([(1, 1, astarWitState)], [(astarWitState, astarWitState, "Left")],
        [(state_key astarWitState, 1)], 2, 2)) ∧
    (astarRelax ⟨1, 1, [], [], []⟩ (fun _ _ => 0) astarWitState []
        [(astarWitState, "Left")] [] [] [(state_key astarWitState, 5)] 1 1 =
      ([(1, 1, astarWitState)], [(astarWitState, astarWitState, "Left")],
        [(state_key astarWitState, 1), (state_key astarWitState, 5)], 2, 2)) ∧
    (astarRelax ⟨1, 1, [], [], []⟩ (fun _ _ => 0) astarWitState []
        [(astarWitState, "Left")] [] [] [(state_key astarWitState, 0)] 1 1 =
      ([], [], [(state_key astarWitState, 0)], 1, 1)) ∧
    (astarRelax ⟨1, 1, [], [], []⟩ (fun _ _ => 0) astarWitState [state_key astarWitState]
        [(astarWitState, "Left")] [] [] [] 1 1 = ([], [], [], 1, 1)) ∧
    (astarLoop ⟨1, 1, [], [], []⟩ (fun _ _ => 0) 1 [(0, 0, astarWitState)]
        [state_key astarWitState] [] [] 1 0 1 =
      astarLoop ⟨1, 1, [], [], []⟩ (fun _ _ => 0) 0 [] [state_key astarWitState] [] [] 1 0 1) :=
  ⟨astar_dedup_and_push_rule.1 ⟨1, 1, [], [], []⟩ (fun _ _ => 0) astarWitState []
      astarWitState "Left" [] [] [] 1 1 (by decide) (by decide),
    astar_dedup_and_push_rule.2.1 ⟨1, 1, [], [], []⟩ (fun _ _ => 0) astarWitState []
      astarWitState "Left" [] [] [(state_key astarWitState, 5)] 1 1 5
      (by decide) (by decide) (by decide),
    astar_dedup_and_push_rule.2.2.1 ⟨1, 1, [], [], []⟩ (fun _ _ => 0) astarWitState []
      astarWitState "Left" [] [] [(state_key astarWitState, 0)] 1 1 0
      (by decide) (by decide) (by decide),
    astar_dedup_and_push_rule.2.2.2.1 ⟨1, 1, [], [], []⟩ (fun _ _ => 0) astarWitState
      [state_key astarWitState] astarWitState "Left" [] [] [] 1 1 (by decide),
    astar_dedup_and_push_rule.2.2.2.2 ⟨1, 1, [], [], []⟩ (fun _ _ => 0) 0
      [(0, 0, astarWitState)] [state_key astarWitState] [] [] 1 0 1 0 0
      astarWitState [] (by decide) (by decide)⟩

/-- Modelled from the spec: the qualifying test of an enforced-hill-climbing
round — a state that is a goal or whose heuristic value is strictly below the
round's `current_h`. -/
def improvingOrGoal (m : Maze) (h : Maze → State → Int) (ch : Int) (s : State) : Bool :=
  is_goal_state m s || decide (h m s < ch)

/-- Modelled from the spec: the new states one expansion of the round's
sub-search generates, in order, together with the updated frontier and
explored set — the plain BFS bookkeeping with the goal/improvement tests
ignored. -/
def genProcess (m : Maze) :
    List (State × String) → List State → List StateKey →
    List State × List State × List StateKey
  | [], frontier, explored => ([], frontier, explored)
  | (succ, _) :: rest, frontier, explored =>
    if state_key succ ∈ explored then genProcess m rest frontier explored
    else
      match genProcess m rest (frontier ++ [succ]) (state_key succ :: explored) with
      | (out, fr, ex) => (succ :: out, fr, ex)

/-- Modelled from the spec: "the sub-search inspects states in BFS order" —
the full sequence of states a round generates, in BFS generation order, when
no test stops it. -/
def roundGenOrder (m : Maze) : Nat → List State → List StateKey → List State
  | 0, _, _ => []
  | fuel + 1, frontier, explored =>
    match frontier with
    | [] => []
    | st :: rest =>
      match genProcess m (get_successors m st) rest explored with
      | (out, fr, ex) => out ++ roundGenOrder m fuel fr ex

theorem find?_append_none {α : Type} {p : α → Bool} {l₁ l₂ : List α}
    (hl : l₁.find? p = none) : (l₁ ++ l₂).find? p = l₂.find? p := by
  simp [List.find?_append, hl]

theorem find?_append_some {α : Type} {p : α → Bool} {l₁ l₂ : List α} {a : α}
    (hl : l₁.find? p = some a) : (l₁ ++ l₂).find? p = some a := by
  simp [List.find?_append, hl]

/-- One expansion of a round refines the generation order: a committed state
is the first qualifying generated state, a returned success comes from the
first qualifying generated state being a goal, and a completed pass means no
generated state qualified and the BFS bookkeeping agrees with `genProcess`. -/
theorem ehcProcess_vs_gen (m : Maze) (h : Maze → State → Int) (plan : List String)
    (root : State) (ch : Int) (st : State) (L : List (State × String)) :
    ∀ (frontier : List State) (explored : List StateKey) (cf : CameFrom) (gen exp : Nat),
      (∀ next nh plan' gen',
        ehcProcess m h plan root ch st L frontier explored cf gen exp = .commit next nh plan' gen' →
        (genProcess m L frontier explored).1.find? (improvingOrGoal m h ch) = some next ∧
          nh = h m next ∧ ∃ frag, plan' = plan ++ frag) ∧
      (∀ r, ehcProcess m h plan root ch st L frontier explored cf gen exp = .ret r →
        ∃ gs, (genProcess m L frontier explored).1.find? (improvingOrGoal m h ch) = some gs ∧
          is_goal_state m gs = true ∧ r.success = true ∧ ∃ frag, r.plan = plan ++ frag) ∧
      (∀ fr' ex' cf' gen',
        ehcProcess m h plan root ch st L frontier explored cf gen exp = .cont fr' ex' cf' gen' →
        (genProcess m L frontier explored).1.find? (improvingOrGoal m h ch) = none ∧
          fr' = (genProcess m L frontier explored).2.1 ∧
          ex' = (genProcess m L frontier explored).2.2) := by
  induction L with
  | nil =>
    intro frontier explored cf gen exp
    refine ⟨?_, ?_, ?_⟩
    · intro next nh plan' gen' hc
      simp [ehcProcess] at hc
    · intro r hr
      simp [ehcProcess] at hr
    · intro fr' ex' cf' gen' hc
      simp only [ehcProcess, EhcStep.cont.injEq] at hc
      obtain ⟨h1, h2, h3, h4⟩ := hc
      exact ⟨rfl, h1.symm, h2.symm⟩
  | cons head tail ih =>
    intro frontier explored cf gen exp
    obtain ⟨succ, action⟩ := head
    by_cases hex : state_key succ ∈ explored
    · have hgp : genProcess m ((succ, action) :: tail) frontier explored =
          genProcess m tail frontier explored := by
        simp [genProcess, hex]
      have hep : ehcProcess m h plan root ch st ((succ, action) :: tail) frontier explored cf gen exp =
          ehcProcess m h plan root ch st tail frontier explored cf gen exp := by
        simp [ehcProcess, hex]
      rw [hgp, hep]
      exact ih frontier explored cf gen exp
    · have hgp : genProcess m ((succ, action) :: tail) frontier explored =
          ((genProcess m tail (frontier ++ [succ]) (state_key succ :: explored)).1.cons succ,
            (genProcess m tail (frontier ++ [succ]) (state_key succ :: explored)).2) := by
        simp only [genProcess, if_neg hex]
      cases hg : is_goal_state m succ with
      | true =>
        have hq : improvingOrGoal m h ch succ = true := by
          simp [improvingOrGoal, hg]
        cases hp : ehcPath ((succ, st, action) :: cf) root succ with
        | none =>
          have hec : ehcProcess m h plan root ch st ((succ, action) :: tail) frontier explored cf gen exp = .cut := by
            simp [ehcProcess, hex, hg, hp]
          refine ⟨?_, ?_, ?_⟩
          · intro next nh plan' gen' hc; rw [hec] at hc; exact absurd hc (by simp)
          · intro r hc; rw [hec] at hc; exact absurd hc (by simp)
          · intro fr' ex' cf' gen' hc; rw [hec] at hc; exact absurd hc (by simp)
        | some frag =>
          have hec : ehcProcess m h plan root ch st ((succ, action) :: tail) frontier explored cf gen exp =
              .ret ⟨plan ++ frag, true, gen + 1, exp, (plan ++ frag).length⟩ := by
            simp [ehcProcess, hex, hg, hp]
          refine ⟨?_, ?_, ?_⟩
          · intro next nh plan' gen' hc
            rw [hec] at hc
            exact absurd hc (by simp)
          · intro r hr
            rw [hec] at hr
            simp only [EhcStep.ret.injEq] at hr
            refine ⟨succ, ?_, hg, ?_, frag, ?_⟩
            · rw [hgp]
              exact List.find?_cons_of_pos _ hq
            · rw [← hr]
            · rw [← hr]
          · intro fr' ex' cf' gen' hc
            rw [hec] at hc
            exact absurd hc (by simp)
      | false =>
        by_cases hlt : h m succ < ch
        · have hq : improvingOrGoal m h ch succ = true := by
            simp [improvingOrGoal, hlt]
          cases hp : ehcPath ((succ, st, action) :: cf) root succ with
          | none =>
            have hec : ehcProcess m h plan root ch st ((succ, action) :: tail) frontier explored cf gen exp = .cut := by
              simp [ehcProcess, hex, hg, hlt, hp]
            refine ⟨?_, ?_, ?_⟩
            · intro next nh plan' gen' hc; rw [hec] at hc; exact absurd hc (by simp)
            · intro r hc; rw [hec] at hc; exact absurd hc (by simp)
            · intro fr' ex' cf' gen' hc; rw [hec] at hc; exact absurd hc (by simp)
          | some frag =>
            have hec : ehcProcess m h plan root ch st ((succ, action) :: tail) frontier explored cf gen exp =
                .commit succ (h m succ) (plan ++ frag) (gen + 1) := by
              simp [ehcProcess, hex, hg, hlt, hp]
            refine ⟨?_, ?_, ?_⟩
            · intro next nh plan' gen' hc
              rw [hec] at hc
              simp only [EhcStep.commit.injEq] at hc
              obtain ⟨h1, h2, h3, h4⟩ := hc
              subst h1
              refine ⟨?_, h2.symm, frag, h3.symm⟩
              rw [hgp]
              exact List.find?_cons_of_pos _ hq
            · intro r hr
              rw [hec] at hr
              exact absurd hr (by simp)
            · intro fr' ex' cf' gen' hc
              rw [hec] at hc
              exact absurd hc (by simp)
        · have hq : improvingOrGoal m h ch succ = false := by
            simp [improvingOrGoal, hg, hlt]
          have hec : ehcProcess m h plan root ch st ((succ, action) :: tail) frontier explored cf gen exp =
              ehcProcess m h plan root ch st tail (frontier ++ [succ])
                (state_key succ :: explored) ((succ, st, action) :: cf) (gen + 1) exp := by
            simp [ehcProcess, hex, hg, hlt]
          rw [hec, hgp]
          have := ih (frontier ++ [succ]) (state_key succ :: explored) ((succ, st, action) :: cf) (gen + 1) exp
          refine ⟨?_, ?_, ?_⟩
          · intro next nh plan' gen' hc
            have hres := this.1 next nh plan' gen' hc
            exact ⟨by rw [List.find?_cons_of_neg _ (by simp [hq])]; exact hres.1, hres.2⟩
          · intro r hr
            obtain ⟨gs, hgs, hgoal, hsucc, hfrag⟩ := this.2.1 r hr
            exact ⟨gs, by rw [List.find?_cons_of_neg _ (by simp [hq])]; exact hgs, hgoal, hsucc, hfrag⟩
          · intro fr' ex' cf' gen' hc
            have hres := this.2.2 fr' ex' cf' gen' hc
            exact ⟨by rw [List.find?_cons_of_neg _ (by simp [hq])]; exact hres.1, hres.2⟩

/-- A round's sub-search refines the BFS generation order: a commit is to the
first qualifying state of `roundGenOrder`, a success return comes from the
first qualifying state being a goal, and an exhausted round means no
generated state qualified. -/
theorem ehcInner_vs_gen (m : Maze) (h : Maze → State → Int) (plan : List String)
    (root : State) (ch : Int) :
    ∀ (fuel : Nat) (frontier : List State) (explored : List StateKey)
      (cf : CameFrom) (gen exp : Nat),
      (∀ next nh plan' gen' exp',
        ehcInner m h plan root ch fuel frontier explored cf gen exp =
          some (.commit next nh plan' gen' exp') →
        (roundGenOrder m fuel frontier explored).find? (improvingOrGoal m h ch) = some next ∧
          nh = h m next ∧ ∃ frag, plan' = plan ++ frag) ∧
      (∀ r, ehcInner m h plan root ch fuel frontier explored cf gen exp = some (.ret r) →
        ∃ gs, (roundGenOrder m fuel frontier explored).find? (improvingOrGoal m h ch) = some gs ∧
          is_goal_state m gs = true ∧ r.success = true ∧ ∃ frag, r.plan = plan ++ frag) ∧
      (∀ gen' exp',
        ehcInner m h plan root ch fuel frontier explored cf gen exp =
          some (.exhausted gen' exp') →
        (roundGenOrder m fuel frontier explored).find? (improvingOrGoal m h ch) = none) := by
  intro fuel
  induction fuel with
  | zero =>
    intro frontier explored cf gen exp
    refine ⟨?_, ?_, ?_⟩
    · intro next nh plan' gen' exp' hc
      simp [ehcInner] at hc
    · intro r hr
      simp [ehcInner] at hr
    · intro gen' exp' hc
      simp [ehcInner] at hc
  | succ fuel ih =>
    intro frontier explored cf gen exp
    cases frontier with
    | nil =>
      refine ⟨?_, ?_, ?_⟩
      · intro next nh plan' gen' exp' hc
        simp [ehcInner] at hc
      · intro r hr
        simp [ehcInner] at hr
      · intro gen' exp' hc
        simp [roundGenOrder]
    | cons st rest =>
      have hro : roundGenOrder m (fuel + 1) (st :: rest) explored =
          (genProcess m (get_successors m st) rest explored).1 ++
            roundGenOrder m fuel (genProcess m (get_successors m st) rest explored).2.1
              (genProcess m (get_successors m st) rest explored).2.2 := by
        simp only [roundGenOrder]
      have hpl := ehcProcess_vs_gen m h plan root ch st (get_successors m st) rest explored cf gen (exp + 1)
      cases hpr : ehcProcess m h plan root ch st (get_successors m st) rest explored cf gen (exp + 1) with
      | ret r0 =>
        have hinner : ehcInner m h plan root ch (fuel + 1) (st :: rest) explored cf gen exp =
            some (.ret r0) := by
          simp [ehcInner, hpr]
        obtain ⟨gs, hgs, hgoal, hsucc, hfrag⟩ := hpl.2.1 r0 hpr
        refine ⟨?_, ?_, ?_⟩
        · intro next nh plan' gen' exp' hc
          rw [hinner] at hc
          simp at hc
        · intro r hr
          rw [hinner] at hr
          simp only [Option.some.injEq, EhcRound.ret.injEq] at hr
          subst hr
          exact ⟨gs, by rw [hro]; exact find?_append_some hgs, hgoal, hsucc, hfrag⟩
        · intro gen' exp' hc
          rw [hinner] at hc
          simp at hc
      | commit next0 nh0 plan0 gen0 =>
        have hinner : ehcInner m h plan root ch (fuel + 1) (st :: rest) explored cf gen exp =
            some (.commit next0 nh0 plan0 gen0 (exp + 1)) := by
          simp [ehcInner, hpr]
        obtain ⟨hfind, hnh, hfrag⟩ := hpl.1 next0 nh0 plan0 gen0 hpr
        refine ⟨?_, ?_, ?_⟩
        · intro next nh plan' gen' exp' hc
          rw [hinner] at hc
          simp only [Option.some.injEq, EhcRound.commit.injEq] at hc
          obtain ⟨rfl, rfl, rfl, rfl, rfl⟩ := hc
          exact ⟨by rw [hro]; exact find?_append_some hfind, hnh, hfrag⟩
        · intro r hr
          rw [hinner] at hr
          simp at hr
        · intro gen' exp' hc
          rw [hinner] at hc
          simp at hc
      | cont fr' ex' cf' gen' =>
        have hinner : ehcInner m h plan root ch (fuel + 1) (st :: rest) explored cf gen exp =
            ehcInner m h plan root ch fuel fr' ex' cf' gen' (exp + 1) := by
          simp [ehcInner, hpr]
        obtain ⟨hnone, hfr, hex⟩ := hpl.2.2 fr' ex' cf' gen' hpr
        have hfind : ∀ o, (roundGenOrder m fuel fr' ex').find? (improvingOrGoal m h ch) = o →
            (roundGenOrder m (fuel + 1) (st :: rest) explored).find? (improvingOrGoal m h ch) = o := by
          intro o ho
          rw [hro, find?_append_none hnone, ← hfr, ← hex]
          exact ho
        refine ⟨?_, ?_, ?_⟩
        · intro next nh plan' gen'' exp' hc
          rw [hinner] at hc
          obtain ⟨h1, h2, h3⟩ := (ih fr' ex' cf' gen' (exp + 1)).1 next nh plan' gen'' exp' hc
          exact ⟨hfind _ h1, h2, h3⟩
        · intro r hr
          rw [hinner] at hr
          obtain ⟨gs, h1, h2, h3, h4⟩ := (ih fr' ex' cf' gen' (exp + 1)).2.1 r hr
          exact ⟨gs, hfind _ h1, h2, h3, h4⟩
        · intro gen'' exp' hc
          rw [hinner] at hc
          exact hfind _ ((ih fr' ex' cf' gen' (exp + 1)).2.2 gen'' exp' hc)
      | cut =>
        have hinner : ehcInner m h plan root ch (fuel + 1) (st :: rest) explored cf gen exp = none := by
          simp [ehcInner, hpr]
        refine ⟨?_, ?_, ?_⟩
        · intro next nh plan' gen' exp' hc
          rw [hinner] at hc
          exact absurd hc (by simp)
        · intro r hr
          rw [hinner] at hr
          exact absurd hr (by simp)
        · intro gen' exp' hc
          rw [hinner] at hc
          exact absurd hc (by simp)

/-- A committed state is never a goal: the goal branch of the successor loop
returns instead of committing. -/
theorem ehcProcess_commit_not_goal (m : Maze) (h : Maze → State → Int)
    (plan : List String) (root : State) (ch : Int) (st : State)
    (L : List (State × String)) :
    ∀ (frontier : List State) (explored : List StateKey) (cf : CameFrom)
      (gen exp : Nat) next nh plan' gen',
      ehcProcess m h plan root ch st L frontier explored cf gen exp =
        .commit next nh plan' gen' →
      is_goal_state m next = false := by
  induction L with
  | nil =>
    intro frontier explored cf gen exp next nh plan' gen' hc
    simp [ehcProcess] at hc
  | cons head tail ih =>
    intro frontier explored cf gen exp next nh plan' gen' hc
    obtain ⟨succ, action⟩ := head
    by_cases hex : state_key succ ∈ explored
    · rw [show ehcProcess m h plan root ch st ((succ, action) :: tail) frontier explored cf gen exp =
          ehcProcess m h plan root ch st tail frontier explored cf gen exp from by
        simp [ehcProcess, hex]] at hc
      exact ih frontier explored cf gen exp next nh plan' gen' hc
    · cases hg : is_goal_state m succ with
      | true =>
        cases hp : ehcPath ((succ, st, action) :: cf) root succ with
        | none =>
          rw [show ehcProcess m h plan root ch st ((succ, action) :: tail) frontier explored cf gen exp = .cut from by
            simp [ehcProcess, hex, hg, hp]] at hc
          exact absurd hc (by simp)
        | some frag =>
          rw [show ehcProcess m h plan root ch st ((succ, action) :: tail) frontier explored cf gen exp =
              .ret ⟨plan ++ frag, true, gen + 1, exp, (plan ++ frag).length⟩ from by
            simp [ehcProcess, hex, hg, hp]] at hc
          exact absurd hc (by simp)
      | false =>
        by_cases hlt : h m succ < ch
        · cases hp : ehcPath ((succ, st, action) :: cf) root succ with
          | none =>
            rw [show ehcProcess m h plan root ch st ((succ, action) :: tail) frontier explored cf gen exp = .cut from by
              simp [ehcProcess, hex, hg, hlt, hp]] at hc
            exact absurd hc (by simp)
          | some frag =>
            rw [show ehcProcess m h plan root ch st ((succ, action) :: tail) frontier explored cf gen exp =
                .commit succ (h m succ) (plan ++ frag) (gen + 1) from by
              simp [ehcProcess, hex, hg, hlt, hp]] at hc
            simp only [EhcStep.commit.injEq] at hc
            obtain ⟨rfl, -, -, -⟩ := hc
            exact hg
        · rw [show ehcProcess m h plan root ch st ((succ, action) :: tail) frontier explored cf gen exp =
              ehcProcess m h plan root ch st tail (frontier ++ [succ])
                (state_key succ :: explored) ((succ, st, action) :: cf) (gen + 1) exp from by
            simp [ehcProcess, hex, hg, hlt]] at hc
          exact ih (frontier ++ [succ]) (state_key succ :: explored)
            ((succ, st, action) :: cf) (gen + 1) exp next nh plan' gen' hc

/-- Lifted to the round loop. -/
theorem ehcInner_commit_not_goal (m : Maze) (h : Maze → State → Int)
    (plan : List String) (root : State) (ch : Int) :
    ∀ (fuel : Nat) (frontier : List State) (explored : List StateKey)
      (cf : CameFrom) (gen exp : Nat) next nh plan' gen' exp',
      ehcInner m h plan root ch fuel frontier explored cf gen exp =
        some (.commit next nh plan' gen' exp') →
      is_goal_state m next = false := by
  intro fuel
  induction fuel with
  | zero =>
    intro frontier explored cf gen exp next nh plan' gen' exp' hc
    simp [ehcInner] at hc
  | succ fuel ih =>
    intro frontier explored cf gen exp next nh plan' gen' exp' hc
    cases frontier with
    | nil => simp [ehcInner] at hc
    | cons st rest =>
      cases hpr : ehcProcess m h plan root ch st (get_successors m st) rest explored cf gen (exp + 1) with
      | ret r0 =>
        rw [show ehcInner m h plan root ch (fuel + 1) (st :: rest) explored cf gen exp = some (.ret r0) from by
          simp [ehcInner, hpr]] at hc
        simp at hc
      | commit next0 nh0 plan0 gen0 =>
        rw [show ehcInner m h plan root ch (fuel + 1) (st :: rest) explored cf gen exp =
            some (.commit next0 nh0 plan0 gen0 (exp + 1)) from by
          simp [ehcInner, hpr]] at hc
        simp only [Option.some.injEq, EhcRound.commit.injEq] at hc
        obtain ⟨rfl, -, -, -, -⟩ := hc
        exact ehcProcess_commit_not_goal m h plan root ch st (get_successors m st)
          rest explored cf gen (exp + 1) next0 nh0 plan0 gen0 hpr
      | cont fr' ex' cf' gen'' =>
        rw [show ehcInner m h plan root ch (fuel + 1) (st :: rest) explored cf gen exp =
            ehcInner m h plan root ch fuel fr' ex' cf' gen'' (exp + 1) from by
          simp [ehcInner, hpr]] at hc
        exact ih fr' ex' cf' gen'' (exp + 1) next nh plan' gen' exp' hc
      | cut =>
        rw [show ehcInner m h plan root ch (fuel + 1) (st :: rest) explored cf gen exp = none from by
          simp [ehcInner, hpr]] at hc
        exact absurd hc (by simp)

/-- C8: each round of `enforced_hill_climbing` commits to the first state in
the round's BFS generation order that is a goal (the search then returns
success at once, with the round fragment appended to the accumulated plan) or
whose heuristic value is strictly below the round's `current_h` (the round
fragment is appended and the search continues from it); and a round whose
frontier empties without any such state makes the whole search return
`success = false` immediately, without backtracking or restarting. -/
theorem ehc_first_improvement (m : Maze) (h : Maze → State → Int) :
    (∀ plan root ch fuel frontier explored cf gen exp next nh plan' gen' exp',
      ehcInner m h plan root ch fuel frontier explored cf gen exp =
        some (.commit next nh plan' gen' exp') →
      (roundGenOrder m fuel frontier explored).find? (improvingOrGoal m h ch) = some next ∧
        nh = h m next ∧ is_goal_state m next = false ∧ h m next < ch ∧
        ∃ frag, plan' = plan ++ frag) ∧
    (∀ plan root ch fuel frontier explored cf gen exp r,
      ehcInner m h plan root ch fuel frontier explored cf gen exp = some (.ret r) →
      ∃ gs, (roundGenOrder m fuel frontier explored).find? (improvingOrGoal m h ch) = some gs ∧
        is_goal_state m gs = true ∧ r.success = true ∧ ∃ frag, r.plan = plan ++ frag) ∧
    (∀ plan root ch fuel frontier explored cf gen exp gen' exp',
      ehcInner m h plan root ch fuel frontier explored cf gen exp =
        some (.exhausted gen' exp') →
      (roundGenOrder m fuel frontier explored).find? (improvingOrGoal m h ch) = none) ∧
    (∀ outer_fuel inner_fuel current ch plan gen exp gen' exp',
      is_goal_state m current = false →
      ehcInner m h plan current ch inner_fuel [current] [state_key current] [] gen exp =
        some (.exhausted gen' exp') →
      ehcOuter m h (outer_fuel + 1) inner_fuel current ch plan gen exp =
        some ⟨[], false, gen', exp', 0⟩) := by
  refine ⟨?_, ?_, ?_, ?_⟩
  · intro plan root ch fuel frontier explored cf gen exp next nh plan' gen' exp' hc
    obtain ⟨hfind, hnh, hfrag⟩ :=
      (ehcInner_vs_gen m h plan root ch fuel frontier explored cf gen exp).1
        next nh plan' gen' exp' hc
    have hq := List.find?_some hfind
    have hng := ehcInner_commit_not_goal m h plan root ch fuel frontier explored
      cf gen exp next nh plan' gen' exp' hc
    refine ⟨hfind, hnh, hng, ?_, hfrag⟩
    simp only [improvingOrGoal, hng, Bool.false_or, decide_eq_true_eq] at hq
    exact hq
  · intro plan root ch fuel frontier explored cf gen exp r hr
    exact (ehcInner_vs_gen m h plan root ch fuel frontier explored cf gen exp).2.1 r hr
  · intro plan root ch fuel frontier explored cf gen exp gen' exp' hc
    exact (ehcInner_vs_gen m h plan root ch fuel frontier explored cf gen exp).2.2 gen' exp' hc
  · intro outer_fuel inner_fuel current ch plan gen exp gen' exp' hgoal hinner
    simp [ehcOuter, hgoal, hinner]

/-- 2-by-1 world for the C8 commit witness. -/
def ehcWitMaze : Maze := ⟨2, 1, [], [("A", (0, 0))], []⟩

/-- Agent at the origin, box `A` one square right of its zone. -/
def ehcWitState : State := ⟨(0, 0), none, [("A", (1, 0))], ∅, [], 0⟩

/-- 1-by-1 world for the C8 goal-return witness. -/
def ehcRetMaze : Maze := ⟨1, 1, [], [("A", (0, 0))], []⟩

/-- Agent carrying box `A` while standing on its zone. -/
def ehcRetState : State := ⟨(0, 0), some "A", [("A", (9, 9))], ∅, [], 0⟩

/-- 1-by-1 world whose zone is unreachable: a dead end for EHC. -/
def ehcDeadMaze : Maze := ⟨1, 1, [], [("A", (5, 5))], []⟩

/-- Agent on the only square with box `A`, which can never reach its zone. -/
def ehcDeadState : State := ⟨(0, 0), none, [("A", (0, 0))], ∅, [], 0⟩

/-- Witness for C8: a concrete committing round, a concrete goal-returning
round, and a concrete exhausted round that makes the whole search fail. -/
theorem ehc_first_improvement_witness :
    ((ehcInner ehcWitMaze heuristicManhattanSpec [] ehcWitState 2 5 [ehcWitState]
        [state_key ehcWitState] [] 1 0 =
      some (.commit (move_soko ehcWitState (1, 0) "Right") 1 ["Right"] 2 1)) ∧
      ((roundGenOrder ehcWitMaze 5 [ehcWitState] [state_key ehcWitState]).find?
          (improvingOrGoal ehcWitMaze heuristicManhattanSpec 2) =
        some (move_soko ehcWitState (1, 0) "Right") ∧
        (1 : Int) = heuristicManhattanSpec ehcWitMaze (move_soko ehcWitState (1, 0) "Right") ∧
        is_goal_state ehcWitMaze (move_soko ehcWitState (1, 0) "Right") = false ∧
        heuristicManhattanSpec ehcWitMaze (move_soko ehcWitState (1, 0) "Right") < 2 ∧
        ∃ frag, ["Right"] = ([] : List String) ++ frag)) ∧
    ((ehcInner ehcRetMaze heuristicManhattanSpec [] ehcRetState 0 5 [ehcRetState]
        [state_key ehcRetState] [] 1 0 =
      some (.ret ⟨["Drop Box A"], true, 2, 1, 1⟩)) ∧
      (∃ gs, (roundGenOrder ehcRetMaze 5 [ehcRetState] [state_key ehcRetState]).find?
          (improvingOrGoal ehcRetMaze heuristicManhattanSpec 0) = some gs ∧
        is_goal_state ehcRetMaze gs = true ∧
        (SearchResult.mk ["Drop Box A"] true 2 1 1).success = true ∧
        ∃ frag, (SearchResult.mk ["Drop Box A"] true 2 1 1).plan = ([] : List String) ++ frag)) ∧
    ((ehcInner ehcDeadMaze heuristicManhattanSpec [] ehcDeadState 10 5 [ehcDeadState]
        [state_key ehcDeadState] [] 1 0 = some (.exhausted 2 2)) ∧
      (roundGenOrder ehcDeadMaze 5 [ehcDeadState] [state_key ehcDeadState]).find?
          (improvingOrGoal ehcDeadMaze heuristicManhattanSpec 10) = none) ∧
    (is_goal_state ehcDeadMaze ehcDeadState = false ∧
      ehcOuter ehcDeadMaze heuristicManhattanSpec 1 5 ehcDeadState 10 [] 1 0 =
        some ⟨[], false, 2, 2, 0⟩) :=
  ⟨⟨rfl,
      (ehc_first_improvement ehcWitMaze heuristicManhattanSpec).1 [] ehcWitState 2 5
        [ehcWitState] [state_key ehcWitState] [] 1 0
        (move_soko ehcWitState (1, 0) "Right") 1 ["Right"] 2 1 rfl⟩,
    ⟨rfl,
      (ehc_first_improvement ehcRetMaze heuristicManhattanSpec).2.1 [] ehcRetState 0 5
        [ehcRetState] [state_key ehcRetState] [] 1 0
        (SearchResult.mk ["Drop Box A"] true 2 1 1) rfl⟩,
    ⟨rfl,
      (ehc_first_improvement ehcDeadMaze heuristicManhattanSpec).2.2.1 [] ehcDeadState 10 5
        [ehcDeadState] [state_key ehcDeadState] [] 1 0 2 2 rfl⟩,
    ⟨rfl,
      (ehc_first_improvement ehcDeadMaze heuristicManhattanSpec).2.2.2 0 5 ehcDeadState 10
        [] 1 0 2 2 rfl rfl⟩⟩

/-- The heap pop of a nonempty frontier always yields an entry. -/
theorem popMin_isSome (a : PQE) (l : List PQE) : (popMin (a :: l)).isSome := by
  rw [popMin]
  cases hq : popMin l with
  | none => simp
  | some ml =>
    obtain ⟨least, rest'⟩ := ml
    dsimp only
    split <;> simp

/-- Popping the least heap entry shortens the frontier by one. -/
theorem popMin_length :
    ∀ (l : List PQE) (e : PQE) (rest : List PQE),
      popMin l = some (e, rest) → rest.length + 1 = l.length := by
  intro l
  induction l with
  | nil =>
    intro e rest hp
    simp [popMin] at hp
  | cons a l ih =>
    intro e rest hp
    rw [popMin] at hp
    cases hq : popMin l with
    | none =>
      cases l with
      | nil =>
        simp only [popMin] at hp
        simp only [Option.some.injEq, Prod.mk.injEq] at hp
        simp [← hp.2]
      | cons b l' =>
        have := popMin_isSome b l'
        rw [hq] at this
        simp at this
    | some ml =>
      obtain ⟨least, rest'⟩ := ml
      rw [hq] at hp
      dsimp only at hp
      by_cases hlt : pqLt least a = true
      · rw [if_pos hlt] at hp
        simp only [Option.some.injEq, Prod.mk.injEq] at hp
        have := ih least rest' hq
        simp only [← hp.2, List.length_cons]
        omega
      · rw [if_neg hlt] at hp
        simp only [Option.some.injEq, Prod.mk.injEq] at hp
        simp [← hp.2]

/-- The BFS successor loop pushes and counts in lockstep, and the generated
counter never decreases. -/
theorem bfsExpand_count (cur : State) (L : List (State × String)) :
    ∀ (frontier : List State) (explored : List StateKey) (cf : CameFrom) (gen : Nat),
      (bfsExpand cur L frontier explored cf gen).2.2.2 + frontier.length =
        gen + (bfsExpand cur L frontier explored cf gen).1.length ∧
      gen ≤ (bfsExpand cur L frontier explored cf gen).2.2.2 := by
  induction L with
  | nil =>
    intro frontier explored cf gen
    simp [bfsExpand]
  | cons head tail ih =>
    intro frontier explored cf gen
    obtain ⟨succ, action⟩ := head
    by_cases hex : state_key succ ∈ explored
    · simp only [bfsExpand, if_pos hex]
      exact ih frontier explored cf gen
    · simp only [bfsExpand, if_neg hex]
      have := ih (frontier ++ [succ]) (state_key succ :: explored)
        ((succ, cur, action) :: cf) (gen + 1)
      simp only [List.length_append, List.length_singleton] at this
      omega

/-- Loop invariant of `breadth_first_search`: with
`expanded + |frontier| ≤ generated` on entry, any finished run satisfies
`expanded ≤ generated`, and `generated` never decreases. -/
theorem bfsLoop_counts (m : Maze) :
    ∀ (fuel : Nat) (frontier : List State) (explored : List StateKey)
      (cf : CameFrom) (gen exp : Nat) (r : SearchResult),
      exp + frontier.length ≤ gen →
      bfsLoop m fuel frontier explored cf gen exp = some r →
      r.states_expanded ≤ r.states_generated ∧ gen ≤ r.states_generated := by
  intro fuel
  induction fuel with
  | zero =>
    intro frontier explored cf gen exp r hinv hrun
    simp [bfsLoop] at hrun
  | succ fuel ih =>
    intro frontier explored cf gen exp r hinv hrun
    cases frontier with
    | nil =>
      simp only [bfsLoop, Option.some.injEq] at hrun
      subst hrun
      simpa using hinv
    | cons current rest =>
      simp only [List.length_cons] at hinv
      cases hg : is_goal_state m current with
      | true =>
        cases hrp : reconstruct_plan cf current with
        | none =>
          rw [show bfsLoop m (fuel + 1) (current :: rest) explored cf gen exp = none from by
            simp [bfsLoop, hg, hrp]] at hrun
          exact absurd hrun (by simp)
        | some plan =>
          rw [show bfsLoop m (fuel + 1) (current :: rest) explored cf gen exp =
              some ⟨plan, true, gen, exp + 1, plan.length⟩ from by
            simp [bfsLoop, hg, hrp]] at hrun
          simp only [Option.some.injEq] at hrun
          subst hrun
          exact ⟨by simp; omega, Nat.le_refl gen⟩
      | false =>
        rcases hE : bfsExpand current (get_successors m current) rest explored cf gen with
          ⟨fr', ex', cf', gen'⟩
        rw [show bfsLoop m (fuel + 1) (current :: rest) explored cf gen exp =
            bfsLoop m fuel fr' ex' cf' gen' (exp + 1) from by
          simp [bfsLoop, hg, hE]] at hrun
        have hcnt := bfsExpand_count current (get_successors m current) rest explored cf gen
        rw [hE] at hcnt
        simp only at hcnt
        have hinv' : (exp + 1) + fr'.length ≤ gen' := by omega
        have := ih fr' ex' cf' gen' (exp + 1) r hinv' hrun
        exact ⟨this.1, le_trans hcnt.2 this.2⟩

/-- The greedy successor loop pushes and counts in lockstep, and the
generated counter never decreases. -/
theorem greedyExpand_count (m : Maze) (h : Maze → State → Int) (cur : State)
    (L : List (State × String)) :
    ∀ (frontier : List PQE) (explored : List StateKey) (cf : CameFrom)
      (gen counter : Nat),
      (greedyExpand m h cur L frontier explored cf gen counter).2.2.2.1 + frontier.length =
        gen + (greedyExpand m h cur L frontier explored cf gen counter).1.length ∧
      gen ≤ (greedyExpand m h cur L frontier explored cf gen counter).2.2.2.1 := by
  induction L with
  | nil =>
    intro frontier explored cf gen counter
    simp [greedyExpand]
  | cons head tail ih =>
    intro frontier explored cf gen counter
    obtain ⟨succ, action⟩ := head
    by_cases hex : state_key succ ∈ explored
    · simp only [greedyExpand, if_pos hex]
      exact ih frontier explored cf gen counter
    · simp only [greedyExpand, if_neg hex]
      have := ih (frontier ++ [(h m succ, counter, succ)]) (state_key succ :: explored)
        ((succ, cur, action) :: cf) (gen + 1) (counter + 1)
      simp only [List.length_append, List.length_singleton] at this
      omega

/-- Loop invariant of `greedy_best_first_search`, as for BFS. -/
theorem greedyLoop_counts (m : Maze) (h : Maze → State → Int) :
    ∀ (fuel : Nat) (frontier : List PQE) (explored : List StateKey)
      (cf : CameFrom) (gen exp counter : Nat) (r : SearchResult),
      exp + frontier.length ≤ gen →
      greedyLoop m h fuel frontier explored cf gen exp counter = some r →
      r.states_expanded ≤ r.states_generated ∧ gen ≤ r.states_generated := by
  intro fuel
  induction fuel with
  | zero =>
    intro frontier explored cf gen exp counter r hinv hrun
    simp [greedyLoop] at hrun
  | succ fuel ih =>
    intro frontier explored cf gen exp counter r hinv hrun
    cases hpop : popMin frontier with
    | none =>
      rw [show greedyLoop m h (fuel + 1) frontier explored cf gen exp counter =
          some ⟨[], false, gen, exp, 0⟩ from by simp [greedyLoop, hpop]] at hrun
      simp only [Option.some.injEq] at hrun
      subst hrun
      exact ⟨by simp; omega, Nat.le_refl gen⟩
    | some pr =>
      obtain ⟨⟨f, c, current⟩, rest⟩ := pr
      have hlen := popMin_length frontier (f, c, current) rest hpop
      cases hg : is_goal_state m current with
      | true =>
        cases hrp : reconstruct_plan cf current with
        | none =>
          rw [show greedyLoop m h (fuel + 1) frontier explored cf gen exp counter = none from by
            simp [greedyLoop, hpop, hg, hrp]] at hrun
          exact absurd hrun (by simp)
        | some plan =>
          rw [show greedyLoop m h (fuel + 1) frontier explored cf gen exp counter =
              some ⟨plan, true, gen, exp + 1, plan.length⟩ from by
            simp [greedyLoop, hpop, hg, hrp]] at hrun
          simp only [Option.some.injEq] at hrun
          subst hrun
          exact ⟨by simp; omega, Nat.le_refl gen⟩
      | false =>
        rcases hE : greedyExpand m h current (get_successors m current) rest explored cf gen counter with
          ⟨fr', ex', cf', gen', counter'⟩
        rw [show greedyLoop m h (fuel + 1) frontier explored cf gen exp counter =
            greedyLoop m h fuel fr' ex' cf' gen' (exp + 1) counter' from by
          simp [greedyLoop, hpop, hg, hE]] at hrun
        have hcnt := greedyExpand_count m h current (get_successors m current) rest explored cf gen counter
        rw [hE] at hcnt
        simp only at hcnt
        have hinv' : (exp + 1) + fr'.length ≤ gen' := by omega
        have := ih fr' ex' cf' gen' (exp + 1) counter' r hinv' hrun
        exact ⟨this.1, le_trans hcnt.2 this.2⟩

/-- The A* relax loop pushes and counts in lockstep, and the generated
counter never decreases. -/
theorem astarRelax_count (m : Maze) (h : Maze → State → Int) (cur : State)
    (explored : List StateKey) (L : List (State × String)) :
    ∀ (frontier : List PQE) (cf : CameFrom) (gv : GValues) (gen counter : Nat),
      (astarRelax m h cur explored L frontier cf gv gen counter).2.2.2.1 + frontier.length =
        gen + (astarRelax m h cur explored L frontier cf gv gen counter).1.length ∧
      gen ≤ (astarRelax m h cur explored L frontier cf gv gen counter).2.2.2.1 := by
  induction L with
  | nil =>
    intro frontier cf gv gen counter
    simp [astarRelax]
  | cons head tail ih =>
    intro frontier cf gv gen counter
    obtain ⟨succ, action⟩ := head
    by_cases hex : state_key succ ∈ explored
    · simp only [astarRelax, if_pos hex]
      exact ih frontier cf gv gen counter
    · cases hbetter : (match lookupGV gv (state_key succ) with
        | none => true
        | some best => decide (succ.g < best)) with
      | true =>
        rw [show astarRelax m h cur explored ((succ, action) :: tail) frontier cf gv gen counter =
            astarRelax m h cur explored tail
              (frontier ++ [((succ.g : Int) + h m succ, counter, succ)])
              ((succ, cur, action) :: cf) ((state_key succ, succ.g) :: gv)
              (gen + 1) (counter + 1) from by
          simp only [astarRelax, if_neg hex]
          rw [hbetter]
          simp]
        have := ih (frontier ++ [((succ.g : Int) + h m succ, counter, succ)])
          ((succ, cur, action) :: cf) ((state_key succ, succ.g) :: gv) (gen + 1) (counter + 1)
        simp only [List.length_append, List.length_singleton] at this
        omega
      | false =>
        rw [show astarRelax m h cur explored ((succ, action) :: tail) frontier cf gv gen counter =
            astarRelax m h cur explored tail frontier cf gv gen counter from by
          simp only [astarRelax, if_neg hex]
          rw [hbetter]
          simp]
        exact ih frontier cf gv gen counter

/-- Loop invariant of `a_star_search`: stale pops only shrink the frontier;
fresh pops follow the BFS pattern. -/
theorem astarLoop_counts (m : Maze) (h : Maze → State → Int) :
    ∀ (fuel : Nat) (frontier : List PQE) (explored : List StateKey)
      (cf : CameFrom) (gv : GValues) (gen exp counter : Nat) (r : SearchResult),
      exp + frontier.length ≤ gen →
      astarLoop m h fuel frontier explored cf gv gen exp counter = some r →
      r.states_expanded ≤ r.states_generated ∧ gen ≤ r.states_generated := by
  intro fuel
  induction fuel with
  | zero =>
    intro frontier explored cf gv gen exp counter r hinv hrun
    simp [astarLoop] at hrun
  | succ fuel ih =>
    intro frontier explored cf gv gen exp counter r hinv hrun
    cases hpop : popMin frontier with
    | none =>
      rw [show astarLoop m h (fuel + 1) frontier explored cf gv gen exp counter =
          some ⟨[], false, gen, exp, 0⟩ from by simp [astarLoop, hpop]] at hrun
      simp only [Option.some.injEq] at hrun
      subst hrun
      exact ⟨by simp; omega, Nat.le_refl gen⟩
    | some pr =>
      obtain ⟨⟨f, c, current⟩, rest⟩ := pr
      have hlen := popMin_length frontier (f, c, current) rest hpop
      by_cases hex : state_key current ∈ explored
      · rw [show astarLoop m h (fuel + 1) frontier explored cf gv gen exp counter =
            astarLoop m h fuel rest explored cf gv gen exp counter from by
          simp [astarLoop, hpop, hex]] at hrun
        have hinv' : exp + rest.length ≤ gen := by omega
        exact ih rest explored cf gv gen exp counter r hinv' hrun
      · cases hg : is_goal_state m current with
        | true =>
          cases hrp : reconstruct_plan cf current with
          | none =>
            rw [show astarLoop m h (fuel + 1) frontier explored cf gv gen exp counter = none from by
              simp [astarLoop, hpop, hex, hg, hrp]] at hrun
            exact absurd hrun (by simp)
          | some plan =>
            rw [show astarLoop m h (fuel + 1) frontier explored cf gv gen exp counter =
                some ⟨plan, true, gen, exp + 1, plan.length⟩ from by
              simp [astarLoop, hpop, hex, hg, hrp]] at hrun
            simp only [Option.some.injEq] at hrun
            subst hrun
            exact ⟨by simp; omega, Nat.le_refl gen⟩
        | false =>
          rcases hE : astarRelax m h current (state_key current :: explored)
              (get_successors m current) rest cf gv gen counter with
            ⟨fr', cf', gv', gen', counter'⟩
          rw [show astarLoop m h (fuel + 1) frontier explored cf gv gen exp counter =
              astarLoop m h fuel fr' (state_key current :: explored) cf' gv' gen' (exp + 1) counter' from by
            simp [astarLoop, hpop, hex, hg, hE]] at hrun
          have hcnt := astarRelax_count m h current (state_key current :: explored)
            (get_successors m current) rest cf gv gen counter
          rw [hE] at hcnt
          simp only at hcnt
          have hinv' : (exp + 1) + fr'.length ≤ gen' := by omega
          have := ih fr' (state_key current :: explored) cf' gv' gen' (exp + 1) counter' r hinv' hrun
          exact ⟨this.1, le_trans hcnt.2 this.2⟩

/-- Counter bookkeeping of one round expansion: the successor loop counts
each frontier addition once, so the invariant `expanded + |frontier| ≤
generated` flows through every outcome, and `generated` never decreases. -/
theorem ehcProcess_counts (m : Maze) (h : Maze → State → Int) (plan : List String)
    (root : State) (ch : Int) (st : State) (L : List (State × String)) :
    ∀ (frontier : List State) (explored : List StateKey) (cf : CameFrom)
      (gen exp : Nat),
      exp + frontier.length ≤ gen →
      (∀ r, ehcProcess m h plan root ch st L frontier explored cf gen exp = .ret r →
        r.states_expanded ≤ r.states_generated ∧ gen ≤ r.states_generated) ∧
      (∀ next nh plan' gen',
        ehcProcess m h plan root ch st L frontier explored cf gen exp = .commit next nh plan' gen' →
        exp + 1 ≤ gen' ∧ gen ≤ gen') ∧
      (∀ fr' ex' cf' gen',
        ehcProcess m h plan root ch st L frontier explored cf gen exp = .cont fr' ex' cf' gen' →
        exp + fr'.length ≤ gen' ∧ gen ≤ gen') := by
  induction L with
  | nil =>
    intro frontier explored cf gen exp hinv
    refine ⟨?_, ?_, ?_⟩
    · intro r hr
      simp [ehcProcess] at hr
    · intro next nh plan' gen' hc
      simp [ehcProcess] at hc
    · intro fr' ex' cf' gen' hc
      simp only [ehcProcess, EhcStep.cont.injEq] at hc
      obtain ⟨h1, h2, h3, h4⟩ := hc
      subst h1; subst h4
      exact ⟨hinv, Nat.le_refl gen⟩
  | cons head tail ih =>
    intro frontier explored cf gen exp hinv
    obtain ⟨succ, action⟩ := head
    by_cases hex : state_key succ ∈ explored
    · rw [show ∀ cf gen exp, ehcProcess m h plan root ch st ((succ, action) :: tail) frontier explored cf gen exp =
          ehcProcess m h plan root ch st tail frontier explored cf gen exp from
        fun _ _ _ => by simp [ehcProcess, hex]]
      exact ih frontier explored cf gen exp hinv
    · cases hg : is_goal_state m succ with
      | true =>
        cases hp : ehcPath ((succ, st, action) :: cf) root succ with
        | none =>
          rw [show ehcProcess m h plan root ch st ((succ, action) :: tail) frontier explored cf gen exp = .cut from by
            simp [ehcProcess, hex, hg, hp]]
          refine ⟨?_, ?_, ?_⟩
          · intro r hr; exact absurd hr (by simp)
          · intro next nh plan' gen' hc; exact absurd hc (by simp)
          · intro fr' ex' cf' gen' hc; exact absurd hc (by simp)
        | some frag =>
          rw [show ehcProcess m h plan root ch st ((succ, action) :: tail) frontier explored cf gen exp =
              .ret ⟨plan ++ frag, true, gen + 1, exp, (plan ++ frag).length⟩ from by
            simp [ehcProcess, hex, hg, hp]]
          refine ⟨?_, ?_, ?_⟩
          · intro r hr
            simp only [EhcStep.ret.injEq] at hr
            subst hr
            exact ⟨by simp; omega, by simp⟩
          · intro next nh plan' gen' hc; exact absurd hc (by simp)
          · intro fr' ex' cf' gen' hc; exact absurd hc (by simp)
      | false =>
        by_cases hlt : h m succ < ch
        · cases hp : ehcPath ((succ, st, action) :: cf) root succ with
          | none =>
            rw [show ehcProcess m h plan root ch st ((succ, action) :: tail) frontier explored cf gen exp = .cut from by
              simp [ehcProcess, hex, hg, hlt, hp]]
            refine ⟨?_, ?_, ?_⟩
            · intro r hr; exact absurd hr (by simp)
            · intro next nh plan' gen' hc; exact absurd hc (by simp)
            · intro fr' ex' cf' gen' hc; exact absurd hc (by simp)
          | some frag =>
            rw [show ehcProcess m h plan root ch st ((succ, action) :: tail) frontier explored cf gen exp =
                .commit succ (h m succ) (plan ++ frag) (gen + 1) from by
              simp [ehcProcess, hex, hg, hlt, hp]]
            refine ⟨?_, ?_, ?_⟩
            · intro r hr; exact absurd hr (by simp)
            · intro next nh plan' gen' hc
              simp only [EhcStep.commit.injEq] at hc
              obtain ⟨-, -, -, h4⟩ := hc
              subst h4
              omega
            · intro fr' ex' cf' gen' hc; exact absurd hc (by simp)
        · rw [show ehcProcess m h plan root ch st ((succ, action) :: tail) frontier explored cf gen exp =
              ehcProcess m h plan root ch st tail (frontier ++ [succ])
                (state_key succ :: explored) ((succ, st, action) :: cf) (gen + 1) exp from by
            simp [ehcProcess, hex, hg, hlt]]
          have hinv' : exp + (frontier ++ [succ]).length ≤ gen + 1 := by
            simp only [List.length_append, List.length_singleton]
            omega
          have := ih (frontier ++ [succ]) (state_key succ :: explored)
            ((succ, st, action) :: cf) (gen + 1) exp hinv'
          refine ⟨?_, ?_, ?_⟩
          · intro r hr
            have hres := this.1 r hr
            exact ⟨hres.1, by omega⟩
          · intro next nh plan' gen' hc
            have hres := this.2.1 next nh plan' gen' hc
            exact ⟨hres.1, by omega⟩
          · intro fr' ex' cf' gen' hc
            have hres := this.2.2 fr' ex' cf' gen' hc
            exact ⟨hres.1, by omega⟩

/-- Counter bookkeeping of the round loop. -/
theorem ehcInner_counts (m : Maze) (h : Maze → State → Int) (plan : List String)
    (root : State) (ch : Int) :
    ∀ (fuel : Nat) (frontier : List State) (explored : List StateKey)
      (cf : CameFrom) (gen exp : Nat),
      exp + frontier.length ≤ gen →
      (∀ r, ehcInner m h plan root ch fuel frontier explored cf gen exp = some (.ret r) →
        r.states_expanded ≤ r.states_generated ∧ gen ≤ r.states_generated) ∧
      (∀ next nh plan' gen' exp',
        ehcInner m h plan root ch fuel frontier explored cf gen exp =
          some (.commit next nh plan' gen' exp') →
        exp' + 1 ≤ gen' ∧ gen ≤ gen') ∧
      (∀ gen' exp',
        ehcInner m h plan root ch fuel frontier explored cf gen exp =
          some (.exhausted gen' exp') →
        exp' ≤ gen' ∧ gen ≤ gen') := by
  intro fuel
  induction fuel with
  | zero =>
    intro frontier explored cf gen exp hinv
    refine ⟨?_, ?_, ?_⟩ <;> intro f1 hf
    · simp [ehcInner] at hf
    · intro p3 p4 p5 hc
      simp [ehcInner] at hc
    · intro hc
      simp [ehcInner] at hc
  | succ fuel ih =>
    intro frontier explored cf gen exp hinv
    cases frontier with
    | nil =>
      refine ⟨?_, ?_, ?_⟩
      · intro r hr
        simp [ehcInner] at hr
      · intro next nh plan' gen' exp' hc
        simp [ehcInner] at hc
      · intro gen' exp' hc
        simp only [ehcInner, Option.some.injEq, EhcRound.exhausted.injEq] at hc
        obtain ⟨h1, h2⟩ := hc
        subst h1; subst h2
        exact ⟨by simpa using hinv, Nat.le_refl gen⟩
    | cons st rest =>
      simp only [List.length_cons] at hinv
      have hpc := ehcProcess_counts m h plan root ch st (get_successors m st) rest
        explored cf gen (exp + 1) (by omega)
      cases hpr : ehcProcess m h plan root ch st (get_successors m st) rest explored cf gen (exp + 1) with
      | ret r0 =>
        rw [show ehcInner m h plan root ch (fuel + 1) (st :: rest) explored cf gen exp =
            some (.ret r0) from by simp [ehcInner, hpr]]
        refine ⟨?_, ?_, ?_⟩
        · intro r hr
          simp only [Option.some.injEq, EhcRound.ret.injEq] at hr
          subst hr
          exact hpc.1 r0 hpr
        · intro next nh plan' gen' exp' hc
          simp at hc
        · intro gen' exp' hc
          simp at hc
      | commit next0 nh0 plan0 gen0 =>
        rw [show ehcInner m h plan root ch (fuel + 1) (st :: rest) explored cf gen exp =
            some (.commit next0 nh0 plan0 gen0 (exp + 1)) from by simp [ehcInner, hpr]]
        refine ⟨?_, ?_, ?_⟩
        · intro r hr
          simp at hr
        · intro next nh plan' gen' exp' hc
          simp only [Option.some.injEq, EhcRound.commit.injEq] at hc
          obtain ⟨-, -, -, h4, h5⟩ := hc
          subst h4; subst h5
          exact hpc.2.1 next0 nh0 plan0 gen0 hpr
        · intro gen' exp' hc
          simp at hc
      | cont fr' ex' cf' gen' =>
        rw [show ehcInner m h plan root ch (fuel + 1) (st :: rest) explored cf gen exp =
            ehcInner m h plan root ch fuel fr' ex' cf' gen' (exp + 1) from by
          simp [ehcInner, hpr]]
        have hcont := hpc.2.2 fr' ex' cf' gen' hpr
        have := ih fr' ex' cf' gen' (exp + 1) hcont.1
        refine ⟨?_, ?_, ?_⟩
        · intro r hr
          have hres := this.1 r hr
          exact ⟨hres.1, le_trans hcont.2 hres.2⟩
        · intro next nh plan' gen'' exp' hc
          have hres := this.2.1 next nh plan' gen'' exp' hc
          exact ⟨hres.1, le_trans hcont.2 hres.2⟩
        · intro gen'' exp' hc
          have hres := this.2.2 gen'' exp' hc
          exact ⟨hres.1, le_trans hcont.2 hres.2⟩
      | cut =>
        rw [show ehcInner m h plan root ch (fuel + 1) (st :: rest) explored cf gen exp = none from by
          simp [ehcInner, hpr]]
        refine ⟨?_, ?_, ?_⟩
        · intro r hr
          exact absurd hr (by simp)
        · intro next nh plan' gen' exp' hc
          exact absurd hc (by simp)
        · intro gen' exp' hc
          exact absurd hc (by simp)

/-- Counter bookkeeping of the outer loop of `enforced_hill_climbing`. -/
theorem ehcOuter_counts (m : Maze) (h : Maze → State → Int) :
    ∀ (outer_fuel inner_fuel : Nat) (current : State) (ch : Int)
      (plan : List String) (gen exp : Nat) (r : SearchResult),
      exp + 1 ≤ gen →
      ehcOuter m h outer_fuel inner_fuel current ch plan gen exp = some r →
      r.states_expanded ≤ r.states_generated ∧ gen ≤ r.states_generated := by
  intro outer_fuel
  induction outer_fuel with
  | zero =>
    intro inner_fuel current ch plan gen exp r hinv hrun
    simp [ehcOuter] at hrun
  | succ outer_fuel ih =>
    intro inner_fuel current ch plan gen exp r hinv hrun
    cases hg : is_goal_state m current with
    | true =>
      rw [show ehcOuter m h (outer_fuel + 1) inner_fuel current ch plan gen exp =
          some ⟨plan, true, gen, exp, plan.length⟩ from by simp [ehcOuter, hg]] at hrun
      simp only [Option.some.injEq] at hrun
      subst hrun
      exact ⟨by simp; omega, Nat.le_refl gen⟩
    | false =>
      have hic := ehcInner_counts m h plan current ch inner_fuel [current]
        [state_key current] [] gen exp (by simpa using hinv)
      cases hir : ehcInner m h plan current ch inner_fuel [current] [state_key current] [] gen exp with
      | none =>
        rw [show ehcOuter m h (outer_fuel + 1) inner_fuel current ch plan gen exp = none from by
          simp [ehcOuter, hg, hir]] at hrun
        exact absurd hrun (by simp)
      | some out =>
        cases out with
        | ret r0 =>
          rw [show ehcOuter m h (outer_fuel + 1) inner_fuel current ch plan gen exp = some r0 from by
            simp [ehcOuter, hg, hir]] at hrun
          simp only [Option.some.injEq] at hrun
          subst hrun
          exact hic.1 r0 hir
        | commit next nh plan' gen' exp' =>
          rw [show ehcOuter m h (outer_fuel + 1) inner_fuel current ch plan gen exp =
              ehcOuter m h outer_fuel inner_fuel next nh plan' gen' exp' from by
            simp [ehcOuter, hg, hir]] at hrun
          have hcc := hic.2.1 next nh plan' gen' exp' hir
          have := ih inner_fuel next nh plan' gen' exp' r hcc.1 hrun
          exact ⟨this.1, le_trans hcc.2 this.2⟩
        | exhausted gen' exp' =>
          rw [show ehcOuter m h (outer_fuel + 1) inner_fuel current ch plan gen exp =
              some ⟨[], false, gen', exp', 0⟩ from by simp [ehcOuter, hg, hir]] at hrun
          simp only [Option.some.injEq] at hrun
          subst hrun
          have hxc := hic.2.2 gen' exp' hir
          exact ⟨by simpa using hxc.1, by simpa using hxc.2⟩

/-- C9: every terminating run of each of the four algorithms returns
`states_generated ≥ states_expanded` and `states_generated ≥ 1` (the initial
state is counted once at initialization); and when the initial state is
already a goal, enforced hill climbing — the one algorithm that can finish
without expanding anything — returns `states_generated = 1` and
`states_expanded = 0`, the initial state contributing exactly its single
count. -/
theorem search_counter_invariants :
    (∀ (m : Maze) (init : State) (fuel : Nat) (r : SearchResult),
      breadth_first_search m init fuel = some r →
      r.states_expanded ≤ r.states_generated ∧ 1 ≤ r.states_generated) ∧
    (∀ (m : Maze) (init : State) (h : Maze → State → Int) (fuel : Nat) (r : SearchResult),
      greedy_best_first_search m init h fuel = some r →
      r.states_expanded ≤ r.states_generated ∧ 1 ≤ r.states_generated) ∧
    (∀ (m : Maze) (init : State) (h : Maze → State → Int) (fuel : Nat) (r : SearchResult),
      a_star_search m init h fuel = some r →
      r.states_expanded ≤ r.states_generated ∧ 1 ≤ r.states_generated) ∧
    (∀ (m : Maze) (init : State) (h : Maze → State → Int) (f1 f2 : Nat) (r : SearchResult),
      enforced_hill_climbing m init h f1 f2 = some r →
      r.states_expanded ≤ r.states_generated ∧ 1 ≤ r.states_generated) ∧
    (∀ (m : Maze) (init : State) (h : Maze → State → Int) (f1 f2 : Nat),
      is_goal_state m init = true →
      enforced_hill_climbing m init h (f1 + 1) f2 = some ⟨[], true, 1, 0, 0⟩) := by
  refine ⟨?_, ?_, ?_, ?_, ?_⟩
  · intro m init fuel r hrun
    have := bfsLoop_counts m fuel [init] [state_key init] [] 1 0 r (by simp) hrun
    exact ⟨this.1, this.2⟩
  · intro m init h fuel r hrun
    have := greedyLoop_counts m h fuel [(h m init, 0, init)] [state_key init] [] 1 0 1 r
      (by simp) hrun
    exact ⟨this.1, this.2⟩
  · intro m init h fuel r hrun
    have := astarLoop_counts m h fuel
      [((init.g : Int) + h m init, 0, init)] [] [] [(state_key init, init.g)] 1 0 1 r
      (by simp) hrun
    exact ⟨this.1, this.2⟩
  · intro m init h f1 f2 r hrun
    have := ehcOuter_counts m h f1 f2 init (h m init) [] 1 0 r (by simp) hrun
    exact ⟨this.1, this.2⟩
  · intro m init h f1 f2 hgoal
    simp [enforced_hill_climbing, ehcOuter, hgoal]

/-- Witness for C9: on a 1-by-1 world with no boxes the initial state is a
goal, so BFS/greedy/A* finish with one expansion and EHC with none, each
counting the initial state once. -/
theorem search_counter_invariants_witness :
    (breadth_first_search ⟨1, 1, [], [], []⟩ (make_initial_state (0, 0) [] []) 2 =
        some ⟨[], true, 1, 1, 0⟩ ∧
      (1 : Nat) ≤ 1 ∧ 1 ≤ 1) ∧
    (greedy_best_first_search ⟨1, 1, [], [], []⟩ (make_initial_state (0, 0) [] [])
        (fun _ _ => 0) 2 = some ⟨[], true, 1, 1, 0⟩ ∧
      (1 : Nat) ≤ 1 ∧ 1 ≤ 1) ∧
    (a_star_search ⟨1, 1, [], [], []⟩ (make_initial_state (0, 0) [] [])
        (fun _ _ => 0) 2 = some ⟨[], true, 1, 1, 0⟩ ∧
      (1 : Nat) ≤ 1 ∧ 1 ≤ 1) ∧
    (enforced_hill_climbing ⟨1, 1, [], [], []⟩ (make_initial_state (0, 0) [] [])
        (fun _ _ => 0) 1 1 = some ⟨[], true, 1, 0, 0⟩ ∧
      (0 : Nat) ≤ 1 ∧ 1 ≤ 1) ∧
    (is_goal_state ⟨1, 1, [], [], []⟩ (make_initial_state (0, 0) [] []) = true ∧
      enforced_hill_climbing ⟨1, 1, [], [], []⟩ (make_initial_state (0, 0) [] [])
        (fun _ _ => 0) 1 1 = some ⟨[], true, 1, 0, 0⟩) :=
  ⟨⟨rfl, search_counter_invariants.1 ⟨1, 1, [], [], []⟩ (make_initial_state (0, 0) [] []) 2
      ⟨[], true, 1, 1, 0⟩ rfl⟩,
    ⟨rfl, search_counter_invariants.2.1 ⟨1, 1, [], [], []⟩ (make_initial_state (0, 0) [] [])
      (fun _ _ => 0) 2 ⟨[], true, 1, 1, 0⟩ rfl⟩,
    ⟨rfl, search_counter_invariants.2.2.1 ⟨1, 1, [], [], []⟩ (make_initial_state (0, 0) [] [])
      (fun _ _ => 0) 2 ⟨[], true, 1, 1, 0⟩ rfl⟩,
    ⟨rfl, search_counter_invariants.2.2.2.1 ⟨1, 1, [], [], []⟩ (make_initial_state (0, 0) [] [])
      (fun _ _ => 0) 1 1 ⟨[], true, 1, 0, 0⟩ rfl⟩,
    ⟨rfl, search_counter_invariants.2.2.2.2 ⟨1, 1, [], [], []⟩ (make_initial_state (0, 0) [] [])
      (fun _ _ => 0) 0 1 rfl⟩⟩

/-- Every successor costs exactly one more than its parent. -/
theorem succ_g (m : Maze) (s : State) :
    ∀ p ∈ get_successors m s, (p : State × String).1.g = s.g + 1 := by
  intro p hp
  simp only [get_successors, List.mem_append] at hp
  rcases hp with ((hp | hp) | hp) | hp
  · obtain ⟨pa, _, heq⟩ := List.mem_map.mp hp
    subst heq; rfl
  · obtain ⟨kv, _, heq⟩ := List.mem_map.mp hp
    subst heq; rfl
  · by_cases hcb : s.carried_box = none
    · rw [if_pos hcb] at hp
      obtain ⟨bp, _, heq⟩ := List.mem_map.mp hp
      subst heq; rfl
    · rw [if_neg hcb] at hp
      exact absurd hp (List.not_mem_nil p)
  · cases hcb : s.carried_box with
    | none => simp [hcb] at hp
    | some box_id =>
      simp only [hcb] at hp
      cases hz : lookupPos m.zones box_id with
      | none => simp [hz] at hp
      | some zone_pos =>
        simp only [hz] at hp
        by_cases hsz : s.soko_pos = zone_pos
        · rw [if_pos hsz] at hp
          simp only [List.mem_singleton] at hp
          subst hp; rfl
        · rw [if_neg hsz] at hp
          exact absurd hp (List.not_mem_nil p)

/-- No successor label is the empty string. -/
theorem succ_label_ne_empty (m : Maze) (s : State) :
    ∀ p ∈ get_successors m s, (p : State × String).2 ≠ "" := by
  intro p hp
  simp only [get_successors, List.mem_append] at hp
  rcases hp with ((hp | hp) | hp) | hp
  · obtain ⟨pa, hpa, heq⟩ := List.mem_map.mp hp
    subst heq
    have hmem := (List.mem_filter.mp hpa).1
    simp only [List.mem_cons, List.not_mem_nil, or_false] at hmem
    rcases hmem with rfl | rfl | rfl | rfl <;> simp
  · obtain ⟨kv, _, heq⟩ := List.mem_map.mp hp
    subst heq
    intro hcontra
    have := congrArg String.length hcontra
    simp [String.length_append] at this
    exact absurd this.1 (by decide)
  · by_cases hcb : s.carried_box = none
    · rw [if_pos hcb] at hp
      obtain ⟨bp, _, heq⟩ := List.mem_map.mp hp
      subst heq
      intro hcontra
      have := congrArg String.length hcontra
      simp [String.length_append] at this
      exact absurd this.1 (by decide)
    · rw [if_neg hcb] at hp
      exact absurd hp (List.not_mem_nil p)
  · cases hcb : s.carried_box with
    | none => simp [hcb] at hp
    | some box_id =>
      simp only [hcb] at hp
      cases hz : lookupPos m.zones box_id with
      | none => simp [hz] at hp
      | some zone_pos =>
        simp only [hz] at hp
        by_cases hsz : s.soko_pos = zone_pos
        · rw [if_pos hsz] at hp
          simp only [List.mem_singleton] at hp
          subst hp
          intro hcontra
          have := congrArg String.length hcontra
          simp [String.length_append] at this
          exact absurd this.1 (by decide)
        · rw [if_neg hsz] at hp
          exact absurd hp (List.not_mem_nil p)

/-- Well-formed state: box ids and floor-key ids are duplicate-free, as the
parser's dictionaries guarantee for the initial state. -/
def WFState (s : State) : Prop :=
  (s.box_positions.map Prod.fst).Nodup ∧ (s.keys_on_floor.map Prod.fst).Nodup

/-- Appending to a fixed string on the left is injective. -/
theorem strAppend_left_injective (p : String) :
    Function.Injective (fun s => p ++ s) := by
  intro a b hab
  have := congrArg String.data hab
  simp only [String.data_append] at this
  exact String.ext (List.append_cancel_left this)

/-- Every transition preserves well-formedness. -/
theorem succ_wf (m : Maze) (s : State) (hWF : WFState s) :
    ∀ p ∈ get_successors m s, WFState (p : State × String).1 := by
  intro p hp
  simp only [get_successors, List.mem_append] at hp
  rcases hp with ((hp | hp) | hp) | hp
  · obtain ⟨pa, _, heq⟩ := List.mem_map.mp hp
    subst heq
    exact hWF
  · obtain ⟨kv, _, heq⟩ := List.mem_map.mp hp
    subst heq
    refine ⟨hWF.1, ?_⟩
    have : (List.filter (fun kv' => kv'.1 ≠ kv.1) s.keys_on_floor).map Prod.fst |>.Sublist
        (s.keys_on_floor.map Prod.fst) :=
      (List.filter_sublist _).map Prod.fst
    exact hWF.2.sublist this
  · by_cases hcb : s.carried_box = none
    · rw [if_pos hcb] at hp
      obtain ⟨bp, _, heq⟩ := List.mem_map.mp hp
      subst heq
      exact hWF
    · rw [if_neg hcb] at hp
      exact absurd hp (List.not_mem_nil p)
  · cases hcb : s.carried_box with
    | none => simp [hcb] at hp
    | some box_id =>
      simp only [hcb] at hp
      cases hz : lookupPos m.zones box_id with
      | none => simp [hz] at hp
      | some zone_pos =>
        simp only [hz] at hp
        by_cases hsz : s.soko_pos = zone_pos
        · rw [if_pos hsz] at hp
          simp only [List.mem_singleton] at hp
          subst hp
          refine ⟨?_, hWF.2⟩
          have : (s.box_positions.map
              (fun bp => (bp.1, if bp.1 = box_id then zone_pos else bp.2))).map Prod.fst =
              s.box_positions.map Prod.fst := by
            simp [List.map_map, Function.comp_def]
          simpa [drop_box, this] using hWF.1
        · rw [if_neg hsz] at hp
          exact absurd hp (List.not_mem_nil p)

/-- Discriminator separating the four label families: short movement names,
then `Take`/`Lift`/`Drop` labels by their first character. -/
def labelClass (lbl : String) : Nat :=
  if lbl.length ≤ 5 then 0
  else
    match lbl.data with
    | 'T' :: _ => 1
    | 'L' :: _ => 2
    | _ => 3

theorem labelClass_take (k : String) : labelClass ("Take Key " ++ k) = 1 := by
  have hlen : ("Take Key " ++ k).length = 9 + k.length := by
    simp [String.length_append, show "Take Key ".length = 9 from by decide]
  have hdata : ("Take Key " ++ k).data = 'T' :: ("ake Key ".data ++ k.data) := by
    simp only [String.data_append]
    rfl
  rw [labelClass, if_neg (by omega), hdata]
  rfl

theorem labelClass_lift (k : String) : labelClass ("Lift Box " ++ k) = 2 := by
  have hlen : ("Lift Box " ++ k).length = 9 + k.length := by
    simp [String.length_append, show "Lift Box ".length = 9 from by decide]
  have hdata : ("Lift Box " ++ k).data = 'L' :: ("ift Box ".data ++ k.data) := by
    simp only [String.data_append]
    rfl
  rw [labelClass, if_neg (by omega), hdata]
  rfl

theorem labelClass_drop (k : String) : labelClass ("Drop Box " ++ k) = 3 := by
  have hlen : ("Drop Box " ++ k).length = 9 + k.length := by
    simp [String.length_append, show "Drop Box ".length = 9 from by decide]
  have hdata : ("Drop Box " ++ k).data = 'D' :: ("rop Box ".data ++ k.data) := by
    simp only [String.data_append]
    rfl
  rw [labelClass, if_neg (by omega), hdata]
  rfl

theorem disjoint_of_labelClass {l₁ l₂ : List String} {c₁ c₂ : Nat}
    (h1 : ∀ a ∈ l₁, labelClass a = c₁) (h2 : ∀ a ∈ l₂, labelClass a = c₂)
    (hne : c₁ ≠ c₂) : l₁.Disjoint l₂ := by
  intro a ha1 ha2
  exact hne ((h1 a ha1).symm.trans (h2 a ha2))

theorem nodup_append4 {a b c d : List String}
    (na : a.Nodup) (nb : b.Nodup) (nc : c.Nodup) (nd : d.Nodup)
    (dab : a.Disjoint b) (dac : a.Disjoint c) (dad : a.Disjoint d)
    (dbc : b.Disjoint c) (dbd : b.Disjoint d) (dcd : c.Disjoint d) :
    (a ++ b ++ c ++ d).Nodup := by
  rw [List.nodup_append, List.nodup_append, List.nodup_append]
  refine ⟨⟨⟨na, nb, dab⟩, nc, ?_⟩, nd, ?_⟩
  · intro x hx
    rcases List.mem_append.mp hx with hx | hx
    · exact dac hx
    · exact dbc hx
  · intro x hx
    rcases List.mem_append.mp hx with hx | hx
    · rcases List.mem_append.mp hx with hx | hx
      · exact dad hx
      · exact dbd hx
    · exact dcd hx

/-- On a well-formed state the successor labels are pairwise distinct. -/
theorem succ_labels_nodup (m : Maze) (s : State) (hWF : WFState s) :
    ((get_successors m s).map Prod.snd).Nodup := by
  simp only [get_successors, List.map_append]
  have hmovesSub : ((List.filter (fun pa => can_move_to m s pa.1)
      [((s.soko_pos.1 - 1, s.soko_pos.2), "Left"), ((s.soko_pos.1 + 1, s.soko_pos.2), "Right"),
        ((s.soko_pos.1, s.soko_pos.2 - 1), "Up"), ((s.soko_pos.1, s.soko_pos.2 + 1), "Down")]).map
        (fun pa => ((move_soko s pa.1 pa.2, pa.2) : State × String))).map Prod.snd |>.Sublist
      ["Left", "Right", "Up", "Down"] := by
    have h1 := (List.filter_sublist (l :=
      [((s.soko_pos.1 - 1, s.soko_pos.2), "Left"), ((s.soko_pos.1 + 1, s.soko_pos.2), "Right"),
        ((s.soko_pos.1, s.soko_pos.2 - 1), "Up"), ((s.soko_pos.1, s.soko_pos.2 + 1), "Down")])
      (p := fun pa => can_move_to m s pa.1))
    have h2 := h1.map (fun pa => ((move_soko s pa.1 pa.2, pa.2) : State × String).2)
    simpa [List.map_map, Function.comp_def] using h2
  have hmovesNodup := hmovesSub.nodup (by decide)
  have hmovesClass : ∀ lbl ∈ ((List.filter (fun pa => can_move_to m s pa.1)
      [((s.soko_pos.1 - 1, s.soko_pos.2), "Left"), ((s.soko_pos.1 + 1, s.soko_pos.2), "Right"),
        ((s.soko_pos.1, s.soko_pos.2 - 1), "Up"), ((s.soko_pos.1, s.soko_pos.2 + 1), "Down")]).map
        (fun pa => ((move_soko s pa.1 pa.2, pa.2) : State × String))).map Prod.snd,
      labelClass lbl = 0 := by
    intro lbl hlbl
    have hmem := hmovesSub.mem hlbl
    simp only [List.mem_cons, List.not_mem_nil, or_false] at hmem
    rcases hmem with rfl | rfl | rfl | rfl <;> decide
  have htakesNodup : ((s.keys_on_floor.filter (fun kv => kv.2 == s.soko_pos)).map
      (fun kv => ((take_key s kv.1, "Take Key " ++ kv.1) : State × String))).map Prod.snd |>.Nodup := by
    have heq : ((s.keys_on_floor.filter (fun kv => kv.2 == s.soko_pos)).map
        (fun kv => ((take_key s kv.1, "Take Key " ++ kv.1) : State × String))).map Prod.snd =
        ((s.keys_on_floor.filter (fun kv => kv.2 == s.soko_pos)).map Prod.fst).map
          (fun k => "Take Key " ++ k) := by
      simp [List.map_map, Function.comp_def]
    rw [heq]
    exact (hWF.2.sublist ((List.filter_sublist _).map Prod.fst)).map
      (strAppend_left_injective "Take Key ")
  have htakesClass : ∀ lbl ∈ ((s.keys_on_floor.filter (fun kv => kv.2 == s.soko_pos)).map
      (fun kv => ((take_key s kv.1, "Take Key " ++ kv.1) : State × String))).map Prod.snd,
      labelClass lbl = 1 := by
    intro lbl hlbl
    simp only [List.map_map, List.mem_map, Function.comp] at hlbl
    obtain ⟨kv, -, heq⟩ := hlbl
    rw [← heq]
    exact labelClass_take kv.1
  have hliftsNodup :
      ((s.box_positions.filter (fun bp => bp.2 == s.soko_pos)).map
        (fun bp => ((lift_box s bp.1, "Lift Box " ++ bp.1) : State × String))).map Prod.snd |>.Nodup := by
    have heq : ((s.box_positions.filter (fun bp => bp.2 == s.soko_pos)).map
        (fun bp => ((lift_box s bp.1, "Lift Box " ++ bp.1) : State × String))).map Prod.snd =
        ((s.box_positions.filter (fun bp => bp.2 == s.soko_pos)).map Prod.fst).map
          (fun k => "Lift Box " ++ k) := by
      simp [List.map_map, Function.comp_def]
    rw [heq]
    exact (hWF.1.sublist ((List.filter_sublist _).map Prod.fst)).map
      (strAppend_left_injective "Lift Box ")
  have hliftsClass : ∀ lbl ∈ ((s.box_positions.filter (fun bp => bp.2 == s.soko_pos)).map
      (fun bp => ((lift_box s bp.1, "Lift Box " ++ bp.1) : State × String))).map Prod.snd,
      labelClass lbl = 2 := by
    intro lbl hlbl
    simp only [List.map_map, List.mem_map, Function.comp] at hlbl
    obtain ⟨bp, -, heq⟩ := hlbl
    rw [← heq]
    exact labelClass_lift bp.1
  cases hcb : s.carried_box with
  | none =>
    rw [if_pos rfl]
    refine nodup_append4 hmovesNodup htakesNodup hliftsNodup (by simp)
      (disjoint_of_labelClass hmovesClass htakesClass (by decide))
      (disjoint_of_labelClass hmovesClass hliftsClass (by decide))
      (by simp [List.Disjoint])
      (disjoint_of_labelClass htakesClass hliftsClass (by decide))
      (by simp [List.Disjoint])
      (by simp [List.Disjoint])
  | some box_id =>
    rw [if_neg (by simp)]
    have hdropsClass : ∀ lbl ∈ ((match lookupPos m.zones box_id with
        | none => ([] : List (State × String))
        | some zone_pos =>
          if s.soko_pos = zone_pos then
            [(drop_box s box_id zone_pos, "Drop Box " ++ box_id)]
          else []) : List (State × String)).map Prod.snd,
        labelClass lbl = 3 := by
      intro lbl hlbl
      cases hz : lookupPos m.zones box_id with
      | none => simp [hz] at hlbl
      | some zone_pos =>
        rw [hz] at hlbl
        dsimp only at hlbl
        by_cases hsz : s.soko_pos = zone_pos
        · rw [if_pos hsz] at hlbl
          simp only [List.map_cons, List.map_nil, List.mem_singleton] at hlbl
          rw [hlbl]
          exact labelClass_drop box_id
        · rw [if_neg hsz] at hlbl
          simp at hlbl
    have hdropsNodup : ((match lookupPos m.zones box_id with
        | none => ([] : List (State × String))
        | some zone_pos =>
          if s.soko_pos = zone_pos then
            [(drop_box s box_id zone_pos, "Drop Box " ++ box_id)]
          else []) : List (State × String)).map Prod.snd |>.Nodup := by
      cases hz : lookupPos m.zones box_id with
      | none => simp
      | some zone_pos =>
        by_cases hsz : s.soko_pos = zone_pos
        · simp [hsz]
        · simp [hsz]
    refine nodup_append4 hmovesNodup htakesNodup (by simp) hdropsNodup
      (disjoint_of_labelClass hmovesClass htakesClass (by decide))
      (by simp [List.Disjoint])
      (disjoint_of_labelClass hmovesClass hdropsClass (by decide))
      (by simp [List.Disjoint])
      (disjoint_of_labelClass htakesClass hdropsClass (by decide))
      (by simp [List.Disjoint])

/-- Replaying a plan as the spec's plan-validation collaborator does: at each
step the next label matches exactly one successor (its count among the
successor labels is 1) and the replay proceeds to that successor. -/
inductive ReplayUnique (m : Maze) : State → List String → State → Prop
  | nil (s : State) : ReplayUnique m s [] s
  | cons {s : State} {a : String} {s' t : State} {rest : List String} :
      (s', a) ∈ get_successors m s →
      ((get_successors m s).map Prod.snd).count a = 1 →
      ReplayUnique m s' rest t →
      ReplayUnique m s (a :: rest) t

/-- A replay can be extended by one more step at its end. -/
theorem ReplayUnique.snoc {m : Maze} {s t t' : State} {plan : List String} {a : String}
    (hr : ReplayUnique m s plan t) (hmem : (t', a) ∈ get_successors m t)
    (hcnt : ((get_successors m t).map Prod.snd).count a = 1) :
    ReplayUnique m s (plan ++ [a]) t' := by
  induction hr with
  | nil s => exact ReplayUnique.cons hmem hcnt (ReplayUnique.nil t')
  | cons hmem' hcnt' _ ih => exact ReplayUnique.cons hmem' hcnt' (ih hmem hcnt)

/-- Two replays compose. -/
theorem ReplayUnique.append {m : Maze} {s t u : State} {p q : List String}
    (h1 : ReplayUnique m s p t) (h2 : ReplayUnique m t q u) :
    ReplayUnique m s (p ++ q) u := by
  induction h1 with
  | nil s => exact h2
  | cons hmem hcnt _ ih => exact ReplayUnique.cons hmem hcnt (ih h2)

/-- A replay of `n` steps raises `g` by exactly `n`. -/
theorem ReplayUnique.g_eq {m : Maze} {s t : State} {plan : List String}
    (hr : ReplayUnique m s plan t) : t.g = s.g + plan.length := by
  induction hr with
  | nil s => simp
  | cons hmem _ _ ih =>
    rw [ih, succ_g _ _ _ hmem]
    simp only [List.length_cons]
    omega

/-- The predecessor chains recorded in a `came_from` dictionary: a state
reached from `init` through entries whose recorded actions are genuine,
uniquely-labelled successor steps, with the forward action sequence. -/
inductive Chain (m : Maze) (cf : CameFrom) (init : State) : State → List String → Prop
  | refl : Chain m cf init init []
  | step {p : State} {a : String} {s : State} {plan : List String} :
      Chain m cf init p plan →
      lookupCF cf s = some (p, a) →
      (s, a) ∈ get_successors m p →
      ((get_successors m p).map Prod.snd).count a = 1 →
      Chain m cf init s (plan ++ [a])

theorem chain_replay {m : Maze} {cf : CameFrom} {init s : State} {plan : List String}
    (hc : Chain m cf init s plan) : ReplayUnique m init plan s := by
  induction hc with
  | refl => exact ReplayUnique.nil init
  | step _ _ hmem hcnt ih => exact ih.snoc hmem hcnt

theorem chain_g {m : Maze} {cf : CameFrom} {init s : State} {plan : List String}
    (hc : Chain m cf init s plan) : s.g = init.g + plan.length :=
  (chain_replay hc).g_eq

/-- A chain survives prepending a `came_from` entry whose key is a brand-new
state (not `init`, not an existing key). -/
theorem chain_cons {m : Maze} {cf : CameFrom} {init s : State} {plan : List String}
    {s' : State} {pa : State × String}
    (hc : Chain m cf init s plan) (_hne : s' ≠ init) (hnew : lookupCF cf s' = none) :
    Chain m ((s', pa) :: cf) init s plan := by
  induction hc with
  | refl => exact Chain.refl
  | step hch hlook hmem hcnt ih =>
    rename_i p2 a2 s2 plan2
    have hne2 : s' ≠ s2 := fun heq => by
      rw [← heq, hnew] at hlook
      exact absurd hlook (by simp)
    refine Chain.step ih ?_ hmem hcnt
    show lookupCF ((s', pa) :: cf) s2 = some (p2, a2)
    simp only [lookupCF, List.find?]
    rw [show (decide (((s', pa) : State × State × String).1 = s2)) = false from by
      simp [hne2]]
    exact hlook

theorem lookupCF_cons_self (cf : CameFrom) (s : State) (pa : State × String) :
    lookupCF ((s, pa) :: cf) s = some pa := by
  simp [lookupCF, List.find?]

/-- A backward walk over a chain, with enough fuel, produces exactly the
chain's forward action sequence. -/
theorem chain_reconstructLoop {m : Maze} {cf : CameFrom} {init s : State} {plan : List String}
    (hc : Chain m cf init s plan) (hroot : lookupCF cf init = none) :
    ∀ (acc : List String) (fuel : Nat), plan.length ≤ fuel →
      reconstructLoop cf fuel s acc = some (plan ++ acc.reverse) := by
  induction hc with
  | refl =>
    intro acc fuel _
    cases fuel with
    | zero => simp [reconstructLoop, hroot]
    | succ fuel => simp [reconstructLoop, hroot]
  | step hch hlook hmem hcnt ih =>
    rename_i p2 a2 s2 plan2
    intro acc fuel hfuel
    cases fuel with
    | zero => simp at hfuel
    | succ fuel =>
      have hne : pyTruthyStr a2 = true := by
        simp only [pyTruthyStr, ne_eq, decide_eq_true_eq]
        exact succ_label_ne_empty m p2 (s2, a2) hmem
      rw [reconstructLoop, hlook]
      dsimp only
      rw [if_pos hne]
      rw [ih (acc ++ [a2]) fuel (by
        simp only [List.length_append, List.length_singleton] at hfuel
        omega)]
      simp

theorem chain_reconstruct {m : Maze} {cf : CameFrom} {init s : State} {plan : List String}
    (hc : Chain m cf init s plan) (hroot : lookupCF cf init = none)
    (hlen : plan.length ≤ cf.length + 1) :
    reconstruct_plan cf s = some plan := by
  have := chain_reconstructLoop hc hroot [] (cf.length + 1) hlen
  simpa [reconstruct_plan] using this

/-- The round fragment walk of enforced hill climbing produces exactly the
chain's forward action sequence (chain nodes other than the root differ from
the root because their `g` is strictly larger). -/
theorem chain_ehcPathLoop {m : Maze} {cf : CameFrom} {root s : State} {plan : List String}
    (hc : Chain m cf root s plan) :
    ∀ (acc : List String) (fuel : Nat), plan.length ≤ fuel →
      ehcPathLoop cf root fuel s acc = some (plan ++ acc.reverse) := by
  induction hc with
  | refl =>
    intro acc fuel _
    cases fuel with
    | zero => simp [ehcPathLoop]
    | succ fuel => simp [ehcPathLoop]
  | step hch hlook hmem hcnt ih =>
    rename_i p2 a2 s2 plan2
    have hg := chain_g (Chain.step hch hlook hmem hcnt)
    have hne_root : s2 ≠ root := by
      intro heq
      rw [heq] at hg
      simp only [List.length_append, List.length_singleton] at hg
      omega
    intro acc fuel hfuel
    cases fuel with
    | zero =>
      simp only [List.length_append, List.length_singleton] at hfuel
      omega
    | succ fuel =>
      rw [ehcPathLoop, if_neg hne_root, hlook]
      dsimp only
      rw [ih (acc ++ [a2]) fuel (by
        simp only [List.length_append, List.length_singleton] at hfuel
        omega)]
      simp

theorem chain_ehcPath {m : Maze} {cf : CameFrom} {root s : State} {plan : List String}
    (hc : Chain m cf root s plan) (hlen : plan.length ≤ cf.length + 1) :
    ehcPath cf root s = some plan := by
  have := chain_ehcPathLoop hc [] (cf.length + 1) hlen
  simpa [ehcPath] using this

/-- A successful `came_from` lookup exhibits the entry. -/
theorem lookupCF_some {cf : CameFrom} {s : State} {v : State × String}
    (h : lookupCF cf s = some v) : (s, v) ∈ cf := by
  simp only [lookupCF, Option.map_eq_some'] at h
  obtain ⟨e, he, hev⟩ := h
  have hm := List.mem_of_find?_eq_some he
  have hp := List.find?_some he
  simp only [decide_eq_true_eq] at hp
  have : e = (s, v) := by
    obtain ⟨e1, e2⟩ := e
    simp only at hp hev
    rw [hp, hev]
  rw [← this]
  exact hm

/-- A label occurring in a duplicate-free list occurs exactly once. -/
theorem count_one_of_nodup {l : List String} {a : String}
    (hnd : l.Nodup) (ha : a ∈ l) : l.count a = 1 := by
  induction l with
  | nil => simp at ha
  | cons b l ih =>
    rcases List.mem_cons.mp ha with rfl | ha'
    · rw [List.count_cons_self]
      have : a ∉ l := (List.nodup_cons.mp hnd).1
      simp [List.count_eq_zero_of_not_mem this]
    · have hne : b ≠ a := by
        rintro rfl
        exact (List.nodup_cons.mp hnd).1 ha'
      rw [List.count_cons_of_ne (fun h => hne h.symm)]
      exact ih (List.nodup_cons.mp hnd).2 ha'

/-- Invariant tying `breadth_first_search`'s bookkeeping to valid plans:
the initial key is explored, the initial state is never a `came_from` key,
every `came_from` key is explored, and every frontier state is well-formed
and reached from `init` by a recorded chain no longer than `came_from`. -/
def BfsInv (m : Maze) (init : State) (frontier : List State)
    (explored : List StateKey) (cf : CameFrom) : Prop :=
  state_key init ∈ explored ∧
  lookupCF cf init = none ∧
  (∀ e ∈ cf, state_key (e : State × State × String).1 ∈ explored) ∧
  (∀ s ∈ frontier, WFState s ∧ ∃ plan, Chain m cf init s plan ∧ plan.length ≤ cf.length)

theorem bfsExpand_inv (m : Maze) (init cur : State) (hwf_cur : WFState cur)
    (L : List (State × String)) :
    ∀ (frontier : List State) (explored : List StateKey) (cf : CameFrom) (gen : Nat),
      (∀ p ∈ L, p ∈ get_successors m cur) →
      (∃ plan, Chain m cf init cur plan ∧ plan.length ≤ cf.length) →
      BfsInv m init frontier explored cf →
      BfsInv m init (bfsExpand cur L frontier explored cf gen).1
        (bfsExpand cur L frontier explored cf gen).2.1
        (bfsExpand cur L frontier explored cf gen).2.2.1 := by
  induction L with
  | nil =>
    intro frontier explored cf gen _ _ hinv
    simpa [bfsExpand] using hinv
  | cons head tail ih =>
    intro frontier explored cf gen hsub hcur hinv
    obtain ⟨succ, action⟩ := head
    by_cases hex : state_key succ ∈ explored
    · simp only [bfsExpand, if_pos hex]
      exact ih frontier explored cf gen
        (fun p hp => hsub p (List.mem_cons_of_mem _ hp)) hcur hinv
    · simp only [bfsExpand, if_neg hex]
      obtain ⟨hinitex, hroot, hcfex, hfr⟩ := hinv
      obtain ⟨cplan, hchain, hclen⟩ := hcur
      have hsuccmem : (succ, action) ∈ get_successors m cur := hsub _ (List.mem_cons_self _ _)
      have hnewlook : lookupCF cf succ = none := by
        cases hl : lookupCF cf succ with
        | none => rfl
        | some v => exact absurd (hcfex (succ, v) (lookupCF_some hl)) hex
      have hnesucc : succ ≠ init := fun heq => hex (heq ▸ hinitex)
      have hchain' : Chain m ((succ, cur, action) :: cf) init cur cplan :=
        chain_cons hchain hnesucc hnewlook
      have hcount : ((get_successors m cur).map Prod.snd).count action = 1 :=
        count_one_of_nodup (succ_labels_nodup m cur hwf_cur)
          (List.mem_map_of_mem Prod.snd hsuccmem)
      have hsuccchain : Chain m ((succ, cur, action) :: cf) init succ (cplan ++ [action]) :=
        Chain.step hchain' (lookupCF_cons_self cf succ (cur, action)) hsuccmem hcount
      apply ih
      · exact fun p hp => hsub p (List.mem_cons_of_mem _ hp)
      · refine ⟨cplan, hchain', ?_⟩
        simp only [List.length_cons]
        omega
      · refine ⟨List.mem_cons_of_mem _ hinitex, ?_, ?_, ?_⟩
        · simp only [lookupCF, List.find?]
          rw [show decide (((succ, cur, action) : State × State × String).1 = init) = false from by
            simp [hnesucc]]
          exact hroot
        · intro e he
          rcases List.mem_cons.mp he with rfl | he'
          · exact List.mem_cons_self _ _
          · exact List.mem_cons_of_mem _ (hcfex e he')
        · intro s hs
          rcases List.mem_append.mp hs with hs' | hs'
          · obtain ⟨hwf, plan, hch, hlen⟩ := hfr s hs'
            refine ⟨hwf, plan, chain_cons hch hnesucc hnewlook, ?_⟩
            simp only [List.length_cons]
            omega
          · simp only [List.mem_singleton] at hs'
            subst hs'
            refine ⟨succ_wf m cur hwf_cur (s, action) hsuccmem, cplan ++ [action],
              hsuccchain, ?_⟩
            simp only [List.length_append, List.length_singleton, List.length_cons,
              List.length_nil]
            omega

/-- Any successful finished BFS run returns a plan that replays uniquely
from the initial state to a goal state, with `plan_length` the plan's
length. -/
theorem bfsLoop_valid (m : Maze) (init : State) :
    ∀ (fuel : Nat) (frontier : List State) (explored : List StateKey) (cf : CameFrom)
      (gen exp : Nat) (r : SearchResult),
      BfsInv m init frontier explored cf →
      bfsLoop m fuel frontier explored cf gen exp = some r →
      r.success = true →
      ∃ t, ReplayUnique m init r.plan t ∧ is_goal_state m t = true ∧
        r.plan_length = r.plan.length := by
  intro fuel
  induction fuel with
  | zero =>
    intro frontier explored cf gen exp r _ hrun _
    simp [bfsLoop] at hrun
  | succ fuel ih =>
    intro frontier explored cf gen exp r hinv hrun hsucc
    cases frontier with
    | nil =>
      simp only [bfsLoop, Option.some.injEq] at hrun
      subst hrun
      simp at hsucc
    | cons current rest =>
      obtain ⟨hwfc, cplan, hchainc, hlenc⟩ := hinv.2.2.2 current (List.mem_cons_self _ _)
      cases hg : is_goal_state m current with
      | true =>
        have hrp : reconstruct_plan cf current = some cplan :=
          chain_reconstruct hchainc hinv.2.1 (by omega)
        rw [show bfsLoop m (fuel + 1) (current :: rest) explored cf gen exp =
            some ⟨cplan, true, gen, exp + 1, cplan.length⟩ from by
          simp [bfsLoop, hg, hrp]] at hrun
        simp only [Option.some.injEq] at hrun
        subst hrun
        exact ⟨current, chain_replay hchainc, hg, rfl⟩
      | false =>
        rcases hE : bfsExpand current (get_successors m current) rest explored cf gen with
          ⟨fr', ex', cf', gen'⟩
        rw [show bfsLoop m (fuel + 1) (current :: rest) explored cf gen exp =
            bfsLoop m fuel fr' ex' cf' gen' (exp + 1) from by
          simp [bfsLoop, hg, hE]] at hrun
        have hinv' := bfsExpand_inv m init current hwfc (get_successors m current)
          rest explored cf gen (fun p hp => hp) ⟨cplan, hchainc, hlenc⟩
          ⟨hinv.1, hinv.2.1, hinv.2.2.1, fun s hs =>
            hinv.2.2.2 s (List.mem_cons_of_mem _ hs)⟩
        rw [hE] at hinv'
        exact ih fr' ex' cf' gen' (exp + 1) r hinv' hrun hsucc

/-- The popped heap entry comes from the frontier, and the remaining entries
do too. -/
theorem popMin_mem :
    ∀ (l : List PQE) (e : PQE) (rest : List PQE),
      popMin l = some (e, rest) → e ∈ l ∧ ∀ x ∈ rest, x ∈ l := by
  intro l
  induction l with
  | nil =>
    intro e rest hp
    simp [popMin] at hp
  | cons a l ih =>
    intro e rest hp
    rw [popMin] at hp
    cases hq : popMin l with
    | none =>
      cases l with
      | nil =>
        simp only [popMin] at hp
        simp only [Option.some.injEq, Prod.mk.injEq] at hp
        refine ⟨by simp [hp.1], ?_⟩
        intro x hx
        rw [← hp.2] at hx
        simp at hx
      | cons b l' =>
        have := popMin_isSome b l'
        rw [hq] at this
        simp at this
    | some ml =>
      obtain ⟨least, rest'⟩ := ml
      rw [hq] at hp
      dsimp only at hp
      by_cases hlt : pqLt least a = true
      · rw [if_pos hlt] at hp
        simp only [Option.some.injEq, Prod.mk.injEq] at hp
        obtain ⟨hres, hmem⟩ := ih least rest' hq
        refine ⟨by rw [← hp.1]; exact List.mem_cons_of_mem _ hres, ?_⟩
        intro x hx
        rw [← hp.2] at hx
        rcases List.mem_cons.mp hx with rfl | hx'
        · exact List.mem_cons_self _ _
        · exact List.mem_cons_of_mem _ (hmem x hx')
      · rw [if_neg hlt] at hp
        simp only [Option.some.injEq, Prod.mk.injEq] at hp
        refine ⟨by simp [hp.1], ?_⟩
        intro x hx
        rw [← hp.2] at hx
        exact List.mem_cons_of_mem _ hx

theorem greedyExpand_inv (m : Maze) (h : Maze → State → Int) (init cur : State)
    (hwf_cur : WFState cur) (L : List (State × String)) :
    ∀ (frontier : List PQE) (explored : List StateKey) (cf : CameFrom) (gen counter : Nat),
      (∀ p ∈ L, p ∈ get_successors m cur) →
      (∃ plan, Chain m cf init cur plan ∧ plan.length ≤ cf.length) →
      BfsInv m init (frontier.map (fun e => (e : PQE).2.2)) explored cf →
      BfsInv m init
        (((greedyExpand m h cur L frontier explored cf gen counter).1).map (fun e => (e : PQE).2.2))
        (greedyExpand m h cur L frontier explored cf gen counter).2.1
        (greedyExpand m h cur L frontier explored cf gen counter).2.2.1 := by
  induction L with
  | nil =>
    intro frontier explored cf gen counter _ _ hinv
    simpa [greedyExpand] using hinv
  | cons head tail ih =>
    intro frontier explored cf gen counter hsub hcur hinv
    obtain ⟨succ, action⟩ := head
    by_cases hex : state_key succ ∈ explored
    · simp only [greedyExpand, if_pos hex]
      exact ih frontier explored cf gen counter
        (fun p hp => hsub p (List.mem_cons_of_mem _ hp)) hcur hinv
    · simp only [greedyExpand, if_neg hex]
      obtain ⟨hinitex, hroot, hcfex, hfr⟩ := hinv
      obtain ⟨cplan, hchain, hclen⟩ := hcur
      have hsuccmem : (succ, action) ∈ get_successors m cur := hsub _ (List.mem_cons_self _ _)
      have hnewlook : lookupCF cf succ = none := by
        cases hl : lookupCF cf succ with
        | none => rfl
        | some v => exact absurd (hcfex (succ, v) (lookupCF_some hl)) hex
      have hnesucc : succ ≠ init := fun heq => hex (heq ▸ hinitex)
      have hchain' : Chain m ((succ, cur, action) :: cf) init cur cplan :=
        chain_cons hchain hnesucc hnewlook
      have hcount : ((get_successors m cur).map Prod.snd).count action = 1 :=
        count_one_of_nodup (succ_labels_nodup m cur hwf_cur)
          (List.mem_map_of_mem Prod.snd hsuccmem)
      have hsuccchain : Chain m ((succ, cur, action) :: cf) init succ (cplan ++ [action]) :=
        Chain.step hchain' (lookupCF_cons_self cf succ (cur, action)) hsuccmem hcount
      apply ih
      · exact fun p hp => hsub p (List.mem_cons_of_mem _ hp)
      · refine ⟨cplan, hchain', ?_⟩
        simp only [List.length_cons]
        omega
      · refine ⟨List.mem_cons_of_mem _ hinitex, ?_, ?_, ?_⟩
        · simp only [lookupCF, List.find?]
          rw [show decide (((succ, cur, action) : State × State × String).1 = init) = false from by
            simp [hnesucc]]
          exact hroot
        · intro e he
          rcases List.mem_cons.mp he with rfl | he'
          · exact List.mem_cons_self _ _
          · exact List.mem_cons_of_mem _ (hcfex e he')
        · intro s hs
          simp only [List.map_append, List.map_cons, List.map_nil] at hs
          rcases List.mem_append.mp hs with hs' | hs'
          · obtain ⟨hwf, plan, hch, hlen⟩ := hfr s hs'
            refine ⟨hwf, plan, chain_cons hch hnesucc hnewlook, ?_⟩
            simp only [List.length_cons]
            omega
          · simp only [List.mem_singleton] at hs'
            subst hs'
            refine ⟨succ_wf m cur hwf_cur (s, action) hsuccmem, cplan ++ [action],
              hsuccchain, ?_⟩
            simp only [List.length_append, List.length_singleton, List.length_cons,
              List.length_nil]
            omega

/-- Any successful finished greedy run returns a plan that replays uniquely
from the initial state to a goal state. -/
theorem greedyLoop_valid (m : Maze) (h : Maze → State → Int) (init : State) :
    ∀ (fuel : Nat) (frontier : List PQE) (explored : List StateKey) (cf : CameFrom)
      (gen exp counter : Nat) (r : SearchResult),
      BfsInv m init (frontier.map (fun e => (e : PQE).2.2)) explored cf →
      greedyLoop m h fuel frontier explored cf gen exp counter = some r →
      r.success = true →
      ∃ t, ReplayUnique m init r.plan t ∧ is_goal_state m t = true ∧
        r.plan_length = r.plan.length := by
  intro fuel
  induction fuel with
  | zero =>
    intro frontier explored cf gen exp counter r _ hrun _
    simp [greedyLoop] at hrun
  | succ fuel ih =>
    intro frontier explored cf gen exp counter r hinv hrun hsucc
    cases hpop : popMin frontier with
    | none =>
      rw [show greedyLoop m h (fuel + 1) frontier explored cf gen exp counter =
          some ⟨[], false, gen, exp, 0⟩ from by simp [greedyLoop, hpop]] at hrun
      simp only [Option.some.injEq] at hrun
      subst hrun
      simp at hsucc
    | some pr =>
      obtain ⟨⟨f, c, current⟩, rest⟩ := pr
      obtain ⟨hcurmem, hrestmem⟩ := popMin_mem frontier (f, c, current) rest hpop
      obtain ⟨hwfc, cplan, hchainc, hlenc⟩ := hinv.2.2.2 current
        (List.mem_map_of_mem (fun e => (e : PQE).2.2) hcurmem)
      cases hg : is_goal_state m current with
      | true =>
        have hrp : reconstruct_plan cf current = some cplan :=
          chain_reconstruct hchainc hinv.2.1 (by omega)
        rw [show greedyLoop m h (fuel + 1) frontier explored cf gen exp counter =
            some ⟨cplan, true, gen, exp + 1, cplan.length⟩ from by
          simp [greedyLoop, hpop, hg, hrp]] at hrun
        simp only [Option.some.injEq] at hrun
        subst hrun
        exact ⟨current, chain_replay hchainc, hg, rfl⟩
      | false =>
        rcases hE : greedyExpand m h current (get_successors m current) rest explored cf gen counter with
          ⟨fr', ex', cf', gen', counter'⟩
        rw [show greedyLoop m h (fuel + 1) frontier explored cf gen exp counter =
            greedyLoop m h fuel fr' ex' cf' gen' (exp + 1) counter' from by
          simp [greedyLoop, hpop, hg, hE]] at hrun
        have hinv' := greedyExpand_inv m h init current hwfc (get_successors m current)
          rest explored cf gen counter (fun p hp => hp) ⟨cplan, hchainc, hlenc⟩
          ⟨hinv.1, hinv.2.1, hinv.2.2.1, fun s hs =>
            hinv.2.2.2 s (by
              obtain ⟨e, he, heq⟩ := List.mem_map.mp hs
              exact heq ▸ List.mem_map_of_mem _ (hrestmem e he))⟩
        rw [hE] at hinv'
        exact ih fr' ex' cf' gen' (exp + 1) counter' r hinv' hrun hsucc

/-- Invariant tying `a_star_search`'s bookkeeping to valid plans: the
initial key and every `came_from` key have a recorded best `g` no larger
than their own `g` (so a pushed state is never an existing `came_from` key),
the initial state is never a `came_from` key, and every frontier entry's
state is reached from `init` by a recorded chain. -/
def AstarInv (m : Maze) (init : State) (frontier : List PQE)
    (cf : CameFrom) (gv : GValues) : Prop :=
  (∃ v, lookupGV gv (state_key init) = some v ∧ v ≤ init.g) ∧
  (∀ e ∈ cf, ∃ v, lookupGV gv (state_key (e : State × State × String).1) = some v ∧
    v ≤ e.1.g) ∧
  lookupCF cf init = none ∧
  (∀ pq ∈ frontier, WFState (pq : PQE).2.2 ∧
    ∃ plan, Chain m cf init pq.2.2 plan ∧ plan.length ≤ cf.length)

theorem lookupGV_cons (k k' : StateKey) (g : Nat) (gv : GValues) :
    lookupGV ((k, g) :: gv) k' = if k' = k then some g else lookupGV gv k' := by
  by_cases hk : k' = k
  · subst hk
    simp [lookupGV, List.find?]
  · simp only [lookupGV, List.find?]
    rw [show decide (((k, g) : StateKey × Nat).1 = k') = false from by
      simp only [decide_eq_false_iff_not]
      exact fun heq => hk heq.symm]
    rw [if_neg hk]

theorem astarRelax_inv (m : Maze) (h : Maze → State → Int) (init cur : State)
    (hwf_cur : WFState cur) (explored : List StateKey) (L : List (State × String)) :
    ∀ (frontier : List PQE) (cf : CameFrom) (gv : GValues) (gen counter : Nat),
      (∀ p ∈ L, p ∈ get_successors m cur) →
      (∃ plan, Chain m cf init cur plan ∧ plan.length ≤ cf.length) →
      AstarInv m init frontier cf gv →
      AstarInv m init (astarRelax m h cur explored L frontier cf gv gen counter).1
        (astarRelax m h cur explored L frontier cf gv gen counter).2.1
        (astarRelax m h cur explored L frontier cf gv gen counter).2.2.1 := by
  induction L with
  | nil =>
    intro frontier cf gv gen counter _ _ hinv
    simpa [astarRelax] using hinv
  | cons head tail ih =>
    intro frontier cf gv gen counter hsub hcur hinv
    obtain ⟨succ, action⟩ := head
    by_cases hex : state_key succ ∈ explored
    · simp only [astarRelax, if_pos hex]
      exact ih frontier cf gv gen counter
        (fun p hp => hsub p (List.mem_cons_of_mem _ hp)) hcur hinv
    · cases hbetter : (match lookupGV gv (state_key succ) with
        | none => true
        | some best => decide (succ.g < best)) with
      | false =>
        rw [show astarRelax m h cur explored ((succ, action) :: tail) frontier cf gv gen counter =
            astarRelax m h cur explored tail frontier cf gv gen counter from by
          simp only [astarRelax, if_neg hex]
          rw [hbetter]
          simp]
        exact ih frontier cf gv gen counter
          (fun p hp => hsub p (List.mem_cons_of_mem _ hp)) hcur hinv
      | true =>
        rw [show astarRelax m h cur explored ((succ, action) :: tail) frontier cf gv gen counter =
            astarRelax m h cur explored tail
              (frontier ++ [((succ.g : Int) + h m succ, counter, succ)])
              ((succ, cur, action) :: cf) ((state_key succ, succ.g) :: gv)
              (gen + 1) (counter + 1) from by
          simp only [astarRelax, if_neg hex]
          rw [hbetter]
          simp]
        obtain ⟨⟨vi, hvi, hvile⟩, hcfgv, hroot, hfr⟩ := hinv
        obtain ⟨cplan, hchain, hclen⟩ := hcur
        have hsuccmem : (succ, action) ∈ get_successors m cur := hsub _ (List.mem_cons_self _ _)
        have hbet : ∀ w, lookupGV gv (state_key succ) = some w → succ.g < w := by
          intro w hw
          rw [hw] at hbetter
          simpa using hbetter
        have hnewlook : lookupCF cf succ = none := by
          cases hl : lookupCF cf succ with
          | none => rfl
          | some v =>
            obtain ⟨w, hw, hwle⟩ := hcfgv (succ, v) (lookupCF_some hl)
            have hwle' : w ≤ succ.g := hwle
            exact absurd (hbet w hw) (by omega)
        have hnesucc : succ ≠ init := by
          intro heq
          rw [heq] at hbet
          exact absurd (hbet vi hvi) (by omega)
        have hchain' : Chain m ((succ, cur, action) :: cf) init cur cplan :=
          chain_cons hchain hnesucc hnewlook
        have hcount : ((get_successors m cur).map Prod.snd).count action = 1 :=
          count_one_of_nodup (succ_labels_nodup m cur hwf_cur)
            (List.mem_map_of_mem Prod.snd hsuccmem)
        have hsuccchain : Chain m ((succ, cur, action) :: cf) init succ (cplan ++ [action]) :=
          Chain.step hchain' (lookupCF_cons_self cf succ (cur, action)) hsuccmem hcount
        apply ih
        · exact fun p hp => hsub p (List.mem_cons_of_mem _ hp)
        · refine ⟨cplan, hchain', ?_⟩
          simp only [List.length_cons]
          omega
        · refine ⟨?_, ?_, ?_, ?_⟩
          · rw [lookupGV_cons]
            by_cases hk : state_key init = state_key succ
            · rw [if_pos hk]
              rw [hk] at hvi
              have := hbet vi hvi
              exact ⟨succ.g, rfl, by omega⟩
            · rw [if_neg hk]
              exact ⟨vi, hvi, hvile⟩
          · intro e he
            rcases List.mem_cons.mp he with rfl | he'
            · rw [lookupGV_cons, if_pos rfl]
              exact ⟨succ.g, rfl, le_refl _⟩
            · obtain ⟨w, hw, hwle⟩ := hcfgv e he'
              rw [lookupGV_cons]
              by_cases hk : state_key e.1 = state_key succ
              · rw [if_pos hk]
                rw [hk] at hw
                have := hbet w hw
                exact ⟨succ.g, rfl, by omega⟩
              · rw [if_neg hk]
                exact ⟨w, hw, hwle⟩
          · simp only [lookupCF, List.find?]
            rw [show decide (((succ, cur, action) : State × State × String).1 = init) = false from by
              simp [hnesucc]]
            exact hroot
          · intro pq hpq
            rcases List.mem_append.mp hpq with hpq' | hpq'
            · obtain ⟨hwf, plan, hch, hlen⟩ := hfr pq hpq'
              refine ⟨hwf, plan, chain_cons hch hnesucc hnewlook, ?_⟩
              simp only [List.length_cons]
              omega
            · simp only [List.mem_singleton] at hpq'
              subst hpq'
              refine ⟨succ_wf m cur hwf_cur (succ, action) hsuccmem, cplan ++ [action],
                hsuccchain, ?_⟩
              simp only [List.length_append, List.length_singleton, List.length_cons,
                List.length_nil]
              omega

/-- Any successful finished A* run returns a plan that replays uniquely
from the initial state to a goal state. -/
theorem astarLoop_valid (m : Maze) (h : Maze → State → Int) (init : State) :
    ∀ (fuel : Nat) (frontier : List PQE) (explored : List StateKey) (cf : CameFrom)
      (gv : GValues) (gen exp counter : Nat) (r : SearchResult),
      AstarInv m init frontier cf gv →
      astarLoop m h fuel frontier explored cf gv gen exp counter = some r →
      r.success = true →
      ∃ t, ReplayUnique m init r.plan t ∧ is_goal_state m t = true ∧
        r.plan_length = r.plan.length := by
  intro fuel
  induction fuel with
  | zero =>
    intro frontier explored cf gv gen exp counter r _ hrun _
    simp [astarLoop] at hrun
  | succ fuel ih =>
    intro frontier explored cf gv gen exp counter r hinv hrun hsucc
    cases hpop : popMin frontier with
    | none =>
      rw [show astarLoop m h (fuel + 1) frontier explored cf gv gen exp counter =
          some ⟨[], false, gen, exp, 0⟩ from by simp [astarLoop, hpop]] at hrun
      simp only [Option.some.injEq] at hrun
      subst hrun
      simp at hsucc
    | some pr =>
      obtain ⟨⟨f, c, current⟩, rest⟩ := pr
      obtain ⟨hcurmem, hrestmem⟩ := popMin_mem frontier (f, c, current) rest hpop
      have hrestinv : AstarInv m init rest cf gv :=
        ⟨hinv.1, hinv.2.1, hinv.2.2.1, fun pq hpq => hinv.2.2.2 pq (hrestmem pq hpq)⟩
      by_cases hex : state_key current ∈ explored
      · rw [show astarLoop m h (fuel + 1) frontier explored cf gv gen exp counter =
            astarLoop m h fuel rest explored cf gv gen exp counter from by
          simp [astarLoop, hpop, hex]] at hrun
        exact ih rest explored cf gv gen exp counter r hrestinv hrun hsucc
      · obtain ⟨hwfc, cplan, hchainc, hlenc⟩ := hinv.2.2.2 (f, c, current) hcurmem
        cases hg : is_goal_state m current with
        | true =>
          have hrp : reconstruct_plan cf current = some cplan :=
            chain_reconstruct hchainc hinv.2.2.1 (by omega)
          rw [show astarLoop m h (fuel + 1) frontier explored cf gv gen exp counter =
              some ⟨cplan, true, gen, exp + 1, cplan.length⟩ from by
            simp [astarLoop, hpop, hex, hg, hrp]] at hrun
          simp only [Option.some.injEq] at hrun
          subst hrun
          exact ⟨current, chain_replay hchainc, hg, rfl⟩
        | false =>
          rcases hE : astarRelax m h current (state_key current :: explored)
              (get_successors m current) rest cf gv gen counter with
            ⟨fr', cf', gv', gen', counter'⟩
          rw [show astarLoop m h (fuel + 1) frontier explored cf gv gen exp counter =
              astarLoop m h fuel fr' (state_key current :: explored) cf' gv' gen'
                (exp + 1) counter' from by
            simp [astarLoop, hpop, hex, hg, hE]] at hrun
          have hinv' := astarRelax_inv m h init current hwfc (state_key current :: explored)
            (get_successors m current) rest cf gv gen counter (fun p hp => hp)
            ⟨cplan, hchainc, hlenc⟩ hrestinv
          rw [hE] at hinv'
          exact ih fr' (state_key current :: explored) cf' gv' gen' (exp + 1) counter' r
            hinv' hrun hsucc

/-- Validity of one round expansion of enforced hill climbing: a success
return carries the accumulated plan extended by a fragment replaying from
the round root to a goal, a commit carries a fragment replaying to the
committed state, and a completed pass preserves the round invariant. -/
theorem ehcProcess_valid (m : Maze) (h : Maze → State → Int) (plan : List String)
    (root : State) (ch : Int) (st : State) (hwf_st : WFState st)
    (L : List (State × String)) :
    ∀ (frontier : List State) (explored : List StateKey) (cf : CameFrom) (gen exp : Nat),
      (∀ p ∈ L, p ∈ get_successors m st) →
      (∃ plan0, Chain m cf root st plan0 ∧ plan0.length ≤ cf.length) →
      BfsInv m root frontier explored cf →
      (∀ r, ehcProcess m h plan root ch st L frontier explored cf gen exp = .ret r →
        ∃ frag t, r.plan = plan ++ frag ∧ ReplayUnique m root frag t ∧
          is_goal_state m t = true ∧ r.success = true ∧ r.plan_length = r.plan.length) ∧
      (∀ next nh plan' gen',
        ehcProcess m h plan root ch st L frontier explored cf gen exp = .commit next nh plan' gen' →
        ∃ frag, plan' = plan ++ frag ∧ ReplayUnique m root frag next ∧ WFState next) ∧
      (∀ fr' ex' cf' gen',
        ehcProcess m h plan root ch st L frontier explored cf gen exp = .cont fr' ex' cf' gen' →
        BfsInv m root fr' ex' cf') := by
  induction L with
  | nil =>
    intro frontier explored cf gen exp _ _ hinv
    refine ⟨?_, ?_, ?_⟩
    · intro r hr
      simp [ehcProcess] at hr
    · intro next nh plan' gen' hc
      simp [ehcProcess] at hc
    · intro fr' ex' cf' gen' hc
      simp only [ehcProcess, EhcStep.cont.injEq] at hc
      obtain ⟨h1, h2, h3, h4⟩ := hc
      subst h1; subst h2; subst h3
      exact hinv
  | cons head tail ih =>
    intro frontier explored cf gen exp hsub hst hinv
    obtain ⟨succ, action⟩ := head
    by_cases hex : state_key succ ∈ explored
    · rw [show ehcProcess m h plan root ch st ((succ, action) :: tail) frontier explored cf gen exp =
          ehcProcess m h plan root ch st tail frontier explored cf gen exp from by
        simp [ehcProcess, hex]]
      exact ih frontier explored cf gen exp
        (fun p hp => hsub p (List.mem_cons_of_mem _ hp)) hst hinv
    · obtain ⟨hrootex, hroot, hcfex, hfr⟩ := hinv
      obtain ⟨splan, hchain, hslen⟩ := hst
      have hsuccmem : (succ, action) ∈ get_successors m st := hsub _ (List.mem_cons_self _ _)
      have hnewlook : lookupCF cf succ = none := by
        cases hl : lookupCF cf succ with
        | none => rfl
        | some v => exact absurd (hcfex (succ, v) (lookupCF_some hl)) hex
      have hnesucc : succ ≠ root := fun heq => hex (heq ▸ hrootex)
      have hchain' : Chain m ((succ, st, action) :: cf) root st splan :=
        chain_cons hchain hnesucc hnewlook
      have hcount : ((get_successors m st).map Prod.snd).count action = 1 :=
        count_one_of_nodup (succ_labels_nodup m st hwf_st)
          (List.mem_map_of_mem Prod.snd hsuccmem)
      have hsuccchain : Chain m ((succ, st, action) :: cf) root succ (splan ++ [action]) :=
        Chain.step hchain' (lookupCF_cons_self cf succ (st, action)) hsuccmem hcount
      have hpath : ehcPath ((succ, st, action) :: cf) root succ = some (splan ++ [action]) := by
        refine chain_ehcPath hsuccchain ?_
        simp only [List.length_append, List.length_singleton, List.length_cons,
          List.length_nil]
        omega
      have hwfsucc : WFState succ := succ_wf m st hwf_st (succ, action) hsuccmem
      cases hg : is_goal_state m succ with
      | true =>
        rw [show ehcProcess m h plan root ch st ((succ, action) :: tail) frontier explored cf gen exp =
            .ret ⟨plan ++ (splan ++ [action]), true, gen + 1, exp,
              (plan ++ (splan ++ [action])).length⟩ from by
          simp [ehcProcess, hex, hg, hpath]]
        refine ⟨?_, ?_, ?_⟩
        · intro r hr
          simp only [EhcStep.ret.injEq] at hr
          subst hr
          exact ⟨splan ++ [action], succ, rfl, chain_replay hsuccchain, hg, rfl, rfl⟩
        · intro next nh plan' gen' hc
          exact absurd hc (by simp)
        · intro fr' ex' cf' gen' hc
          exact absurd hc (by simp)
      | false =>
        by_cases hlt : h m succ < ch
        · rw [show ehcProcess m h plan root ch st ((succ, action) :: tail) frontier explored cf gen exp =
              .commit succ (h m succ) (plan ++ (splan ++ [action])) (gen + 1) from by
            simp [ehcProcess, hex, hg, hlt, hpath]]
          refine ⟨?_, ?_, ?_⟩
          · intro r hr
            exact absurd hr (by simp)
          · intro next nh plan' gen' hc
            simp only [EhcStep.commit.injEq] at hc
            obtain ⟨rfl, -, h3, -⟩ := hc
            exact ⟨splan ++ [action], h3.symm, chain_replay hsuccchain, hwfsucc⟩
          · intro fr' ex' cf' gen' hc
            exact absurd hc (by simp)
        · rw [show ehcProcess m h plan root ch st ((succ, action) :: tail) frontier explored cf gen exp =
              ehcProcess m h plan root ch st tail (frontier ++ [succ])
                (state_key succ :: explored) ((succ, st, action) :: cf) (gen + 1) exp from by
            simp [ehcProcess, hex, hg, hlt]]
          apply ih
          · exact fun p hp => hsub p (List.mem_cons_of_mem _ hp)
          · refine ⟨splan, hchain', ?_⟩
            simp only [List.length_cons]
            omega
          · refine ⟨List.mem_cons_of_mem _ hrootex, ?_, ?_, ?_⟩
            · simp only [lookupCF, List.find?]
              rw [show decide (((succ, st, action) : State × State × String).1 = root) = false from by
                simp [hnesucc]]
              exact hroot
            · intro e he
              rcases List.mem_cons.mp he with rfl | he'
              · exact List.mem_cons_self _ _
              · exact List.mem_cons_of_mem _ (hcfex e he')
            · intro s hs
              rcases List.mem_append.mp hs with hs' | hs'
              · obtain ⟨hwf, plan0, hch, hlen⟩ := hfr s hs'
                refine ⟨hwf, plan0, chain_cons hch hnesucc hnewlook, ?_⟩
                simp only [List.length_cons]
                omega
              · simp only [List.mem_singleton] at hs'
                subst hs'
                refine ⟨hwfsucc, splan ++ [action], hsuccchain, ?_⟩
                simp only [List.length_append, List.length_singleton, List.length_cons,
                  List.length_nil]
                omega

/-- Validity of a full round of enforced hill climbing. -/
theorem ehcInner_valid (m : Maze) (h : Maze → State → Int) (plan : List String)
    (root : State) (ch : Int) :
    ∀ (fuel : Nat) (frontier : List State) (explored : List StateKey) (cf : CameFrom)
      (gen exp : Nat),
      BfsInv m root frontier explored cf →
      (∀ r, ehcInner m h plan root ch fuel frontier explored cf gen exp = some (.ret r) →
        ∃ frag t, r.plan = plan ++ frag ∧ ReplayUnique m root frag t ∧
          is_goal_state m t = true ∧ r.success = true ∧ r.plan_length = r.plan.length) ∧
      (∀ next nh plan' gen' exp',
        ehcInner m h plan root ch fuel frontier explored cf gen exp =
          some (.commit next nh plan' gen' exp') →
        ∃ frag, plan' = plan ++ frag ∧ ReplayUnique m root frag next ∧ WFState next) := by
  intro fuel
  induction fuel with
  | zero =>
    intro frontier explored cf gen exp _
    refine ⟨?_, ?_⟩
    · intro r hr
      simp [ehcInner] at hr
    · intro next nh plan' gen' exp' hc
      simp [ehcInner] at hc
  | succ fuel ih =>
    intro frontier explored cf gen exp hinv
    cases frontier with
    | nil =>
      refine ⟨?_, ?_⟩
      · intro r hr
        simp [ehcInner] at hr
      · intro next nh plan' gen' exp' hc
        simp [ehcInner] at hc
    | cons st rest =>
      obtain ⟨hwfst, splan, hchainst, hslen⟩ := hinv.2.2.2 st (List.mem_cons_self _ _)
      have hrest : BfsInv m root rest explored cf :=
        ⟨hinv.1, hinv.2.1, hinv.2.2.1, fun s hs => hinv.2.2.2 s (List.mem_cons_of_mem _ hs)⟩
      have hpv := ehcProcess_valid m h plan root ch st hwfst (get_successors m st)
        rest explored cf gen (exp + 1) (fun p hp => hp) ⟨splan, hchainst, hslen⟩ hrest
      cases hpr : ehcProcess m h plan root ch st (get_successors m st) rest explored cf gen (exp + 1) with
      | ret r0 =>
        rw [show ehcInner m h plan root ch (fuel + 1) (st :: rest) explored cf gen exp =
            some (.ret r0) from by simp [ehcInner, hpr]]
        refine ⟨?_, ?_⟩
        · intro r hr
          simp only [Option.some.injEq, EhcRound.ret.injEq] at hr
          subst hr
          exact hpv.1 r0 hpr
        · intro next nh plan' gen' exp' hc
          simp at hc
      | commit next0 nh0 plan0 gen0 =>
        rw [show ehcInner m h plan root ch (fuel + 1) (st :: rest) explored cf gen exp =
            some (.commit next0 nh0 plan0 gen0 (exp + 1)) from by simp [ehcInner, hpr]]
        refine ⟨?_, ?_⟩
        · intro r hr
          simp at hr
        · intro next nh plan' gen' exp' hc
          simp only [Option.some.injEq, EhcRound.commit.injEq] at hc
          obtain ⟨rfl, -, h3, -, -⟩ := hc
          obtain ⟨frag, hfrag, hrep, hwf⟩ := hpv.2.1 next0 nh0 plan0 gen0 hpr
          exact ⟨frag, h3 ▸ hfrag, hrep, hwf⟩
      | cont fr' ex' cf' gen' =>
        rw [show ehcInner m h plan root ch (fuel + 1) (st :: rest) explored cf gen exp =
            ehcInner m h plan root ch fuel fr' ex' cf' gen' (exp + 1) from by
          simp [ehcInner, hpr]]
        exact ih fr' ex' cf' gen' (exp + 1) (hpv.2.2 fr' ex' cf' gen' hpr)
      | cut =>
        rw [show ehcInner m h plan root ch (fuel + 1) (st :: rest) explored cf gen exp = none from by
          simp [ehcInner, hpr]]
        refine ⟨?_, ?_⟩
        · intro r hr
          exact absurd hr (by simp)
        · intro next nh plan' gen' exp' hc
          exact absurd hc (by simp)

/-- Validity of the outer loop of enforced hill climbing. -/
theorem ehcOuter_valid (m : Maze) (h : Maze → State → Int) (init : State) :
    ∀ (outer_fuel inner_fuel : Nat) (current : State) (ch : Int)
      (plan : List String) (gen exp : Nat) (r : SearchResult),
      WFState current →
      ReplayUnique m init plan current →
      ehcOuter m h outer_fuel inner_fuel current ch plan gen exp = some r →
      r.success = true →
      ∃ t, ReplayUnique m init r.plan t ∧ is_goal_state m t = true ∧
        r.plan_length = r.plan.length := by
  intro outer_fuel
  induction outer_fuel with
  | zero =>
    intro inner_fuel current ch plan gen exp r _ _ hrun _
    simp [ehcOuter] at hrun
  | succ outer_fuel ih =>
    intro inner_fuel current ch plan gen exp r hwf hrep hrun hsucc
    cases hg : is_goal_state m current with
    | true =>
      rw [show ehcOuter m h (outer_fuel + 1) inner_fuel current ch plan gen exp =
          some ⟨plan, true, gen, exp, plan.length⟩ from by simp [ehcOuter, hg]] at hrun
      simp only [Option.some.injEq] at hrun
      subst hrun
      exact ⟨current, hrep, hg, rfl⟩
    | false =>
      have hiv := ehcInner_valid m h plan current ch inner_fuel [current]
        [state_key current] [] gen exp
        ⟨List.mem_cons_self _ _, rfl, by simp, by
          intro s hs
          simp only [List.mem_singleton] at hs
          subst hs
          exact ⟨hwf, [], Chain.refl, by simp⟩⟩
      cases hir : ehcInner m h plan current ch inner_fuel [current] [state_key current] [] gen exp with
      | none =>
        rw [show ehcOuter m h (outer_fuel + 1) inner_fuel current ch plan gen exp = none from by
          simp [ehcOuter, hg, hir]] at hrun
        exact absurd hrun (by simp)
      | some out =>
        cases out with
        | ret r0 =>
          rw [show ehcOuter m h (outer_fuel + 1) inner_fuel current ch plan gen exp = some r0 from by
            simp [ehcOuter, hg, hir]] at hrun
          simp only [Option.some.injEq] at hrun
          subst hrun
          obtain ⟨frag, t, hplan, hfragrep, hgoal, -, hlen⟩ := hiv.1 r0 hir
          refine ⟨t, ?_, hgoal, hlen⟩
          rw [hplan]
          exact hrep.append hfragrep
        | commit next nh plan' gen' exp' =>
          rw [show ehcOuter m h (outer_fuel + 1) inner_fuel current ch plan gen exp =
              ehcOuter m h outer_fuel inner_fuel next nh plan' gen' exp' from by
            simp [ehcOuter, hg, hir]] at hrun
          obtain ⟨frag, hplan', hfragrep, hwfnext⟩ := hiv.2 next nh plan' gen' exp' hir
          exact ih inner_fuel next nh plan' gen' exp' r hwfnext
            (hplan' ▸ hrep.append hfragrep) hrun hsucc
        | exhausted gen' exp' =>
          rw [show ehcOuter m h (outer_fuel + 1) inner_fuel current ch plan gen exp =
              some ⟨[], false, gen', exp', 0⟩ from by simp [ehcOuter, hg, hir]] at hrun
          simp only [Option.some.injEq] at hrun
          subst hrun
          simp at hsucc

/-- C2: for each of the four algorithms, a finished run that reports
`success = true` returns a plan that replays from the initial state — each
label matching exactly one successor at every step — and ends in a state
satisfying `is_goal_state`.  The initial state is assumed well-formed
(duplicate-free box and key ids), as every state built by
`make_initial_state` is. -/
theorem plan_replay_validity :
    (∀ (m : Maze) (init : State) (fuel : Nat) (r : SearchResult),
      WFState init → breadth_first_search m init fuel = some r → r.success = true →
      ∃ t, ReplayUnique m init r.plan t ∧ is_goal_state m t = true) ∧
    (∀ (m : Maze) (init : State) (h : Maze → State → Int) (fuel : Nat) (r : SearchResult),
      WFState init → greedy_best_first_search m init h fuel = some r → r.success = true →
      ∃ t, ReplayUnique m init r.plan t ∧ is_goal_state m t = true) ∧
    (∀ (m : Maze) (init : State) (h : Maze → State → Int) (fuel : Nat) (r : SearchResult),
      WFState init → a_star_search m init h fuel = some r → r.success = true →
      ∃ t, ReplayUnique m init r.plan t ∧ is_goal_state m t = true) ∧
    (∀ (m : Maze) (init : State) (h : Maze → State → Int) (f1 f2 : Nat) (r : SearchResult),
      WFState init → enforced_hill_climbing m init h f1 f2 = some r → r.success = true →
      ∃ t, ReplayUnique m init r.plan t ∧ is_goal_state m t = true) := by
  refine ⟨?_, ?_, ?_, ?_⟩
  · intro m init fuel r hWF hrun hsucc
    obtain ⟨t, hrep, hgoal, -⟩ := bfsLoop_valid m init fuel [init] [state_key init] [] 1 0 r
      ⟨List.mem_cons_self _ _, rfl, by simp, by
        intro s hs
        simp only [List.mem_singleton] at hs
        subst hs
        exact ⟨hWF, [], Chain.refl, by simp⟩⟩ hrun hsucc
    exact ⟨t, hrep, hgoal⟩
  · intro m init h fuel r hWF hrun hsucc
    obtain ⟨t, hrep, hgoal, -⟩ := greedyLoop_valid m h init fuel [(h m init, 0, init)]
      [state_key init] [] 1 0 1 r
      ⟨List.mem_cons_self _ _, rfl, by simp, by
        intro s hs
        simp only [List.map_cons, List.map_nil, List.mem_singleton] at hs
        subst hs
        exact ⟨hWF, [], Chain.refl, by simp⟩⟩ hrun hsucc
    exact ⟨t, hrep, hgoal⟩
  · intro m init h fuel r hWF hrun hsucc
    obtain ⟨t, hrep, hgoal, -⟩ := astarLoop_valid m h init fuel
      [((init.g : Int) + h m init, 0, init)] [] [] [(state_key init, init.g)] 1 0 1 r
      ⟨⟨init.g, by simp [lookupGV, List.find?], le_refl _⟩, by simp, rfl, by
        intro pq hpq
        simp only [List.mem_singleton] at hpq
        subst hpq
        exact ⟨hWF, [], Chain.refl, by simp⟩⟩ hrun hsucc
    exact ⟨t, hrep, hgoal⟩
  · intro m init h f1 f2 r hWF hrun hsucc
    obtain ⟨t, hrep, hgoal, -⟩ := ehcOuter_valid m h init f1 f2 init (h m init) [] 1 0 r
      hWF (ReplayUnique.nil init) hrun hsucc
    exact ⟨t, hrep, hgoal⟩

/-- C10: for every successful run of each algorithm, `plan_length` equals
the length of the returned plan, which equals the `g` of the goal state the
plan replays to; `make_initial_state` starts at `g = 0` and every transition
adds exactly 1 to `g`. -/
theorem plan_length_equals_goal_g :
    (∀ (soko : Pos) (boxes keys : List (String × Pos)),
      (make_initial_state soko boxes keys).g = 0) ∧
    (∀ (m : Maze) (s : State), ∀ p ∈ get_successors m s,
      (p : State × String).1.g = s.g + 1) ∧
    (∀ (m : Maze) (init : State) (fuel : Nat) (r : SearchResult),
      WFState init → init.g = 0 → breadth_first_search m init fuel = some r →
      r.success = true →
      r.plan_length = r.plan.length ∧
        ∃ t, ReplayUnique m init r.plan t ∧ is_goal_state m t = true ∧
          t.g = r.plan.length) ∧
    (∀ (m : Maze) (init : State) (h : Maze → State → Int) (fuel : Nat) (r : SearchResult),
      WFState init → init.g = 0 → greedy_best_first_search m init h fuel = some r →
      r.success = true →
      r.plan_length = r.plan.length ∧
        ∃ t, ReplayUnique m init r.plan t ∧ is_goal_state m t = true ∧
          t.g = r.plan.length) ∧
    (∀ (m : Maze) (init : State) (h : Maze → State → Int) (fuel : Nat) (r : SearchResult),
      WFState init → init.g = 0 → a_star_search m init h fuel = some r →
      r.success = true →
      r.plan_length = r.plan.length ∧
        ∃ t, ReplayUnique m init r.plan t ∧ is_goal_state m t = true ∧
          t.g = r.plan.length) ∧
    (∀ (m : Maze) (init : State) (h : Maze → State → Int) (f1 f2 : Nat) (r : SearchResult),
      WFState init → init.g = 0 → enforced_hill_climbing m init h f1 f2 = some r →
      r.success = true →
      r.plan_length = r.plan.length ∧
        ∃ t, ReplayUnique m init r.plan t ∧ is_goal_state m t = true ∧
          t.g = r.plan.length) := by
  refine ⟨fun _ _ _ => rfl, succ_g, ?_, ?_, ?_, ?_⟩
  · intro m init fuel r hWF hg0 hrun hsucc
    obtain ⟨t, hrep, hgoal, hlen⟩ := bfsLoop_valid m init fuel [init] [state_key init] [] 1 0 r
      ⟨List.mem_cons_self _ _, rfl, by simp, by
        intro s hs
        simp only [List.mem_singleton] at hs
        subst hs
        exact ⟨hWF, [], Chain.refl, by simp⟩⟩ hrun hsucc
    exact ⟨hlen, t, hrep, hgoal, by rw [hrep.g_eq, hg0]; simp⟩
  · intro m init h fuel r hWF hg0 hrun hsucc
    obtain ⟨t, hrep, hgoal, hlen⟩ := greedyLoop_valid m h init fuel [(h m init, 0, init)]
      [state_key init] [] 1 0 1 r
      ⟨List.mem_cons_self _ _, rfl, by simp, by
        intro s hs
        simp only [List.map_cons, List.map_nil, List.mem_singleton] at hs
        subst hs
        exact ⟨hWF, [], Chain.refl, by simp⟩⟩ hrun hsucc
    exact ⟨hlen, t, hrep, hgoal, by rw [hrep.g_eq, hg0]; simp⟩
  · intro m init h fuel r hWF hg0 hrun hsucc
    obtain ⟨t, hrep, hgoal, hlen⟩ := astarLoop_valid m h init fuel
      [((init.g : Int) + h m init, 0, init)] [] [] [(state_key init, init.g)] 1 0 1 r
      ⟨⟨init.g, by simp [lookupGV, List.find?], le_refl _⟩, by simp, rfl, by
        intro pq hpq
        simp only [List.mem_singleton] at hpq
        subst hpq
        exact ⟨hWF, [], Chain.refl, by simp⟩⟩ hrun hsucc
    exact ⟨hlen, t, hrep, hgoal, by rw [hrep.g_eq, hg0]; simp⟩
  · intro m init h f1 f2 r hWF hg0 hrun hsucc
    obtain ⟨t, hrep, hgoal, hlen⟩ := ehcOuter_valid m h init f1 f2 init (h m init) [] 1 0 r
      hWF (ReplayUnique.nil init) hrun hsucc
    exact ⟨hlen, t, hrep, hgoal, by rw [hrep.g_eq, hg0]; simp⟩

/-- Spec Scenario A: 3-by-3 empty grid, zone `A` at `(2,0)`. -/
def mazeA : Maze := ⟨3, 3, [], [("A", (2, 0))], []⟩

/-- Spec Scenario A initial state: agent at `(0,0)`, box `A` at `(1,0)`. -/
def initA : State := make_initial_state (0, 0) [("A", (1, 0))] []

/-- 1-by-1 world with no boxes: its initial state is already a goal. -/
def mazeT : Maze := ⟨1, 1, [], [], []⟩

/-- The trivial initial state of `mazeT`. -/
def initT : State := make_initial_state (0, 0) [] []

set_option maxRecDepth 4000 in
/-- Witness for C2: BFS on spec Scenario A returns the golden plan, which
replays to a goal; greedy, A* and EHC runs on the trivial goal world return
empty plans that (vacuously) replay to the goal. -/
theorem plan_replay_validity_witness :
    (WFState initA ∧
      breadth_first_search mazeA initA 20 =
        some ⟨["Right", "Lift Box A", "Right", "Drop Box A"], true, 19, 16, 4⟩ ∧
      (SearchResult.mk ["Right", "Lift Box A", "Right", "Drop Box A"] true 19 16 4).success = true ∧
      ∃ t, ReplayUnique mazeA initA ["Right", "Lift Box A", "Right", "Drop Box A"] t ∧
        is_goal_state mazeA t = true) ∧
    (WFState initT ∧
      greedy_best_first_search mazeT initT (fun _ _ => 0) 2 = some ⟨[], true, 1, 1, 0⟩ ∧
      ∃ t, ReplayUnique mazeT initT [] t ∧ is_goal_state mazeT t = true) ∧
    (WFState initT ∧
      a_star_search mazeT initT (fun _ _ => 0) 2 = some ⟨[], true, 1, 1, 0⟩ ∧
      ∃ t, ReplayUnique mazeT initT [] t ∧ is_goal_state mazeT t = true) ∧
    (WFState initT ∧
      enforced_hill_climbing mazeT initT (fun _ _ => 0) 1 1 = some ⟨[], true, 1, 0, 0⟩ ∧
      ∃ t, ReplayUnique mazeT initT [] t ∧ is_goal_state mazeT t = true) :=
  ⟨⟨⟨by decide, by decide⟩, rfl, rfl,
      plan_replay_validity.1 mazeA initA 20
        ⟨["Right", "Lift Box A", "Right", "Drop Box A"], true, 19, 16, 4⟩
        ⟨by decide, by decide⟩ rfl rfl⟩,
    ⟨⟨by decide, by decide⟩, rfl,
      plan_replay_validity.2.1 mazeT initT (fun _ _ => 0) 2 ⟨[], true, 1, 1, 0⟩
        ⟨by decide, by decide⟩ rfl rfl⟩,
    ⟨⟨by decide, by decide⟩, rfl,
      plan_replay_validity.2.2.1 mazeT initT (fun _ _ => 0) 2 ⟨[], true, 1, 1, 0⟩
        ⟨by decide, by decide⟩ rfl rfl⟩,
    ⟨⟨by decide, by decide⟩, rfl,
      plan_replay_validity.2.2.2 mazeT initT (fun _ _ => 0) 1 1 ⟨[], true, 1, 0, 0⟩
        ⟨by decide, by decide⟩ rfl rfl⟩⟩

/-- Witness for C10: the initializer starts at `g = 0`, a concrete
transition costs 1, and on concrete successful runs `plan_length` equals the
plan's length, which equals the replayed goal state's `g`. -/
theorem plan_length_equals_goal_g_witness :
    ((make_initial_state (0, 0) [("A", (1, 0))] []).g = 0) ∧
    ((move_soko initA (1, 0) "Right", "Right") ∈ get_successors mazeA initA ∧
      (move_soko initA (1, 0) "Right").g = initA.g + 1) ∧
    (WFState initT ∧ initT.g = 0 ∧
      breadth_first_search mazeT initT 2 = some ⟨[], true, 1, 1, 0⟩ ∧
      ((SearchResult.mk [] true 1 1 0).plan_length = (SearchResult.mk [] true 1 1 0).plan.length ∧
        ∃ t, ReplayUnique mazeT initT [] t ∧ is_goal_state mazeT t = true ∧
          t.g = ([] : List String).length)) ∧
    (WFState initT ∧ initT.g = 0 ∧
      greedy_best_first_search mazeT initT (fun _ _ => 0) 2 = some ⟨[], true, 1, 1, 0⟩ ∧
      ((SearchResult.mk [] true 1 1 0).plan_length = (SearchResult.mk [] true 1 1 0).plan.length ∧
        ∃ t, ReplayUnique mazeT initT [] t ∧ is_goal_state mazeT t = true ∧
          t.g = ([] : List String).length)) ∧
    (WFState initT ∧ initT.g = 0 ∧
      a_star_search mazeT initT (fun _ _ => 0) 2 = some ⟨[], true, 1, 1, 0⟩ ∧
      ((SearchResult.mk [] true 1 1 0).plan_length = (SearchResult.mk [] true 1 1 0).plan.length ∧
        ∃ t, ReplayUnique mazeT initT [] t ∧ is_goal_state mazeT t = true ∧
          t.g = ([] : List String).length)) ∧
    (WFState initT ∧ initT.g = 0 ∧
      enforced_hill_climbing mazeT initT (fun _ _ => 0) 1 1 = some ⟨[], true, 1, 0, 0⟩ ∧
      ((SearchResult.mk [] true 1 0 0).plan_length = (SearchResult.mk [] true 1 0 0).plan.length ∧
        ∃ t, ReplayUnique mazeT initT [] t ∧ is_goal_state mazeT t = true ∧
          t.g = ([] : List String).length)) :=
  ⟨plan_length_equals_goal_g.1 (0, 0) [("A", (1, 0))] [],
    ⟨by decide, plan_length_equals_goal_g.2.1 mazeA initA
      (move_soko initA (1, 0) "Right", "Right") (by decide)⟩,
    ⟨⟨by decide, by decide⟩, rfl, rfl,
      plan_length_equals_goal_g.2.2.1 mazeT initT 2 ⟨[], true, 1, 1, 0⟩
        ⟨by decide, by decide⟩ rfl rfl rfl⟩,
    ⟨⟨by decide, by decide⟩, rfl, rfl,
      plan_length_equals_goal_g.2.2.2.1 mazeT initT (fun _ _ => 0) 2 ⟨[], true, 1, 1, 0⟩
        ⟨by decide, by decide⟩ rfl rfl rfl⟩,
    ⟨⟨by decide, by decide⟩, rfl, rfl,
      plan_length_equals_goal_g.2.2.2.2.1 mazeT initT (fun _ _ => 0) 2 ⟨[], true, 1, 1, 0⟩
        ⟨by decide, by decide⟩ rfl rfl rfl⟩,
    ⟨⟨by decide, by decide⟩, rfl, rfl,
      plan_length_equals_goal_g.2.2.2.2.2 mazeT initT (fun _ _ => 0) 1 1 ⟨[], true, 1, 0, 0⟩
        ⟨by decide, by decide⟩ rfl rfl rfl⟩⟩

/-- An arbitrary sequence of `get_successors` transitions from `init`,
counted by length (the claim's "sequence of transitions"). -/
inductive Steps (m : Maze) (init : State) : Nat → State → Prop
  | nil : Steps m init 0 init
  | snoc {n : Nat} {t t' : State} {a : String} :
      Steps m init n t → (t', a) ∈ get_successors m t → Steps m init (n + 1) t'

/-- Replace the accumulated cost of a state. -/
def withG (s : State) (n : Nat) : State :=
  ⟨s.soko_pos, s.carried_box, s.box_positions, s.keys_owned, s.keys_on_floor, n⟩

theorem state_key_withG (s : State) (n : Nat) : state_key (withG s n) = state_key s := rfl

theorem withG_eq_of_key_eq {s₁ s₂ : State} (h : state_key s₁ = state_key s₂) :
    s₂ = withG s₁ s₂.g := by
  obtain ⟨p₁, c₁, b₁, o₁, f₁, g₁⟩ := s₁
  obtain ⟨p₂, c₂, b₂, o₂, f₂, g₂⟩ := s₂
  simp only [state_key, Prod.mk.injEq] at h
  obtain ⟨h1, h2, h3, h4, h5⟩ := h
  simp [withG, h1, h2, h3, h4, h5]

/-- The goal test only reads `box_positions`, so it is determined by the
canonical key. -/
theorem is_goal_key_eq (m : Maze) {t₁ t₂ : State} (h : state_key t₁ = state_key t₂) :
    is_goal_state m t₁ = is_goal_state m t₂ := by
  rw [withG_eq_of_key_eq h]
  rfl

/-- Successor generation ignores `g` except to increment it: the successors
of a reweighted state are the reweighted successors. -/
theorem get_successors_withG (m : Maze) (s : State) (n : Nat) :
    get_successors m (withG s n) =
      (get_successors m s).map (fun p => (withG (p : State × String).1 (n + 1), p.2)) := by
  obtain ⟨pos, cb, bp, ko, kf, g⟩ := s
  cases cb with
  | none =>
      simp [get_successors, withG, move_soko, take_key, lift_box, can_move_to,
        List.map_map, Function.comp_def]
  | some box_id =>
      cases hz : lookupPos m.zones box_id with
      | none =>
          simp [get_successors, withG, move_soko, take_key, drop_box, can_move_to,
            hz, List.map_map, Function.comp_def]
      | some zone_pos =>
          by_cases hsz : pos = zone_pos
          · simp [get_successors, withG, move_soko, take_key, drop_box, can_move_to,
              hz, hsz, List.map_map, Function.comp_def]
          · simp [get_successors, withG, move_soko, take_key, drop_box, can_move_to,
              hz, hsz, List.map_map, Function.comp_def]

/-- Successor lifting along equal canonical keys. -/
theorem succ_lift (m : Maze) {s₁ s₂ s' : State} {a : String}
    (hk : state_key s₁ = state_key s₂) (hmem : (s', a) ∈ get_successors m s₁) :
    ∃ s'', (s'', a) ∈ get_successors m s₂ ∧ state_key s'' = state_key s' := by
  rw [withG_eq_of_key_eq hk, get_successors_withG]
  exact ⟨withG s' (s₂.g + 1),
    List.mem_map_of_mem (fun p => (withG (p : State × String).1 (s₂.g + 1), p.2)) hmem,
    state_key_withG s' _⟩

/-- Level-order invariant of `breadth_first_search` sufficient for optimality:
the frontier is sorted by `g` and spans at most two consecutive depths, every
frontier state was discovered at its minimal distance from `init`, and every
explored key is either still on the frontier or belongs to a fully expanded
non-goal key whose successor keys are all explored. -/
def BOpt (m : Maze) (init : State) (frontier : List State)
    (explored : List StateKey) : Prop :=
  state_key init ∈ explored ∧
  List.Pairwise (fun a b : State => a.g ≤ b.g) frontier ∧
  (∀ s ∈ frontier, ∀ u ∈ frontier, s.g ≤ u.g + 1) ∧
  (∀ k ∈ explored,
      (∃ u ∈ frontier, state_key u = k) ∨
      ((∀ t : State, state_key t = k → is_goal_state m t = false) ∧
       (∀ t : State, state_key t = k → ∀ p ∈ get_successors m t,
           state_key (p : State × String).1 ∈ explored))) ∧
  (∀ u ∈ frontier, ∀ (n : Nat) (t : State), Steps m init n t →
      state_key t = state_key u → u.g ≤ init.g + n)

/-- Under `BOpt`, any state reachable in fewer steps than every frontier
depth allows already has an explored key. -/
theorem bopt_coverage {m : Maze} {init : State} {frontier : List State}
    {explored : List StateKey} (hinv : BOpt m init frontier explored) :
    ∀ (n : Nat) (t : State), Steps m init n t →
      (∀ u ∈ frontier, init.g + n < u.g) → state_key t ∈ explored := by
  intro n t hsteps
  induction hsteps with
  | nil => exact fun _ => hinv.1
  | snoc hst hedge ih =>
    rename_i n t t' a
    intro hlt
    have hexp : state_key t ∈ explored := ih (fun u hu => by have := hlt u hu; omega)
    rcases hinv.2.2.2.1 _ hexp with ⟨u, hu, hku⟩ | ⟨_, hclosed⟩
    · have hE := hinv.2.2.2.2 u hu n t hst hku.symm
      have := hlt u hu
      omega
    · exact hclosed t rfl _ hedge

/-- A key that is still unexplored cannot be reached from `init` in fewer
steps than the next BFS level `cur.g + 1` allows. -/
theorem bopt_new_key_depth {m : Maze} {init cur : State} {rest : List State}
    {explored : List StateKey} (hinv : BOpt m init (cur :: rest) explored)
    {k : StateKey} (hk : k ∉ explored) :
    ∀ (n : Nat) (t : State), Steps m init n t → state_key t = k →
      cur.g + 1 ≤ init.g + n := by
  intro n t hsteps hkey
  by_contra hcon
  have hcon' : init.g + n < cur.g + 1 := Nat.lt_of_not_le hcon
  have hhead : ∀ u ∈ cur :: rest, cur.g ≤ u.g := by
    intro u hu
    rcases List.mem_cons.mp hu with rfl | hu'
    · exact le_refl _
    · exact (List.pairwise_cons.mp hinv.2.1).1 u hu'
  cases hsteps with
  | nil => exact hk (hkey ▸ hinv.1)
  | snoc hst hedge =>
    rename_i n' t₀ a
    have hcov : state_key t₀ ∈ explored := by
      refine bopt_coverage hinv n' t₀ hst (fun u hu => ?_)
      have := hhead u hu
      omega
    rcases hinv.2.2.2.1 _ hcov with ⟨u, hu, hku⟩ | ⟨_, hclosed⟩
    · have hE := hinv.2.2.2.2 u hu n' t₀ hst hku.symm
      have := hhead u hu
      omega
    · exact hk (hkey ▸ hclosed t₀ rfl _ hedge)

/-- The successor loop of BFS preserves the optimality bookkeeping: the
explored set only grows and ends up containing the key of every processed
successor, the appended frontier stays sorted inside the two-level window
from `cur.g` to `cur.g + 1`, the explored-key trichotomy (still on the
frontier, equal to `cur`'s key, or fully expanded non-goal) persists, and
every frontier state keeps its minimal-depth certificate. -/
theorem bfsExpand_bopt (m : Maze) (init cur : State) (rest₀ : List State)
    (explored₀ : List StateKey) (hinv₀ : BOpt m init (cur :: rest₀) explored₀) :
    ∀ (L : List (State × String)) (frontier : List State)
      (explored : List StateKey) (cf : CameFrom) (gen : Nat),
      (∀ p ∈ L, p ∈ get_successors m cur) →
      explored₀ ⊆ explored →
      (∀ x ∈ frontier, cur.g ≤ x.g ∧ x.g ≤ cur.g + 1) →
      List.Pairwise (fun a b : State => a.g ≤ b.g) frontier →
      (∀ k ∈ explored,
          (∃ u ∈ frontier, state_key u = k) ∨ k = state_key cur ∨
          ((∀ t : State, state_key t = k → is_goal_state m t = false) ∧
           (∀ t : State, state_key t = k → ∀ p ∈ get_successors m t,
               state_key (p : State × String).1 ∈ explored))) →
      (∀ u ∈ frontier, ∀ (n : Nat) (t : State), Steps m init n t →
          state_key t = state_key u → u.g ≤ init.g + n) →
      explored ⊆ (bfsExpand cur L frontier explored cf gen).2.1 ∧
      (∀ p ∈ L,
          state_key (p : State × String).1 ∈ (bfsExpand cur L frontier explored cf gen).2.1) ∧
      (∀ x ∈ (bfsExpand cur L frontier explored cf gen).1,
          cur.g ≤ x.g ∧ x.g ≤ cur.g + 1) ∧
      List.Pairwise (fun a b : State => a.g ≤ b.g)
        (bfsExpand cur L frontier explored cf gen).1 ∧
      (∀ k ∈ (bfsExpand cur L frontier explored cf gen).2.1,
          (∃ u ∈ (bfsExpand cur L frontier explored cf gen).1, state_key u = k) ∨
          k = state_key cur ∨
          ((∀ t : State, state_key t = k → is_goal_state m t = false) ∧
           (∀ t : State, state_key t = k → ∀ p ∈ get_successors m t,
               state_key (p : State × String).1 ∈
                 (bfsExpand cur L frontier explored cf gen).2.1))) ∧
      (∀ u ∈ (bfsExpand cur L frontier explored cf gen).1,
          ∀ (n : Nat) (t : State), Steps m init n t →
            state_key t = state_key u → u.g ≤ init.g + n) := by
  intro L
  induction L with
  | nil =>
    intro frontier explored cf gen _ _ hwin hsort htri hE
    simp only [bfsExpand]
    exact ⟨fun _ h => h, by simp, hwin, hsort, htri, hE⟩
  | cons head tail ih =>
    intro frontier explored cf gen hsub hsubE hwin hsort htri hE
    obtain ⟨succ, action⟩ := head
    have hsuccmem : (succ, action) ∈ get_successors m cur := hsub _ (List.mem_cons_self _ _)
    have hsuccg : succ.g = cur.g + 1 := succ_g m cur (succ, action) hsuccmem
    by_cases hex : state_key succ ∈ explored
    · simp only [bfsExpand, if_pos hex]
      obtain ⟨hmono, hproc, hwin', hsort', htri', hE'⟩ :=
        ih frontier explored cf gen (fun p hp => hsub p (List.mem_cons_of_mem _ hp))
          hsubE hwin hsort htri hE
      refine ⟨hmono, ?_, hwin', hsort', htri', hE'⟩
      intro p hp
      rcases List.mem_cons.mp hp with rfl | hp'
      · exact hmono hex
      · exact hproc p hp'
    · simp only [bfsExpand, if_neg hex]
      have hwin'' : ∀ x ∈ frontier ++ [succ], cur.g ≤ x.g ∧ x.g ≤ cur.g + 1 := by
        intro x hx
        rcases List.mem_append.mp hx with hx' | hx'
        · exact hwin x hx'
        · simp only [List.mem_singleton] at hx'
          subst hx'
          omega
      have hsort'' : List.Pairwise (fun a b : State => a.g ≤ b.g) (frontier ++ [succ]) := by
        rw [List.pairwise_append]
        refine ⟨hsort, List.pairwise_singleton _ _, ?_⟩
        intro x hx y hy
        simp only [List.mem_singleton] at hy
        subst hy
        have := (hwin x hx).2
        omega
      have htri'' : ∀ k ∈ state_key succ :: explored,
          (∃ u ∈ frontier ++ [succ], state_key u = k) ∨ k = state_key cur ∨
          ((∀ t : State, state_key t = k → is_goal_state m t = false) ∧
           (∀ t : State, state_key t = k → ∀ p ∈ get_successors m t,
               state_key (p : State × String).1 ∈ state_key succ :: explored)) := by
        intro k hk
        rcases List.mem_cons.mp hk with rfl | hk'
        · exact Or.inl ⟨succ, List.mem_append.mpr (Or.inr (List.mem_singleton.mpr rfl)), rfl⟩
        · rcases htri k hk' with ⟨u, hu, hku⟩ | hmid | ⟨hng, hcl⟩
          · exact Or.inl ⟨u, List.mem_append.mpr (Or.inl hu), hku⟩
          · exact Or.inr (Or.inl hmid)
          · exact Or.inr (Or.inr ⟨hng, fun t ht p hp =>
              List.mem_cons_of_mem _ (hcl t ht p hp)⟩)
      have hE'' : ∀ u ∈ frontier ++ [succ], ∀ (n : Nat) (t : State), Steps m init n t →
          state_key t = state_key u → u.g ≤ init.g + n := by
        intro u hu n t hst hkey
        rcases List.mem_append.mp hu with hu' | hu'
        · exact hE u hu' n t hst hkey
        · simp only [List.mem_singleton] at hu'
          subst hu'
          have hk₀ : state_key u ∉ explored₀ := fun h => hex (hsubE h)
          have := bopt_new_key_depth hinv₀ hk₀ n t hst hkey
          omega
      obtain ⟨hmono, hproc, hwin', hsort', htri', hE'⟩ :=
        ih (frontier ++ [succ]) (state_key succ :: explored) ((succ, cur, action) :: cf)
          (gen + 1) (fun p hp => hsub p (List.mem_cons_of_mem _ hp))
          (fun k hk => List.mem_cons_of_mem _ (hsubE hk)) hwin'' hsort'' htri'' hE''
      refine ⟨fun k hk => hmono (List.mem_cons_of_mem _ hk), ?_, hwin', hsort', htri', hE'⟩
      intro p hp
      rcases List.mem_cons.mp hp with rfl | hp'
      · exact hmono (List.mem_cons_self _ _)
      · exact hproc p hp'

/-- After a full, non-goal expansion of the frontier head, the optimality
invariant holds again for the new frontier and explored set. -/
theorem bfsExpand_bopt_full (m : Maze) (init cur : State) (rest : List State)
    (explored : List StateKey) (cf : CameFrom) (gen : Nat)
    (hinv : BOpt m init (cur :: rest) explored)
    (hg : is_goal_state m cur = false) :
    BOpt m init (bfsExpand cur (get_successors m cur) rest explored cf gen).1
      (bfsExpand cur (get_successors m cur) rest explored cf gen).2.1 := by
  have hhead : ∀ x ∈ rest, cur.g ≤ x.g := (List.pairwise_cons.mp hinv.2.1).1
  have hwin₀ : ∀ x ∈ rest, cur.g ≤ x.g ∧ x.g ≤ cur.g + 1 := fun x hx =>
    ⟨hhead x hx,
     hinv.2.2.1 x (List.mem_cons_of_mem _ hx) cur (List.mem_cons_self _ _)⟩
  have htri₀ : ∀ k ∈ explored,
      (∃ u ∈ rest, state_key u = k) ∨ k = state_key cur ∨
      ((∀ t : State, state_key t = k → is_goal_state m t = false) ∧
       (∀ t : State, state_key t = k → ∀ p ∈ get_successors m t,
           state_key (p : State × String).1 ∈ explored)) := by
    intro k hk
    rcases hinv.2.2.2.1 k hk with ⟨u, hu, hku⟩ | hcl
    · rcases List.mem_cons.mp hu with rfl | hu'
      · exact Or.inr (Or.inl hku.symm)
      · exact Or.inl ⟨u, hu', hku⟩
    · exact Or.inr (Or.inr hcl)
  obtain ⟨hmono, hproc, hwin', hsort', htri', hE'⟩ :=
    bfsExpand_bopt m init cur rest explored hinv (get_successors m cur) rest explored cf gen
      (fun p hp => hp) (fun k hk => hk) hwin₀ (List.pairwise_cons.mp hinv.2.1).2 htri₀
      (fun u hu => hinv.2.2.2.2 u (List.mem_cons_of_mem _ hu))
  refine ⟨hmono hinv.1, hsort', ?_, ?_, hE'⟩
  · intro s hs u hu
    have h1 := (hwin' s hs).2
    have h2 := (hwin' u hu).1
    omega
  · intro k hk
    rcases htri' k hk with ⟨u, hu, hku⟩ | hmid | hcl
    · exact Or.inl ⟨u, hu, hku⟩
    · subst hmid
      refine Or.inr ⟨?_, ?_⟩
      · intro t ht
        rw [is_goal_key_eq m ht]
        exact hg
      · intro t ht p hp
        obtain ⟨ps, pa⟩ := p
        obtain ⟨q, hqmem, hqkey⟩ := succ_lift m ht hp
        rw [← hqkey]
        exact hproc (q, pa) hqmem
    · exact Or.inr hcl

/-- A successful finished BFS run returns a plan no longer than any
transition sequence from `init` to a goal-satisfying state. -/
theorem bfsLoop_optimal (m : Maze) (init : State) :
    ∀ (fuel : Nat) (frontier : List State) (explored : List StateKey) (cf : CameFrom)
      (gen exp : Nat) (r : SearchResult),
      BfsInv m init frontier explored cf →
      BOpt m init frontier explored →
      bfsLoop m fuel frontier explored cf gen exp = some r →
      r.success = true →
      ∀ (n : Nat) (t : State), Steps m init n t → is_goal_state m t = true →
        r.plan.length ≤ n ∧ r.plan_length = r.plan.length := by
  intro fuel
  induction fuel with
  | zero =>
    intro frontier explored cf gen exp r _ _ hrun _
    simp [bfsLoop] at hrun
  | succ fuel ih =>
    intro frontier explored cf gen exp r hinv hopt hrun hsucc
    cases frontier with
    | nil =>
      simp only [bfsLoop, Option.some.injEq] at hrun
      subst hrun
      simp at hsucc
    | cons current rest =>
      obtain ⟨hwfc, cplan, hchainc, hlenc⟩ := hinv.2.2.2 current (List.mem_cons_self _ _)
      cases hg : is_goal_state m current with
      | true =>
        have hrp : reconstruct_plan cf current = some cplan :=
          chain_reconstruct hchainc hinv.2.1 (by omega)
        rw [show bfsLoop m (fuel + 1) (current :: rest) explored cf gen exp =
            some ⟨cplan, true, gen, exp + 1, cplan.length⟩ from by
          simp [bfsLoop, hg, hrp]] at hrun
        simp only [Option.some.injEq] at hrun
        subst hrun
        intro n t hsteps hgoal
        refine ⟨?_, rfl⟩
        by_contra hcon
        have hlt : n < cplan.length := Nat.lt_of_not_le hcon
        have hcurg : current.g = init.g + cplan.length := chain_g hchainc
        have hcov : state_key t ∈ explored := by
          refine bopt_coverage hopt n t hsteps (fun u hu => ?_)
          rcases List.mem_cons.mp hu with rfl | hu'
          · omega
          · have h1 := (List.pairwise_cons.mp hopt.2.1).1 u hu'
            omega
        rcases hopt.2.2.2.1 _ hcov with ⟨u, hu, hku⟩ | ⟨hng, -⟩
        · have hEdep := hopt.2.2.2.2 u hu n t hsteps hku.symm
          have hcg : current.g ≤ u.g := by
            rcases List.mem_cons.mp hu with rfl | hu'
            · exact le_refl _
            · exact (List.pairwise_cons.mp hopt.2.1).1 u hu'
          omega
        · exact absurd hgoal (by simp [hng t rfl])
      | false =>
        rcases hExp : bfsExpand current (get_successors m current) rest explored cf gen with
          ⟨fr', ex', cf', gen'⟩
        rw [show bfsLoop m (fuel + 1) (current :: rest) explored cf gen exp =
            bfsLoop m fuel fr' ex' cf' gen' (exp + 1) from by
          simp [bfsLoop, hg, hExp]] at hrun
        have hinv' := bfsExpand_inv m init current hwfc (get_successors m current)
          rest explored cf gen (fun p hp => hp) ⟨cplan, hchainc, hlenc⟩
          ⟨hinv.1, hinv.2.1, hinv.2.2.1, fun s hs =>
            hinv.2.2.2 s (List.mem_cons_of_mem _ hs)⟩
        have hopt' := bfsExpand_bopt_full m init current rest explored cf gen hopt hg
        rw [hExp] at hinv' hopt'
        exact ih fr' ex' cf' gen' (exp + 1) r hinv' hopt' hrun hsucc

/-- C5: whenever `breadth_first_search` finishes with `success = true`, the
returned plan's action count (both the plan list length and the reported
`plan_length`) is minimal: no sequence of `get_successors` transitions leads
from the initial state to a goal-satisfying state in strictly fewer actions. -/
theorem bfs_plan_optimality (m : Maze) (init : State) (fuel : Nat)
    (r : SearchResult) (hWF : WFState init)
    (hrun : breadth_first_search m init fuel = some r)
    (hsucc : r.success = true) :
    ∀ (n : Nat) (t : State), Steps m init n t → is_goal_state m t = true →
      r.plan.length ≤ n ∧ r.plan_length ≤ n := by
  intro n t hsteps hgoal
  have hinv : BfsInv m init [init] [state_key init] [] :=
    ⟨List.mem_cons_self _ _, rfl, by simp, by
      intro s hs
      simp only [List.mem_singleton] at hs
      subst hs
      exact ⟨hWF, [], Chain.refl, by simp⟩⟩
  have hopt : BOpt m init [init] [state_key init] := by
    refine ⟨List.mem_cons_self _ _, List.pairwise_singleton _ _, ?_, ?_, ?_⟩
    · intro s hs u hu
      simp only [List.mem_singleton] at hs hu
      subst hs
      subst hu
      omega
    · intro k hk
      simp only [List.mem_singleton] at hk
      exact Or.inl ⟨init, List.mem_singleton.mpr rfl, hk.symm⟩
    · intro u hu n' t' _ _
      simp only [List.mem_singleton] at hu
      subst hu
      omega
  obtain ⟨h1, h2⟩ := bfsLoop_optimal m init fuel [init] [state_key init] [] 1 0 r
    hinv hopt hrun hsucc n t hsteps hgoal
  exact ⟨h1, by omega⟩

/-- Witness for C5 at a concrete run on the trivial maze: the hypotheses are
discharged by evaluation and the empty returned plan is no longer than the
zero-step path from the initial (already goal-satisfying) state. -/
theorem bfs_plan_optimality_witness :
    WFState initT ∧
    breadth_first_search mazeT initT 2 = some ⟨[], true, 1, 1, 0⟩ ∧
    is_goal_state mazeT initT = true ∧
    ((⟨[], true, 1, 1, 0⟩ : SearchResult).plan.length ≤ 0 ∧
     (⟨[], true, 1, 1, 0⟩ : SearchResult).plan_length ≤ 0) :=
  ⟨⟨by decide, by decide⟩, rfl, by decide,
   bfs_plan_optimality mazeT initT 2 ⟨[], true, 1, 1, 0⟩ ⟨by decide, by decide⟩ rfl rfl 0 initT
     Steps.nil (by decide)⟩

end Soko
